import Mathlib

/-!
Verification of the TECMFS RAID-5 coordinator (src/controller/raid5.py,
src/controller/main.py) against its natural-language specification.

Bytes are modelled as lists of natural numbers; Python byte strings are
lists of values below 256, but none of the arithmetic here needs the
bound, so it is not imposed.  Block identifiers are genuine strings,
built exactly as the f-strings in the source build them, because the
read path of the source sorts and re-parses those strings and the
claims hinge on that behaviour.
-/

namespace Tecmfs

abbrev Bytes := List Nat

/-- Right-pad a byte string with zero bytes up to length `n`
(`block + b0 * (n - len(block))` in the source). -/
def padTo (b : Bytes) (n : Nat) : Bytes := b ++ List.replicate (n - b.length) 0

/-- Byte-wise XOR of two byte strings
(`bytes(a ^ b for a, b in zip(parity, block))` in `_calculate_parity`). -/
def xorBytes (a b : Bytes) : Bytes := List.zipWith Nat.xor a b

/-- One iteration of the loop in `RAID5Manager._calculate_parity`: the
shorter operand is right-zero-padded to the longer one, then the two are
XORed byte-wise. -/
def parityStep (parity block : Bytes) : Bytes :=
  let block' := if block.length < parity.length then padTo block parity.length else block
  let parity' := if parity.length < block'.length then padTo parity block'.length else parity
  xorBytes parity' block'

/-- `RAID5Manager._calculate_parity`: XOR of a list of blocks, the empty
list giving the empty byte string. -/
def calculate_parity (data_blocks : List Bytes) : Bytes :=
  match data_blocks with
  | [] => []
  | p :: rest => rest.foldl parityStep p

/-- Number of chunks produced by `range(0, L, bs)`, i.e. the ceiling of
`L / bs` (meaningful for `bs > 0`; the source raises for `bs = 0`). -/
def chunkCount (bs L : Nat) : Nat := (L + bs - 1) / bs

/-- The chunk `data[j*bs : j*bs+bs]` right-zero-padded to `bs` bytes, as
built by the loop in `RAID5Manager._distribute_blocks`. -/
def chunkAt (bs : Nat) (data : Bytes) (j : Nat) : Bytes :=
  padTo ((data.drop (j * bs)).take bs) bs

/-- `RAID5Manager._distribute_blocks`: split `data` into blocks of
`block_size` bytes (the last one zero-padded) and compute their parity. -/
def distribute_blocks (bs : Nat) (data : Bytes) : List Bytes × Bytes :=
  let blocks := (List.range (chunkCount bs data.length)).map (chunkAt bs data)
  (blocks, calculate_parity blocks)

/-- `RAID5Manager._get_parity_disk`: rotating parity placement. -/
def get_parity_disk (num_disks stripe_number : Nat) : Nat :=
  stripe_number % num_disks

/-- `RAID5Manager._get_block_id`. -/
def get_block_id (file_id block_index : String) : String :=
  file_id ++ "_block_" ++ block_index

/-- Identifier of the data block at stripe `i`, position `j`
(the source passes the f-string `i_j` to `_get_block_id`). -/
def mkDataId (fid : String) (i j : Nat) : String :=
  get_block_id fid (toString i ++ "_" ++ toString j)

/-- Identifier of the parity block of stripe `i`
(the source passes the f-string `parity_i` to `_get_block_id`). -/
def mkParityId (fid : String) (i : Nat) : String :=
  get_block_id fid ("parity_" ++ toString i)

/-- Disk identifier `disk_{index+1}` as built in `store_file`. -/
def diskName (idx : Nat) : String := "disk_" ++ toString (idx + 1)

/-- Payload size of one stripe: `block_size * (num_disks - 1)`. -/
def stripeSize (bs N : Nat) : Nat := bs * (N - 1)

/-- Number of stripes of a file of length `L`, i.e. the number of chunks
of `stripeSize` bytes cut by the list comprehension in `store_file`. -/
def numStripes (bs N L : Nat) : Nat := chunkCount (stripeSize bs N) L

/-- Payload of stripe `i`: `content[i*ss : (i+1)*ss]` (not padded). -/
def stripeData (bs N : Nat) (content : Bytes) (i : Nat) : Bytes :=
  (content.drop (i * stripeSize bs N)).take (stripeSize bs N)

/-- The list `[j for j in range(self.num_disks) if j != parity_disk_index]`
from `store_file`. -/
def dataDisks (N p : Nat) : List Nat := (List.range N).filter (fun j => j != p)

structure FileMetadata where
  file_id : String
  filename : String
  size : Nat
  blocks : List (String × String)
  parity_blocks : List (String × String)
deriving Repr, DecidableEq

/-- One HTTP store call accepted by a disk node. -/
structure BlockWrite where
  disk_id : String
  block_id : String
  data : Bytes
deriving Repr, DecidableEq

structure StoreResult where
  file_id : String
  metadata : FileMetadata
  writes : List BlockWrite
  next_stripe_number : Nat
deriving Repr, DecidableEq

/-- Data-block entries of one stripe: for each `j`, the block identifier,
the target disk `data_disk_indices[j]` and the block bytes, exactly as
the `for j, block_data in enumerate(data_blocks)` loop of `store_file`
produces them. -/
def stripeDataEntries (bs N : Nat) (fid : String) (S i : Nat) (sd : Bytes) :
    List (String × String × Bytes) :=
  (List.range (chunkCount bs sd.length)).map (fun j =>
    (mkDataId fid i j,
     diskName ((dataDisks N (get_parity_disk N S)).getD j 0),
     chunkAt bs sd j))

/-- `RAID5Manager.store_file`.  The file identifier is a parameter (the
source draws a fresh UUID4, a string without underscores).  The function
`ok` models the outcome of `_store_block_to_disk` for each disk: when it
is false the block is not stored (offline disk, or a failed HTTP call,
both of which the source merely logs before continuing).  Note that the
metadata is committed and the identifier returned regardless of `ok`. -/
def store_file (bs N next0 : Nat) (ok : String → Bool) (fid fn : String)
    (content : Bytes) : StoreResult :=
  let m := numStripes bs N content.length
  let perStripe := (List.range m).map (fun i =>
    let sd := stripeData bs N content i
    let S := next0 + i
    (stripeDataEntries bs N fid S i sd,
     (mkParityId fid i, diskName (get_parity_disk N S), (distribute_blocks bs sd).2)))
  let block_locations :=
    (perStripe.map (fun st => st.1.map (fun e => (e.1, e.2.1)))).flatten
  let parity_locations := perStripe.map (fun st => (st.2.1, st.2.2.1))
  let writes :=
    ((perStripe.map (fun st => st.1 ++ [st.2])).flatten).filterMap
      (fun e => if ok e.2.1 then some ⟨e.2.1, e.1, e.2.2⟩ else none)
  { file_id := fid
    metadata :=
      { file_id := fid, filename := fn, size := content.length,
        blocks := block_locations, parity_blocks := parity_locations }
    writes := writes
    next_stripe_number := next0 + m }

/-- First-match association lookup, the model of Python dict access
(all dictionaries in the source have unique keys, so first match and
last match agree). -/
def assocGet {α β : Type} [DecidableEq α] (k : α) : List (α × β) → Option β
  | [] => none
  | e :: rest => if e.1 = k then some e.2 else assocGet k rest

/-- Python dict item assignment `d[k] = v`: replace in place if the key
is present, otherwise append at the end (dicts preserve insertion
order). -/
def assocUpsert {α β : Type} [DecidableEq α] : List (α × β) → α → β → List (α × β)
  | [], k, v => [(k, v)]
  | e :: rest, k, v =>
    if e.1 = k then (k, v) :: rest else e :: assocUpsert rest k v

/-- Python dict union `a | b` and `a.update(b)`: entries of `b` are
written into `a` one by one in order. -/
def dictUpdate {α β : Type} [DecidableEq α] (a b : List (α × β)) : List (α × β) :=
  b.foldl (fun acc e => assocUpsert acc e.1 e.2) a

/-- The block store across all disk nodes, keyed by (disk id, block id):
each node keeps one blob per block id in its storage directory. -/
abbrev DiskStore := List ((String × String) × Bytes)

def applyWrites (d : DiskStore) (ws : List BlockWrite) : DiskStore :=
  ws.foldl (fun acc w => assocUpsert acc (w.disk_id, w.block_id) w.data) d

/-- What `_retrieve_block_from_disk` yields against a healthy disk store:
the stored bytes, or `none` when the node holds no such block (404). -/
def diskFetch (d : DiskStore) (bid did : String) : Option Bytes :=
  assocGet (did, bid) d

/-- Fetch environment in which every call that touches node index `n`
fails (offline node): `_retrieve_block_from_disk` returns `None` for it. -/
def offlineFetch (d : DiskStore) (n : Nat) (bid did : String) : Option Bytes :=
  if did = diskName n then none else diskFetch d bid did

/-- `str.split` on the underscore character, operating on the character
list of the identifier (`block_id.split(chr(95))` in the source). -/
def splitU : List Char → List (List Char)
  | [] => [[]]
  | c :: rest =>
    if c = '_' then [] :: splitU rest
    else
      match splitU rest with
      | [] => [[c]]
      | g :: gs => (c :: g) :: gs

def charDigit (c : Char) : Option Nat :=
  if '0' ≤ c ∧ c ≤ '9' then some (c.toNat - '0'.toNat) else none

/-- Python `int(s)` restricted to plain digit strings, which is the only
shape the block-id parser ever meets on identifiers generated by
`store_file`; any other string yields `none` (the `ValueError` branch). -/
def parseNat (cs : List Char) : Option Nat :=
  if cs.isEmpty then none
  else cs.foldl (fun acc c =>
    match acc, charDigit c with
    | some n, some d => some (n * 10 + d)
    | _, _ => none) (some 0)

/-- The stripe-index parser of `_reconstruct_data`: split the identifier
on underscores; if the second-to-last part is the word parity, the index
is the last part, otherwise the second-to-last part.  `none` models both
the `IndexError` (fewer than two parts) and the `ValueError` (non-digit
part) of the source. -/
def parseStripeIndex (bid : String) : Option Nat :=
  match (splitU bid.data).reverse with
  | last :: penult :: _ =>
    if penult = "parity".data then parseNat last else parseNat penult
  | _ => none

/-- `stripes[stripe_index][block_id] = disk_id` with defaulting creation
of the inner dict, as in the grouping loop of `_reconstruct_data`. -/
def addToGroup (gs : List (Nat × List (String × String))) (i : Nat)
    (e : String × String) : List (Nat × List (String × String)) :=
  match gs with
  | [] => [(i, [e])]
  | g :: rest =>
    if g.1 = i then (g.1, assocUpsert g.2 e.1 e.2) :: rest
    else g :: addToGroup rest i e

/-- The per-stripe grouping dict built by the first loop of
`_reconstruct_data`; entries whose identifier does not parse are skipped
(the caught `IndexError` / `ValueError` branch that only prints). -/
def buildStripes (entries : List (String × String)) :
    List (Nat × List (String × String)) :=
  entries.foldl (fun gs e =>
    match parseStripeIndex e.1 with
    | some i => addToGroup gs i e
    | none => gs) []

/-- The sibling-collection loop of `_reconstruct_data`: for every block
of the stripe other than the failed one, use the already-retrieved bytes
when present and non-empty, otherwise fetch from the recorded disk; a
missing sibling aborts with the multiple-disk-failure exception. -/
def fetchSiblings (retrieved : List (String × Bytes))
    (fetch : String → String → Option Bytes)
    (sibs : List (String × String)) : Except String (List Bytes) :=
  sibs.foldlM (fun acc sib =>
    let cached := (assocGet sib.1 retrieved).getD []
    let bd := if cached = [] then fetch sib.1 sib.2 else some cached
    match bd with
    | none => Except.error "Fallo de disco multiple irrecuperable en la franja"
    | some d => Except.ok (acc ++ [d])) []

/-- `RAID5Manager._reconstruct_data`.  Returns the reconstructed blocks
in the order of the failed blocks, or the first exception raised. -/
def reconstruct_data (md : FileMetadata) (failed : List (String × String))
    (retrieved : List (String × Bytes))
    (fetch : String → String → Option Bytes) :
    Except String (List (String × Bytes)) :=
  let all_stripe_blocks := dictUpdate md.blocks md.parity_blocks
  let stripes := buildStripes all_stripe_blocks
  failed.foldlM (fun acc fb =>
    match parseStripeIndex fb.1 with
    | none => Except.error "ValueError"
    | some si =>
      let stripe := (assocGet si stripes).getD []
      let sibs := stripe.filter (fun s => s.1 != fb.1)
      match fetchSiblings retrieved fetch sibs with
      | Except.error e => Except.error e
      | Except.ok bx => Except.ok (acc ++ [(fb.1, calculate_parity bx)])) []

/-- Exceptions escaping `retrieve_file`.  Both raise sites for the
degraded path (`raise HTTPException(...)` after a reconstruction error,
and the completeness check) hit a `NameError` instead, because raid5.py
never imports `HTTPException`; the constructor records the detail the
source intended to send. -/
inductive PyError where
  | nameErrorHTTPException (intendedDetail : String)
deriving Repr, DecidableEq

/-- Code-point lexicographic string comparison on character lists, the
order Python uses when comparing strings. -/
def charListLe : List Char → List Char → Bool
  | [], _ => true
  | _ :: _, [] => false
  | a :: as, b :: bs => if a = b then charListLe as bs else decide (a < b)

/-- `a <= b` for Python strings. -/
def strLeB (a b : String) : Bool := charListLe a.data b.data

/-- Python `sorted` on a list of strings.  `sorted` is the stable
ascending sort for the code-point lexicographic order; on lists without
duplicates (all inputs here are dict key lists) every ascending sort
agrees, and insertion sort is used as the executable model. -/
def pySorted (l : List String) : List String :=
  List.insertionSort (fun a b => strLeB a b = true) l

/-- `RAID5Manager.retrieve_file`.  `files` is `self.file_metadata`;
`fetch` models `_retrieve_block_from_disk` (`none` covering the offline
node, transport error and 404 outcomes).  The result is `ok none` for an
unknown file id (the source returns `None`), `ok (some (filename,
bytes))` on success, and `error` when the source raises. -/
def retrieve_file (files : List (String × FileMetadata)) (fid : String)
    (fetch : String → String → Option Bytes) :
    Except PyError (Option (String × Bytes)) :=
  match assocGet fid files with
  | none => Except.ok none
  | some md =>
    let results := md.blocks.map (fun e => (e.1, e.2, fetch e.1 e.2))
    let retrieved := results.filterMap (fun e => e.2.2.map (fun d => (e.1, d)))
    let failed := results.filterMap (fun e =>
      if e.2.2.isNone then some (e.1, e.2.1) else none)
    let recon :=
      if failed.isEmpty then Except.ok []
      else reconstruct_data md failed retrieved fetch
    match recon with
    | Except.error e =>
      Except.error (PyError.nameErrorHTTPException
        ("No se pudo reconstruir el archivo: " ++ e))
    | Except.ok reconstructed =>
      let retrieved2 := dictUpdate retrieved reconstructed
      if retrieved2.length < md.blocks.length then
        Except.error (PyError.nameErrorHTTPException
          "Fallo irrecuperable de disco, no se puede reconstruir el archivo.")
      else
        let ids := pySorted (md.blocks.map (fun e => e.1))
        let full := (ids.map (fun bid => (assocGet bid retrieved2).getD [])).flatten
        Except.ok (some (md.filename, full.take md.size))

/-- `RAID5Manager.delete_file`: returns whether the file existed together
with the metadata map after the call. -/
def delete_file (files : List (String × FileMetadata)) (fid : String) :
    Bool × List (String × FileMetadata) :=
  match assocGet fid files with
  | none => (false, files)
  | some _ => (true, files.filter (fun e => e.1 != fid))

/-- HTTP status produced by `GET /download/file_id` in main.py.  The
handler wraps everything in `try ... except Exception`, so the
`HTTPException(404)` it raises for an unknown id is caught by its own
handler and re-raised as a 500, and every `retrieve_file` exception also
becomes a 500. -/
def download_endpoint (files : List (String × FileMetadata)) (fid : String)
    (fetch : String → String → Option Bytes) : Nat :=
  match retrieve_file files fid fetch with
  | Except.error _ => 500
  | Except.ok none => 500
  | Except.ok (some _) => 200

/-- HTTP status and resulting state of `DELETE /files/file_id` in
main.py; the `HTTPException(404)` for an unknown id is caught by the
blanket `except Exception` of the same handler and re-raised as 500. -/
def delete_endpoint (files : List (String × FileMetadata)) (fid : String) :
    Nat × List (String × FileMetadata) :=
  let r := delete_file files fid
  (if r.1 then 200 else 500, r.2)

/-- HTTP status of `POST /upload` as a function of the submitted
filename: the `HTTPException(400)` raised for a missing filename is
caught by the blanket `except Exception` of the handler and re-raised as
500; otherwise `store_file` always succeeds and the handler returns the
response model. -/
def upload_endpoint_status (filename : String) : Nat :=
  if filename = "" then 500 else 200

/-- The persisted metadata document (metadata.json): the files map and
the global stripe counter, as written by `_save_metadata`. -/
structure MetaDoc where
  files : List (String × FileMetadata)
  next_stripe_number : Nat
deriving Repr, DecidableEq

def save_metadata (files : List (String × FileMetadata)) (counter : Nat) :
    MetaDoc := ⟨files, counter⟩

/-- The in-memory state `RAID5Manager.__init__` ends with.  The argument
is the on-disk document: absent, parsed, or failing to parse.  The
parse-failure branch of `_load_metadata` only prints the error, so the
manager always finishes construction; `started` records that. -/
structure ManagerInit where
  file_metadata : List (String × FileMetadata)
  next_stripe_number : Nat
  started : Bool
deriving Repr, DecidableEq

def initManager (doc? : Option (Except String MetaDoc)) : ManagerInit :=
  match doc? with
  | none => ⟨[], 0, true⟩
  | some (Except.ok d) => ⟨d.files, d.next_stripe_number, true⟩
  | some (Except.error _) => ⟨[], 0, true⟩

/-- Whole-system state: committed metadata, the global stripe counter,
the block stores of all disk nodes, and a log of the uploads performed
(each with the counter value it started from). -/
structure SysState where
  files : List (String × FileMetadata)
  counter : Nat
  disk : DiskStore
  uploadLog : List (Nat × StoreResult)

/-- Coordinator operations: an upload (with the per-disk write outcome
`ok`), a delete, a download (which never mutates stored state), and a
restart (reload the state from the persisted document). -/
inductive Op where
  | upload (ok : String → Bool) (fid fn : String) (content : Bytes)
  | delete (fid : String)
  | download (fid : String)
  | restart

def applyOp (bs N : Nat) (st : SysState) : Op → SysState
  | Op.upload ok fid fn content =>
    let r := store_file bs N st.counter ok fid fn content
    { files := assocUpsert st.files fid r.metadata
      counter := r.next_stripe_number
      disk := applyWrites st.disk r.writes
      uploadLog := st.uploadLog ++ [(st.counter, r)] }
  | Op.delete fid =>
    match assocGet fid st.files with
    | none => st
    | some md =>
      let victims := dictUpdate md.blocks md.parity_blocks
      { files := st.files.filter (fun e => e.1 != fid)
        counter := st.counter
        disk := st.disk.filter (fun e =>
          !(victims.any (fun v => v.1 == e.1.2 && v.2 == e.1.1)))
        uploadLog := st.uploadLog }
  | Op.download _ => st
  | Op.restart =>
    let ini := initManager (some (Except.ok (save_metadata st.files st.counter)))
    { files := ini.file_metadata
      counter := ini.next_stripe_number
      disk := st.disk
      uploadLog := st.uploadLog }

def runOps (bs N : Nat) (st : SysState) : List Op → SysState
  | [] => st
  | op :: rest => runOps bs N (applyOp bs N st op) rest

instance {ε α : Type} [DecidableEq ε] [DecidableEq α] : DecidableEq (Except ε α) :=
  fun a b =>
    match a, b with
    | Except.ok x, Except.ok y =>
      if h : x = y then isTrue (by rw [h]) else
        isFalse (fun c => h (Except.ok.inj c))
    | Except.ok _, Except.error _ => isFalse (fun c => Except.noConfusion c)
    | Except.error _, Except.ok _ => isFalse (fun c => Except.noConfusion c)
    | Except.error x, Except.error y =>
      if h : x = y then isTrue (by rw [h]) else
        isFalse (fun c => h (Except.error.inj c))

/-! ### Association-list lemmas -/

section Assoc

variable {α β : Type} [DecidableEq α]

theorem assocGet_upsert_self (l : List (α × β)) (k : α) (v : β) :
    assocGet k (assocUpsert l k v) = some v := by
  induction l with
  | nil => simp [assocUpsert, assocGet]
  | cons e rest ih =>
    by_cases h : e.1 = k
    · simp [assocUpsert, h, assocGet]
    · simp [assocUpsert, h, assocGet, ih]

theorem assocGet_upsert_ne (l : List (α × β)) (k k' : α) (v : β) (h : k' ≠ k) :
    assocGet k' (assocUpsert l k v) = assocGet k' l := by
  have hkk : ¬ k = k' := fun hh => h hh.symm
  induction l with
  | nil => simp [assocUpsert, assocGet, hkk]
  | cons e rest ih =>
    by_cases he : e.1 = k
    · rw [assocUpsert, if_pos he, assocGet, assocGet, if_neg hkk, if_neg]
      rw [he]
      exact hkk
    · rw [assocUpsert, if_neg he, assocGet, assocGet]
      by_cases he' : e.1 = k'
      · simp [he']
      · simp [he', ih]

theorem assocUpsert_of_not_mem (l : List (α × β)) (k : α) (v : β)
    (h : k ∉ l.map Prod.fst) : assocUpsert l k v = l ++ [(k, v)] := by
  induction l with
  | nil => simp [assocUpsert]
  | cons e rest ih =>
    simp only [List.map_cons, List.mem_cons] at h
    push_neg at h
    have hne : ¬ e.1 = k := fun hh => h.1 hh.symm
    simp [assocUpsert, hne, ih h.2]

theorem dictUpdate_nil_right (a : List (α × β)) : dictUpdate a [] = a := rfl

theorem dictUpdate_of_disjoint :
    ∀ (b a : List (α × β)), (b.map Prod.fst).Nodup →
      (∀ k ∈ b.map Prod.fst, k ∉ a.map Prod.fst) →
      dictUpdate a b = a ++ b
  | [], a, _, _ => by simp [dictUpdate]
  | e :: rest, a, hb, hdisj => by
    simp only [List.map_cons, List.nodup_cons] at hb
    have he : e.1 ∉ a.map Prod.fst := hdisj e.1 (by simp)
    have step : dictUpdate a (e :: rest) = dictUpdate (a ++ [e]) rest := by
      simp [dictUpdate, assocUpsert_of_not_mem a e.1 e.2 he]
    have hdisj' : ∀ k ∈ rest.map Prod.fst, k ∉ (a ++ [e]).map Prod.fst := by
      intro k hk
      simp only [List.map_append, List.mem_append, List.map_cons, List.map_nil,
        List.mem_singleton]
      push_neg
      refine ⟨hdisj k (by simp [hk]), ?_⟩
      intro hke
      exact hb.1 (hke ▸ hk)
    rw [step, dictUpdate_of_disjoint rest (a ++ [e]) hb.2 hdisj']
    simp

theorem assocGet_eq_none (l : List (α × β)) (k : α)
    (h : k ∉ l.map Prod.fst) : assocGet k l = none := by
  induction l with
  | nil => rfl
  | cons e rest ih =>
    simp only [List.map_cons, List.mem_cons] at h
    push_neg at h
    have hne : ¬ e.1 = k := fun hh => h.1 hh.symm
    simp [assocGet, hne, ih h.2]

theorem assocGet_eq_some_of_mem (l : List (α × β)) (k : α) (v : β)
    (hn : (l.map Prod.fst).Nodup) (hm : (k, v) ∈ l) :
    assocGet k l = some v := by
  induction l with
  | nil => cases hm
  | cons e rest ih =>
    simp only [List.map_cons, List.nodup_cons] at hn
    rcases List.mem_cons.1 hm with he | hr
    · simp [assocGet, ← he]
    · have hk : ¬ e.1 = k := by
        intro hke
        exact hn.1 (hke ▸ List.mem_map_of_mem Prod.fst hr)
      simp [assocGet, hk, ih hn.2 hr]

theorem assocGet_append_left (l l' : List (α × β)) (k : α)
    (h : k ∉ l.map Prod.fst) :
    assocGet k (l ++ l') = assocGet k l' := by
  induction l with
  | nil => rfl
  | cons e rest ih =>
    simp only [List.map_cons, List.mem_cons] at h
    push_neg at h
    have hne : ¬ e.1 = k := fun hh => h.1 hh.symm
    simp [assocGet, List.cons_append, hne, ih h.2]

theorem keys_map_assocGet (l : List (α × β)) (d : β)
    (hn : (l.map Prod.fst).Nodup) :
    (l.map Prod.fst).map (fun k => (assocGet k l).getD d) = l.map Prod.snd := by
  induction l with
  | nil => rfl
  | cons e rest ih =>
    simp only [List.map_cons, List.nodup_cons] at hn
    simp only [List.map_cons, List.cons.injEq]
    refine ⟨by simp [assocGet], ?_⟩
    have hcongr : (rest.map Prod.fst).map (fun k => (assocGet k (e :: rest)).getD d)
        = (rest.map Prod.fst).map (fun k => (assocGet k rest).getD d) := by
      refine List.map_congr_left ?_
      intro k hk
      have hk' : ¬ e.1 = k := fun hh => hn.1 (hh ▸ hk)
      simp [assocGet, hk']
    rw [hcongr, ih hn.2]

end Assoc

/-! ### Disk-store lemmas -/

def writeKeys (ws : List BlockWrite) : List (String × String) :=
  ws.map (fun w => (w.disk_id, w.block_id))

theorem applyWrites_not_mem (d : DiskStore) (ws : List BlockWrite)
    (k : String × String) (h : k ∉ writeKeys ws) :
    assocGet k (applyWrites d ws) = assocGet k d := by
  induction ws generalizing d with
  | nil => rfl
  | cons w rest ih =>
    simp only [writeKeys, List.map_cons, List.mem_cons] at h
    push_neg at h
    rw [applyWrites, List.foldl_cons, ← applyWrites, ih _ h.2,
      assocGet_upsert_ne _ _ _ _ h.1]

theorem applyWrites_mem (d : DiskStore) (ws : List BlockWrite)
    (w : BlockWrite) (hn : (writeKeys ws).Nodup) (hm : w ∈ ws) :
    assocGet (w.disk_id, w.block_id) (applyWrites d ws) = some w.data := by
  induction ws generalizing d with
  | nil => cases hm
  | cons w0 rest ih =>
    simp only [writeKeys, List.map_cons, List.nodup_cons] at hn
    rcases List.mem_cons.1 hm with he | hr
    · subst he
      rw [applyWrites, List.foldl_cons, ← applyWrites,
        applyWrites_not_mem _ _ _ hn.1, assocGet_upsert_self]
    · exact ih _ hn.2 hr

/-! ### Chunk-count arithmetic -/

theorem chunkCount_zero (bs : Nat) : chunkCount bs 0 = 0 := by
  unfold chunkCount
  cases bs with
  | zero => simp
  | succ n => simpa using Nat.div_eq_of_lt (by omega)

theorem chunkCount_succ_form {bs L : Nat} (hbs : 0 < bs) (hL : 0 < L) :
    chunkCount bs L = (L - 1) / bs + 1 := by
  unfold chunkCount
  rw [show L + bs - 1 = (L - 1) + bs by omega, Nat.add_div_right _ hbs]

theorem lt_chunkCount_iff {bs L j : Nat} (hbs : 0 < bs) :
    j < chunkCount bs L ↔ j * bs < L := by
  constructor
  · intro h
    by_cases hL : 0 < L
    · rw [chunkCount_succ_form hbs hL] at h
      have h2 : j ≤ (L - 1) / bs := by omega
      have h3 := (Nat.le_div_iff_mul_le hbs).1 h2
      omega
    · have : L = 0 := by omega
      rw [this, chunkCount_zero] at h
      omega
  · intro h
    have hL : 0 < L := by
      rcases Nat.eq_zero_or_pos L with h0 | h1
      · omega
      · exact h1
    rw [chunkCount_succ_form hbs hL]
    have h2 : j ≤ (L - 1) / bs := (Nat.le_div_iff_mul_le hbs).2 (by omega)
    omega

theorem chunkCount_le_of_le {bs L k : Nat} (hbs : 0 < bs) (h : L ≤ k * bs) :
    chunkCount bs L ≤ k := by
  by_contra hc
  push_neg at hc
  have := (lt_chunkCount_iff hbs).1 hc
  omega

theorem chunkCount_mul (bs k : Nat) (hbs : 0 < bs) :
    chunkCount bs (k * bs) = k := by
  cases k with
  | zero => simpa using chunkCount_zero bs
  | succ n =>
    rw [chunkCount_succ_form hbs (by positivity)]
    have h2 : (n + 1) * bs = bs * n + bs := by ring
    have h1 : (n + 1) * bs - 1 = (bs - 1) + bs * n := by omega
    rw [h1, Nat.add_mul_div_left _ _ hbs, Nat.div_eq_of_lt (by omega)]
    omega

/-! ### Shapes of blocks and stripes -/

theorem length_padTo (b : Bytes) (n : Nat) (h : b.length ≤ n) :
    (padTo b n).length = n := by
  simp only [padTo, List.length_append, List.length_replicate]
  omega

theorem padTo_eq_self (b : Bytes) (n : Nat) (h : n ≤ b.length) : padTo b n = b := by
  simp [padTo, Nat.sub_eq_zero_of_le h]

theorem length_take_le {α : Type} (n : Nat) (l : List α) : (l.take n).length ≤ n := by
  simp [List.length_take]

theorem length_chunkAt (bs : Nat) (data : Bytes) (j : Nat) :
    (chunkAt bs data j).length = bs :=
  length_padTo _ _ (length_take_le _ _)

theorem chunkAt_succ (bs : Nat) (s : Bytes) (j : Nat) :
    chunkAt bs s (j + 1) = chunkAt bs (s.drop bs) j := by
  unfold chunkAt
  rw [List.drop_drop]
  congr 2
  ring

theorem chunkAt_zero (bs : Nat) (s : Bytes) : chunkAt bs s 0 = padTo (s.take bs) bs := by
  simp [chunkAt]

/-- Concatenating the zero-padded chunks of `s` yields `s` followed by the
padding zeros of the last chunk. -/
theorem chunks_flatten (bs : Nat) (hbs : 0 < bs) (s : Bytes) :
    ((List.range (chunkCount bs s.length)).map (chunkAt bs s)).flatten
      = s ++ List.replicate (chunkCount bs s.length * bs - s.length) 0 := by
  suffices h : ∀ c s0, chunkCount bs (List.length s0) = c →
      ((List.range c).map (chunkAt bs s0)).flatten
        = s0 ++ List.replicate (c * bs - s0.length) 0 by
    exact h _ s rfl
  intro c
  induction c with
  | zero =>
    intro s0 hc
    have hL : s0.length = 0 := by
      by_contra h0
      have hpos : 0 < chunkCount bs s0.length :=
        (lt_chunkCount_iff hbs).2 (by omega)
      omega
    have hs0 : s0 = [] := List.eq_nil_of_length_eq_zero hL
    simp [hs0]
  | succ k ih =>
    intro s0 hc
    have hL : 0 < s0.length := by
      by_contra h0
      push_neg at h0
      have hz : s0.length = 0 := by omega
      rw [hz, chunkCount_zero] at hc
      omega
    have hlen_drop : (s0.drop bs).length = s0.length - bs := by simp
    have hcrest : chunkCount bs (s0.drop bs).length = k := by
      rw [hlen_drop]
      by_cases hbig : bs < s0.length
      · rw [chunkCount_succ_form hbs hL] at hc
        rw [chunkCount_succ_form hbs (by omega)]
        have harr : s0.length - 1 = (s0.length - bs - 1) + bs := by omega
        rw [harr, Nat.add_div_right _ hbs] at hc
        omega
      · have h1 : chunkCount bs s0.length = 1 := by
          have hdiv : (s0.length - 1) / bs = 0 := Nat.div_eq_of_lt (by omega)
          rw [chunkCount_succ_form hbs hL, hdiv]
        have hk0 : k = 0 := by omega
        have hz : s0.length - bs = 0 := by omega
        rw [hz, chunkCount_zero, hk0]
    rw [List.range_succ_eq_map, List.map_cons, List.map_map, List.flatten_cons]
    have hmap : (List.range k).map (chunkAt bs s0 ∘ Nat.succ)
        = (List.range k).map (chunkAt bs (s0.drop bs)) := by
      refine List.map_congr_left ?_
      intro j _
      exact chunkAt_succ bs s0 j
    rw [hmap, ih (s0.drop bs) hcrest, chunkAt_zero]
    by_cases hbig : bs ≤ s0.length
    · have htake : (s0.take bs).length = bs := by
        simp [List.length_take]
        omega
      rw [padTo_eq_self _ _ (le_of_eq htake.symm)]
      have harr : k * bs - (s0.drop bs).length = (k + 1) * bs - s0.length := by
        have hexp : (k + 1) * bs = k * bs + bs := by ring
        omega
      rw [harr, ← List.append_assoc, List.take_append_drop]
    · push_neg at hbig
      have hdropnil : s0.drop bs = [] := by
        apply List.eq_nil_of_length_eq_zero
        omega
      have hk0 : k = 0 := by
        rw [hdropnil] at hcrest
        simpa [chunkCount_zero] using hcrest.symm
      have htake : s0.take bs = s0 := List.take_of_length_le (by omega)
      subst hk0
      simp only [hdropnil, htake, padTo, List.nil_append, List.length_nil]
      have harr1 : 0 * bs - 0 = 0 := by omega
      have harr2 : 1 * bs - s0.length = bs - s0.length := by omega
      simp [harr1, harr2]

/-- Concatenating the raw (unpadded) slices of `s` of width `ss` yields
`s` itself; this is the stripe decomposition of `store_file`. -/
theorem slices_flatten (ss : Nat) (hss : 0 < ss) (s : Bytes) :
    ((List.range (chunkCount ss s.length)).map
      (fun i => (s.drop (i * ss)).take ss)).flatten = s := by
  suffices h : ∀ c s0, chunkCount ss (List.length s0) = c →
      ((List.range c).map (fun i => (s0.drop (i * ss)).take ss)).flatten = s0 by
    exact h _ s rfl
  intro c
  induction c with
  | zero =>
    intro s0 hc
    have hL : s0.length = 0 := by
      by_contra h0
      have hpos : 0 < chunkCount ss s0.length :=
        (lt_chunkCount_iff hss).2 (by omega)
      omega
    have hs0 : s0 = [] := List.eq_nil_of_length_eq_zero hL
    simp [hs0]
  | succ k ih =>
    intro s0 hc
    have hL : 0 < s0.length := by
      by_contra h0
      push_neg at h0
      have hz : s0.length = 0 := by omega
      rw [hz, chunkCount_zero] at hc
      omega
    have hlen_drop : (s0.drop ss).length = s0.length - ss := by simp
    have hcrest : chunkCount ss (s0.drop ss).length = k := by
      rw [hlen_drop]
      by_cases hbig : ss < s0.length
      · rw [chunkCount_succ_form hss hL] at hc
        rw [chunkCount_succ_form hss (by omega)]
        have harr : s0.length - 1 = (s0.length - ss - 1) + ss := by omega
        rw [harr, Nat.add_div_right _ hss] at hc
        omega
      · have h1 : chunkCount ss s0.length = 1 := by
          have hdiv : (s0.length - 1) / ss = 0 := Nat.div_eq_of_lt (by omega)
          rw [chunkCount_succ_form hss hL, hdiv]
        have hk0 : k = 0 := by omega
        have hz : s0.length - ss = 0 := by omega
        rw [hz, chunkCount_zero, hk0]
    rw [List.range_succ_eq_map, List.map_cons, List.map_map, List.flatten_cons]
    have hmap : ((List.range k).map ((fun i => (s0.drop (i * ss)).take ss) ∘ Nat.succ))
        = (List.range k).map (fun i => ((s0.drop ss).drop (i * ss)).take ss) := by
      refine List.map_congr_left ?_
      intro j _
      simp only [Function.comp]
      rw [List.drop_drop]
      congr 2
      rw [Nat.succ_eq_add_one]
      ring
    rw [hmap, ih (s0.drop ss) hcrest]
    simp [List.take_append_drop]

/-! ### XOR algebra -/

theorem length_xorBytes (a b : Bytes) :
    (xorBytes a b).length = min a.length b.length := by
  simp [xorBytes]

theorem xorBytes_comm (a b : Bytes) : xorBytes a b = xorBytes b a := by
  apply List.ext_getElem
  · simp [length_xorBytes, Nat.min_comm]
  · intro k h1 h2
    simp only [xorBytes, List.getElem_zipWith]
    exact Nat.xor_comm _ _

theorem xorBytes_assoc (a b c : Bytes) :
    xorBytes (xorBytes a b) c = xorBytes a (xorBytes b c) := by
  apply List.ext_getElem
  · simp [length_xorBytes, Nat.min_assoc]
  · intro k h1 h2
    simp only [xorBytes, List.getElem_zipWith]
    exact Nat.xor_assoc _ _ _

theorem xorBytes_zeros_left (b : Bytes) (n : Nat) (h : b.length = n) :
    xorBytes (List.replicate n 0) b = b := by
  apply List.ext_getElem
  · simp [length_xorBytes, h]
  · intro k h1 h2
    simp only [xorBytes, List.getElem_zipWith, List.getElem_replicate]
    exact Nat.zero_xor _

theorem xorBytes_zeros_right (b : Bytes) (n : Nat) (h : b.length = n) :
    xorBytes b (List.replicate n 0) = b := by
  rw [xorBytes_comm]
  exact xorBytes_zeros_left b n h

theorem xorBytes_self (b : Bytes) : xorBytes b b = List.replicate b.length 0 := by
  apply List.ext_getElem
  · simp [length_xorBytes]
  · intro k h1 h2
    simp only [xorBytes, List.getElem_zipWith, List.getElem_replicate]
    exact Nat.xor_self _

/-- XOR of a list of blocks of common length `n`, starting from zeros:
the clean algebraic form of `_calculate_parity` on equal-length blocks. -/
def foldZ (n : Nat) (l : List Bytes) : Bytes :=
  l.foldl xorBytes (List.replicate n 0)

theorem foldl_xorBytes_length (n : Nat) :
    ∀ (l : List Bytes) (init : Bytes), init.length = n →
      (∀ x ∈ l, x.length = n) → (l.foldl xorBytes init).length = n
  | [], _, hi, _ => hi
  | x :: t, init, hi, h => by
    rw [List.foldl_cons]
    refine foldl_xorBytes_length n t _ ?_ (fun y hy => h y (List.mem_cons_of_mem _ hy))
    rw [length_xorBytes, hi, h x (List.mem_cons_self _ _)]
    simp

theorem length_foldZ (n : Nat) (l : List Bytes) (h : ∀ x ∈ l, x.length = n) :
    (foldZ n l).length = n :=
  foldl_xorBytes_length n l _ (by simp) h

theorem foldl_xorBytes_init (n : Nat) :
    ∀ (l : List Bytes) (init : Bytes), init.length = n →
      (∀ x ∈ l, x.length = n) →
      l.foldl xorBytes init = xorBytes init (foldZ n l)
  | [], init, hi, _ => by
    simp [foldZ, xorBytes_zeros_right init n hi]
  | x :: t, init, hi, h => by
    have hx : x.length = n := h x (List.mem_cons_self _ _)
    have ht : ∀ y ∈ t, y.length = n := fun y hy => h y (List.mem_cons_of_mem _ hy)
    have hxi : (xorBytes init x).length = n := by
      rw [length_xorBytes, hi, hx]; simp
    rw [List.foldl_cons, foldl_xorBytes_init n t _ hxi ht, xorBytes_assoc]
    have hrhs : foldZ n (x :: t) = xorBytes x (foldZ n t) := by
      show (x :: t).foldl xorBytes (List.replicate n 0) = _
      rw [List.foldl_cons, xorBytes_zeros_left x n hx]
      exact foldl_xorBytes_init n t x hx ht
    rw [hrhs]

theorem foldZ_cons (n : Nat) (x : Bytes) (t : List Bytes) (hx : x.length = n)
    (ht : ∀ y ∈ t, y.length = n) :
    foldZ n (x :: t) = xorBytes x (foldZ n t) := by
  show (x :: t).foldl xorBytes (List.replicate n 0) = _
  rw [List.foldl_cons, xorBytes_zeros_left x n hx]
  exact foldl_xorBytes_init n t x hx ht

theorem foldZ_append (n : Nat) (a b : List Bytes)
    (ha : ∀ x ∈ a, x.length = n) (hb : ∀ x ∈ b, x.length = n) :
    foldZ n (a ++ b) = xorBytes (foldZ n a) (foldZ n b) := by
  show (a ++ b).foldl xorBytes (List.replicate n 0) = _
  rw [List.foldl_append]
  exact foldl_xorBytes_init n b _ (length_foldZ n a ha) hb

theorem calculate_parity_eq_foldZ (n : Nat) (l : List Bytes) (hne : l ≠ [])
    (h : ∀ x ∈ l, x.length = n) : calculate_parity l = foldZ n l := by
  match l, hne with
  | b :: rest, _ =>
    have hb : b.length = n := h b (List.mem_cons_self _ _)
    have hrest : ∀ y ∈ rest, y.length = n := fun y hy => h y (List.mem_cons_of_mem _ hy)
    have hsteps : ∀ (t : List Bytes) (init : Bytes), init.length = n →
        (∀ x ∈ t, x.length = n) →
        t.foldl parityStep init = t.foldl xorBytes init := by
      intro t
      induction t with
      | nil => intro init _ _; rfl
      | cons x t2 ih =>
        intro init hi hall
        have hx : x.length = n := hall x (List.mem_cons_self _ _)
        have hstep : parityStep init x = xorBytes init x := by
          have h1 : ¬ x.length < init.length := by omega
          have h2 : ¬ init.length < x.length := by omega
          simp [parityStep, h1, h2]
        rw [List.foldl_cons, List.foldl_cons, hstep]
        refine ih (xorBytes init x) ?_ (fun y hy => hall y (List.mem_cons_of_mem _ hy))
        rw [length_xorBytes, hi, hx]; simp
    rw [calculate_parity, hsteps rest b hb hrest,
      foldl_xorBytes_init n rest b hb hrest, ← foldZ_cons n b rest hb hrest]

theorem length_calculate_parity (n : Nat) (l : List Bytes) (hne : l ≠ [])
    (h : ∀ x ∈ l, x.length = n) : (calculate_parity l).length = n := by
  rw [calculate_parity_eq_foldZ n l hne h]
  exact length_foldZ n l h

theorem foldZ_eraseIdx (n : Nat) :
    ∀ (l : List Bytes) (j : Nat) (hj : j < l.length),
      (∀ x ∈ l, x.length = n) →
      foldZ n l = xorBytes l[j] (foldZ n (l.eraseIdx j))
  | [], j, hj, _ => by cases hj
  | a :: t, 0, _, h => by
    simp only [List.getElem_cons_zero, List.eraseIdx_cons_zero]
    exact foldZ_cons n a t (h a (List.mem_cons_self _ _))
      (fun y hy => h y (List.mem_cons_of_mem _ hy))
  | a :: t, j + 1, hj, h => by
    have ha : a.length = n := h a (List.mem_cons_self _ _)
    have ht : ∀ y ∈ t, y.length = n := fun y hy => h y (List.mem_cons_of_mem _ hy)
    have hjt : j < t.length := by simpa using hj
    have herase : ∀ y ∈ t.eraseIdx j, y.length = n :=
      fun y hy => ht y ((List.eraseIdx_sublist t j).mem hy)
    rw [foldZ_cons n a t ha ht, foldZ_eraseIdx n t j hjt ht,
      List.eraseIdx_cons_succ, List.getElem_cons_succ,
      foldZ_cons n a (t.eraseIdx j) ha herase]
    rw [← xorBytes_assoc, ← xorBytes_assoc, xorBytes_comm a t[j]]

/-- The XOR magic of `_reconstruct_data`: XOR of all data blocks except
the one at `j` together with the parity block recovers block `j`. -/
theorem reconstruction_xor (n : Nat) (D : List Bytes) (j : Nat) (hj : j < D.length)
    (hn : 0 < n) (h : ∀ x ∈ D, x.length = n) :
    calculate_parity (D.eraseIdx j ++ [calculate_parity D]) = D[j] := by
  have hD : D ≠ [] := by
    intro h0; rw [h0] at hj; cases hj
  have herase : ∀ y ∈ D.eraseIdx j, y.length = n :=
    fun y hy => h y ((List.eraseIdx_sublist D j).mem hy)
  have hp : calculate_parity D = foldZ n D := calculate_parity_eq_foldZ n D hD h
  have hplen : (foldZ n D).length = n := length_foldZ n D h
  have hall : ∀ x ∈ D.eraseIdx j ++ [calculate_parity D], x.length = n := by
    intro x hx
    rcases List.mem_append.1 hx with h1 | h2
    · exact herase x h1
    · rw [List.mem_singleton.1 h2, hp]; exact hplen
  rw [calculate_parity_eq_foldZ n _ (by simp) hall,
    foldZ_append n _ _ herase (by intro x hx; rw [List.mem_singleton.1 hx, hp]; exact hplen),
    hp]
  have hsingle : foldZ n [foldZ n D] = foldZ n D := by
    rw [foldZ_cons n _ [] hplen (by simp)]
    show xorBytes (foldZ n D) (List.replicate n 0) = _
    exact xorBytes_zeros_right _ n hplen
  rw [hsingle, foldZ_eraseIdx n D j hj h, ← xorBytes_assoc,
    xorBytes_comm (foldZ n (D.eraseIdx j)) D[j], xorBytes_assoc,
    xorBytes_self, xorBytes_comm]
  have hlen_er : (foldZ n (D.eraseIdx j)).length = n := length_foldZ n _ herase
  rw [hlen_er]
  exact xorBytes_zeros_left D[j] n (h _ (List.getElem_mem _))

/-! ### Decimal representation of natural numbers

The read path of the source re-parses stripe indices out of block-id
strings, so facts about the decimal form produced by `toString` on `Nat`
are needed: its characters are decimal digits (in particular never an
underscore), it is never empty, and `parseNat` inverts it. -/

def natDigits (n : Nat) : List Char :=
  if h : n < 10 then [Nat.digitChar n]
  else natDigits (n / 10) ++ [Nat.digitChar (n % 10)]
decreasing_by exact Nat.div_lt_self (by omega) (by omega)

theorem natDigits_of_lt (n : Nat) (h : n < 10) : natDigits n = [Nat.digitChar n] := by
  rw [natDigits, dif_pos h]

theorem natDigits_of_ge (n : Nat) (h : ¬ n < 10) :
    natDigits n = natDigits (n / 10) ++ [Nat.digitChar (n % 10)] := by
  rw [natDigits]
  exact dif_neg h

theorem toDigitsCore_eq_natDigits :
    ∀ (fuel n : Nat) (ds : List Char), n < fuel →
      Nat.toDigitsCore 10 fuel n ds = natDigits n ++ ds := by
  intro fuel
  induction fuel with
  | zero => intro n ds h; omega
  | succ f ih =>
    intro n ds h
    rw [Nat.toDigitsCore]
    by_cases h0 : n / 10 = 0
    · have hn : n < 10 := by omega
      simp only [h0, if_pos rfl]
      rw [natDigits_of_lt n hn, Nat.mod_eq_of_lt hn]
      rfl
    · simp only [h0, if_neg h0]
      have hn10 : ¬ n < 10 := by
        intro hlt
        exact h0 (Nat.div_eq_of_lt hlt)
      have hlt : n / 10 < f := by
        have hd := Nat.div_lt_self (show 0 < n by omega) (show 1 < 10 by omega)
        omega
      rw [ih (n / 10) _ hlt, natDigits_of_ge n hn10, List.append_assoc]
      rfl

theorem toString_nat_data (n : Nat) : (toString n).data = natDigits n := by
  show (List.asString (Nat.toDigitsCore 10 (n + 1) n [])).data = natDigits n
  rw [toDigitsCore_eq_natDigits (n + 1) n [] (by omega)]
  simp [List.asString]

theorem digitChar_is_digit : ∀ k < 10, '0' ≤ Nat.digitChar k ∧ Nat.digitChar k ≤ '9' := by
  decide

theorem natDigits_digits (n : Nat) : ∀ c ∈ natDigits n, '0' ≤ c ∧ c ≤ '9' := by
  induction n using Nat.strong_induction_on with
  | _ n ih =>
    by_cases h : n < 10
    · rw [natDigits_of_lt n h]
      intro c hc
      rw [List.mem_singleton.1 hc]
      exact digitChar_is_digit n h
    · rw [natDigits_of_ge n h]
      intro c hc
      rcases List.mem_append.1 hc with h1 | h2
      · exact ih (n / 10) (Nat.div_lt_self (by omega) (by omega)) c h1
      · rw [List.mem_singleton.1 h2]
        exact digitChar_is_digit (n % 10) (Nat.mod_lt n (by omega))

theorem natDigits_ne_nil (n : Nat) : natDigits n ≠ [] := by
  by_cases h : n < 10
  · rw [natDigits_of_lt n h]; simp
  · rw [natDigits_of_ge n h]; simp

theorem natDigits_no_underscore (n : Nat) : '_' ∉ natDigits n := by
  intro hmem
  have h := natDigits_digits n '_' hmem
  revert h
  decide

theorem natDigits_not_p (n : Nat) : 'p' ∉ natDigits n := by
  intro hmem
  have h := natDigits_digits n 'p' hmem
  revert h
  decide

def valDigits (cs : List Char) : Nat :=
  cs.foldl (fun a c => a * 10 + (charDigit c).getD 0) 0

theorem parseNat_eq_valDigits (cs : List Char) (hne : cs ≠ [])
    (h : ∀ c ∈ cs, (charDigit c).isSome) :
    parseNat cs = some (valDigits cs) := by
  have hgen : ∀ (l : List Char) (a : Nat), (∀ c ∈ l, (charDigit c).isSome) →
      l.foldl (fun acc c =>
        match acc, charDigit c with
        | some n, some d => some (n * 10 + d)
        | _, _ => none) (some a)
      = some (l.foldl (fun a c => a * 10 + (charDigit c).getD 0) a) := by
    intro l
    induction l with
    | nil => intro a _; rfl
    | cons c t ihl =>
      intro a hall
      obtain ⟨d, hd⟩ := Option.isSome_iff_exists.1 (hall c (List.mem_cons_self _ _))
      rw [List.foldl_cons, List.foldl_cons, hd]
      have := ihl (a * 10 + d) (fun x hx => hall x (List.mem_cons_of_mem _ hx))
      simp only [hd, Option.getD_some]
      exact this
  unfold parseNat
  rw [if_neg (by simpa using hne)]
  exact hgen cs 0 h

theorem valDigits_append_singleton (cs : List Char) (c : Char) :
    valDigits (cs ++ [c]) = valDigits cs * 10 + (charDigit c).getD 0 := by
  simp [valDigits, List.foldl_append]

theorem charDigit_digitChar : ∀ k < 10, charDigit (Nat.digitChar k) = some k := by
  decide

theorem valDigits_natDigits (n : Nat) : valDigits (natDigits n) = n := by
  induction n using Nat.strong_induction_on with
  | _ n ih =>
    by_cases h : n < 10
    · rw [natDigits_of_lt n h]
      simp [valDigits, charDigit_digitChar n h]
    · rw [natDigits_of_ge n h, valDigits_append_singleton,
        ih (n / 10) (Nat.div_lt_self (by omega) (by omega)),
        charDigit_digitChar (n % 10) (Nat.mod_lt n (by omega))]
      simp
      omega

theorem charDigit_isSome_of_digit (c : Char) (h : '0' ≤ c ∧ c ≤ '9') :
    (charDigit c).isSome := by
  simp [charDigit, h]

theorem parseNat_natDigits (n : Nat) : parseNat (natDigits n) = some n := by
  rw [parseNat_eq_valDigits (natDigits n) (natDigits_ne_nil n)
    (fun c hc => charDigit_isSome_of_digit c (natDigits_digits n c hc)),
    valDigits_natDigits]

theorem natDigits_inj {a b : Nat} (h : natDigits a = natDigits b) : a = b := by
  have ha := valDigits_natDigits a
  rw [h, valDigits_natDigits b] at ha
  exact ha.symm

theorem natDigits_ne_parity (n : Nat) : natDigits n ≠ "parity".data := by
  intro he
  have hp : 'p' ∈ natDigits n := by
    rw [he]
    decide
  exact natDigits_not_p n hp

/-! ### Splitting identifiers on underscores -/

theorem splitU_no_sep : ∀ (a : List Char), '_' ∉ a → splitU a = [a] := by
  intro a
  induction a with
  | nil => intro _; rfl
  | cons c t ih =>
    intro h
    simp only [List.mem_cons] at h
    push_neg at h
    have hc : ¬ c = '_' := fun hh => h.1 hh.symm
    rw [splitU, if_neg hc, ih h.2]

theorem splitU_append_sep : ∀ (a b : List Char), '_' ∉ a →
    splitU (a ++ '_' :: b) = a :: splitU b := by
  intro a
  induction a with
  | nil =>
    intro b _
    rw [List.nil_append, splitU, if_pos rfl]
  | cons c t ih =>
    intro b h
    simp only [List.mem_cons] at h
    push_neg at h
    have hc : ¬ c = '_' := fun hh => h.1 hh.symm
    rw [List.cons_append, splitU, if_neg hc, ih b h.2]

/-! ### Decomposition of generated block identifiers -/

def blockTag : List Char := ['b', 'l', 'o', 'c', 'k']

def parityTag : List Char := ['p', 'a', 'r', 'i', 't', 'y']

theorem string_eq_of_data (s t : String) (h : s.data = t.data) : s = t := by
  cases s
  cases t
  exact congrArg String.mk h

theorem mkDataId_data (fid : String) (i j : Nat) :
    (mkDataId fid i j).data
      = fid.data ++ '_' :: (blockTag ++ '_' :: (natDigits i ++ '_' :: natDigits j)) := by
  show (fid ++ "_block_" ++ (toString i ++ "_" ++ toString j)).data = _
  rw [String.data_append, String.data_append, String.data_append,
    String.data_append, toString_nat_data, toString_nat_data]
  have hb : "_block_".data = '_' :: (blockTag ++ ['_']) := rfl
  have hu : "_".data = ['_'] := rfl
  rw [hb, hu]
  simp [List.append_assoc]

theorem mkParityId_data (fid : String) (i : Nat) :
    (mkParityId fid i).data
      = fid.data ++ '_' :: (blockTag ++ '_' :: (parityTag ++ '_' :: natDigits i)) := by
  show (fid ++ "_block_" ++ ("parity_" ++ toString i)).data = _
  rw [String.data_append, String.data_append, String.data_append, toString_nat_data]
  have hb : "_block_".data = '_' :: (blockTag ++ ['_']) := rfl
  have hp : "parity_".data = parityTag ++ ['_'] := rfl
  rw [hb, hp]
  simp [List.append_assoc]

theorem blockTag_no_underscore : '_' ∉ blockTag := by decide

theorem parityTag_no_underscore : '_' ∉ parityTag := by decide

theorem splitU_mkDataId (fid : String) (hfid : '_' ∉ fid.data) (i j : Nat) :
    splitU (mkDataId fid i j).data
      = [fid.data, blockTag, natDigits i, natDigits j] := by
  rw [mkDataId_data, splitU_append_sep _ _ hfid,
    splitU_append_sep _ _ blockTag_no_underscore,
    splitU_append_sep _ _ (natDigits_no_underscore i),
    splitU_no_sep _ (natDigits_no_underscore j)]

theorem splitU_mkParityId (fid : String) (hfid : '_' ∉ fid.data) (i : Nat) :
    splitU (mkParityId fid i).data
      = [fid.data, blockTag, parityTag, natDigits i] := by
  rw [mkParityId_data, splitU_append_sep _ _ hfid,
    splitU_append_sep _ _ blockTag_no_underscore,
    splitU_append_sep _ _ parityTag_no_underscore,
    splitU_no_sep _ (natDigits_no_underscore i)]

theorem parseStripeIndex_dataId (fid : String) (hfid : '_' ∉ fid.data) (i j : Nat) :
    parseStripeIndex (mkDataId fid i j) = some i := by
  unfold parseStripeIndex
  rw [splitU_mkDataId fid hfid i j]
  show (if natDigits i = "parity".data then parseNat (natDigits j)
        else parseNat (natDigits i)) = some i
  rw [if_neg (natDigits_ne_parity i), parseNat_natDigits]

theorem parseStripeIndex_parityId (fid : String) (hfid : '_' ∉ fid.data) (i : Nat) :
    parseStripeIndex (mkParityId fid i) = some i := by
  unfold parseStripeIndex
  rw [splitU_mkParityId fid hfid i]
  show (if parityTag = "parity".data then parseNat (natDigits i)
        else parseNat parityTag) = some i
  have hpt : parityTag = "parity".data := rfl
  rw [if_pos hpt, parseNat_natDigits]

theorem mkDataId_inj (fid fid' : String) (i j i' j' : Nat)
    (h : '_' ∉ fid.data) (h' : '_' ∉ fid'.data)
    (he : mkDataId fid i j = mkDataId fid' i' j') :
    fid = fid' ∧ i = i' ∧ j = j' := by
  have hd := congrArg String.data he
  have hs := congrArg splitU hd
  rw [splitU_mkDataId fid h i j, splitU_mkDataId fid' h' i' j'] at hs
  simp only [List.cons.injEq, and_true, true_and] at hs
  exact ⟨string_eq_of_data _ _ hs.1, natDigits_inj hs.2.1, natDigits_inj hs.2.2⟩

theorem mkParityId_inj (fid fid' : String) (i i' : Nat)
    (h : '_' ∉ fid.data) (h' : '_' ∉ fid'.data)
    (he : mkParityId fid i = mkParityId fid' i') :
    fid = fid' ∧ i = i' := by
  have hd := congrArg String.data he
  have hs := congrArg splitU hd
  rw [splitU_mkParityId fid h i, splitU_mkParityId fid' h' i'] at hs
  simp only [List.cons.injEq, and_true, true_and] at hs
  exact ⟨string_eq_of_data _ _ hs.1, natDigits_inj hs.2⟩

theorem mkParityId_ne_dataId (fid fid' : String) (i i' j' : Nat)
    (h : '_' ∉ fid.data) (h' : '_' ∉ fid'.data) :
    mkParityId fid i ≠ mkDataId fid' i' j' := by
  intro he
  have hd := congrArg String.data he
  have hs := congrArg splitU hd
  rw [splitU_mkParityId fid h i, splitU_mkDataId fid' h' i' j'] at hs
  simp only [List.cons.injEq, and_true, true_and] at hs
  exact natDigits_ne_parity i' hs.2.1.symm

/-! ### The string order on bounded identifiers -/

theorem charList_lt_append (p : List Char) :
    ∀ a b : List Char, a < b → p ++ a < p ++ b := by
  induction p with
  | nil => intro a b h; exact h
  | cons c t ih =>
    intro a b h
    exact List.Lex.cons (ih a b h)

theorem digitChar_lt : ∀ i < 10, ∀ j < 10, i < j →
    Nat.digitChar i < Nat.digitChar j := by decide

theorem mkDataId_lt (fid : String) (i j i' j' : Nat)
    (hi : i < 10) (hj : j < 10) (hi' : i' < 10) (hj' : j' < 10)
    (hlt : i < i' ∨ (i = i' ∧ j < j')) :
    mkDataId fid i j < mkDataId fid i' j' := by
  refine String.lt_iff_toList_lt.mpr ?_
  show (mkDataId fid i j).data < (mkDataId fid i' j').data
  rw [mkDataId_data, mkDataId_data,
    natDigits_of_lt i hi, natDigits_of_lt j hj,
    natDigits_of_lt i' hi', natDigits_of_lt j' hj']
  have hshape : ∀ (x y : Char),
      fid.data ++ '_' :: (blockTag ++ '_' :: ([x] ++ '_' :: [y]))
        = (fid.data ++ '_' :: blockTag ++ ['_']) ++ (x :: '_' :: [y]) := by
    intro x y
    simp
  rw [hshape, hshape]
  rcases hlt with hii | ⟨heq, hjj⟩
  · exact charList_lt_append _ _ _
      (List.Lex.rel (digitChar_lt i hi i' hi' hii))
  · subst heq
    have hshape2 : ∀ (y : Char),
        (fid.data ++ '_' :: blockTag ++ ['_']) ++ (Nat.digitChar i :: '_' :: [y])
          = ((fid.data ++ '_' :: blockTag ++ ['_']) ++ [Nat.digitChar i, '_']) ++ [y] := by
      intro y
      simp
    rw [hshape2, hshape2]
    exact charList_lt_append _ _ _
      (List.Lex.rel (digitChar_lt j hj j' hj' hjj))

/-! ### The structure of store_file results -/

theorem filterMap_if_true {α β : Type} (l : List α) (p : α → Bool) (g : α → β)
    (h : ∀ a ∈ l, p a = true) :
    l.filterMap (fun a => if p a then some (g a) else none) = l.map g := by
  induction l with
  | nil => rfl
  | cons a t ih =>
    rw [List.filterMap_cons]
    simp only [h a (List.mem_cons_self _ _), if_true]
    rw [ih (fun x hx => h x (List.mem_cons_of_mem _ hx)), List.map_cons]

theorem writes_filterMap_all (l : List (String × String × Bytes)) (ok : String → Bool)
    (h : ∀ a ∈ l, ok a.2.1 = true) :
    l.filterMap (fun e => if ok e.2.1 then some (BlockWrite.mk e.2.1 e.1 e.2.2) else none)
      = l.map (fun e => BlockWrite.mk e.2.1 e.1 e.2.2) := by
  induction l with
  | nil => rfl
  | cons a t ih =>
    rw [List.filterMap_cons]
    simp only [h a (List.mem_cons_self _ _), if_true]
    rw [ih (fun x hx => h x (List.mem_cons_of_mem _ hx)), List.map_cons]

theorem store_file_file_id (bs N next0 : Nat) (ok : String → Bool) (fid fn : String)
    (content : Bytes) : (store_file bs N next0 ok fid fn content).file_id = fid := rfl

theorem store_file_size (bs N next0 : Nat) (ok : String → Bool) (fid fn : String)
    (content : Bytes) :
    (store_file bs N next0 ok fid fn content).metadata.size = content.length := rfl

theorem store_file_filename (bs N next0 : Nat) (ok : String → Bool) (fid fn : String)
    (content : Bytes) :
    (store_file bs N next0 ok fid fn content).metadata.filename = fn := rfl

theorem store_file_next (bs N next0 : Nat) (ok : String → Bool) (fid fn : String)
    (content : Bytes) :
    (store_file bs N next0 ok fid fn content).next_stripe_number
      = next0 + numStripes bs N content.length := rfl

theorem store_file_blocks (bs N next0 : Nat) (ok : String → Bool) (fid fn : String)
    (content : Bytes) :
    (store_file bs N next0 ok fid fn content).metadata.blocks
      = ((List.range (numStripes bs N content.length)).map (fun i =>
          (List.range (chunkCount bs (stripeData bs N content i).length)).map (fun j =>
            (mkDataId fid i j,
             diskName ((dataDisks N (get_parity_disk N (next0 + i))).getD j 0))))).flatten := by
  simp only [store_file, stripeDataEntries, List.map_map]
  congr 1
  refine List.map_congr_left ?_
  intro i _
  simp only [Function.comp_apply]
  rw [List.map_map]
  rfl

theorem store_file_parity_blocks (bs N next0 : Nat) (ok : String → Bool) (fid fn : String)
    (content : Bytes) :
    (store_file bs N next0 ok fid fn content).metadata.parity_blocks
      = (List.range (numStripes bs N content.length)).map (fun i =>
          (mkParityId fid i, diskName (get_parity_disk N (next0 + i)))) := by
  simp only [store_file, List.map_map]
  refine List.map_congr_left ?_
  intro i _
  rfl

theorem store_file_writes (bs N next0 : Nat) (ok : String → Bool) (fid fn : String)
    (content : Bytes) (hok : ∀ d, ok d = true) :
    (store_file bs N next0 ok fid fn content).writes
      = ((List.range (numStripes bs N content.length)).map (fun i =>
          (List.range (chunkCount bs (stripeData bs N content i).length)).map (fun j =>
            BlockWrite.mk (diskName ((dataDisks N (get_parity_disk N (next0 + i))).getD j 0))
              (mkDataId fid i j) (chunkAt bs (stripeData bs N content i) j))
          ++ [BlockWrite.mk (diskName (get_parity_disk N (next0 + i)))
              (mkParityId fid i)
              (distribute_blocks bs (stripeData bs N content i)).2])).flatten := by
  show List.filterMap
      (fun e : String × String × Bytes =>
        if ok e.2.1 then some (BlockWrite.mk e.2.1 e.1 e.2.2) else none)
      ((List.map (fun st => st.1 ++ [st.2])
        (List.map (fun i =>
          (stripeDataEntries bs N fid (next0 + i) i (stripeData bs N content i),
           mkParityId fid i, diskName (get_parity_disk N (next0 + i)),
           (distribute_blocks bs (stripeData bs N content i)).2))
          (List.range (numStripes bs N content.length)))).flatten) = _
  rw [writes_filterMap_all _ ok (fun a _ => hok a.2.1), List.map_flatten]
  simp only [List.map_map]
  congr 1
  refine List.map_congr_left ?_
  intro i _
  simp only [Function.comp_apply, List.map_append, stripeDataEntries, List.map_map]
  rfl

/-! ### Per-stripe shape facts -/

theorem length_stripeData (bs N : Nat) (content : Bytes) (i : Nat) :
    (stripeData bs N content i).length
      = min (stripeSize bs N) (content.length - i * stripeSize bs N) := by
  simp [stripeData, List.length_take, List.length_drop]

theorem stripeSize_pos (bs N : Nat) (hbs : 0 < bs) (hN : 2 ≤ N) :
    0 < stripeSize bs N := by
  unfold stripeSize
  have h1 : 1 ≤ N - 1 := by omega
  exact Nat.mul_pos hbs (by omega)

theorem stripeData_len_pos (bs N : Nat) (content : Bytes) (i : Nat)
    (hbs : 0 < bs) (hN : 2 ≤ N) (hi : i < numStripes bs N content.length) :
    0 < (stripeData bs N content i).length := by
  rw [length_stripeData]
  have hss := stripeSize_pos bs N hbs hN
  have hlt := (lt_chunkCount_iff hss).1 hi
  omega

theorem stripeData_len_full (bs N : Nat) (content : Bytes) (i : Nat)
    (hbs : 0 < bs) (hN : 2 ≤ N) (hi : i + 1 < numStripes bs N content.length) :
    (stripeData bs N content i).length = stripeSize bs N := by
  rw [length_stripeData]
  have hss := stripeSize_pos bs N hbs hN
  have hlt := (lt_chunkCount_iff hss).1 hi
  have hexp : (i + 1) * stripeSize bs N = i * stripeSize bs N + stripeSize bs N := by
    ring
  omega

/-- The actual per-stripe layout the write path produces: the number of
data blocks of a stripe is the ceiling of its payload length over the
block size (so N-1 for all full stripes but possibly fewer for the last
one), every data block is exactly block-size bytes, their concatenation
is the payload plus right zero padding, and the single parity block is
also block-size bytes. -/
def StripeShape (bs N : Nat) (content : Bytes) (i : Nat) : Prop :=
  (distribute_blocks bs (stripeData bs N content i)).1.length
      = chunkCount bs (stripeData bs N content i).length
  ∧ 1 ≤ (distribute_blocks bs (stripeData bs N content i)).1.length
  ∧ (distribute_blocks bs (stripeData bs N content i)).1.length ≤ N - 1
  ∧ (∀ b ∈ (distribute_blocks bs (stripeData bs N content i)).1, b.length = bs)
  ∧ (distribute_blocks bs (stripeData bs N content i)).1.flatten
      = stripeData bs N content i
        ++ List.replicate
            ((distribute_blocks bs (stripeData bs N content i)).1.length * bs
              - (stripeData bs N content i).length) 0
  ∧ (i + 1 < numStripes bs N content.length →
      (distribute_blocks bs (stripeData bs N content i)).1.length = N - 1)
  ∧ (calculate_parity (distribute_blocks bs (stripeData bs N content i)).1).length = bs

theorem distribute_blocks_length (bs : Nat) (data : Bytes) :
    (distribute_blocks bs data).1.length = chunkCount bs data.length := by
  simp [distribute_blocks]

theorem distribute_blocks_mem_length (bs : Nat) (data : Bytes)
    (b : Bytes) (hb : b ∈ (distribute_blocks bs data).1) : b.length = bs := by
  simp only [distribute_blocks, List.mem_map] at hb
  obtain ⟨j, _, hj⟩ := hb
  rw [← hj]
  exact length_chunkAt bs data j

theorem stripe_shape (bs N : Nat) (content : Bytes) (hbs : 0 < bs) (hN : 2 ≤ N)
    (i : Nat) (hi : i < numStripes bs N content.length) :
    StripeShape bs N content i := by
  have hlen := distribute_blocks_length bs (stripeData bs N content i)
  have hpos := stripeData_len_pos bs N content i hbs hN hi
  have hcpos : 0 < chunkCount bs (stripeData bs N content i).length :=
    (lt_chunkCount_iff hbs).2 (by omega)
  have hle : chunkCount bs (stripeData bs N content i).length ≤ N - 1 := by
    apply chunkCount_le_of_le hbs
    have h1 := length_stripeData bs N content i
    have h2 : (stripeData bs N content i).length ≤ stripeSize bs N := by omega
    calc (stripeData bs N content i).length ≤ stripeSize bs N := h2
      _ = (N - 1) * bs := by unfold stripeSize; ring
  refine ⟨hlen, by omega, by omega, ?_, ?_, ?_, ?_⟩
  · exact distribute_blocks_mem_length bs _
  · rw [hlen]
    exact chunks_flatten bs hbs (stripeData bs N content i)
  · intro hfull
    rw [hlen, stripeData_len_full bs N content i hbs hN hfull]
    have : stripeSize bs N = (N - 1) * bs := by unfold stripeSize; ring
    rw [this, chunkCount_mul bs (N - 1) hbs]
  · refine length_calculate_parity bs _ ?_ (distribute_blocks_mem_length bs _)
    intro hnil
    rw [hnil] at hlen
    simp at hlen
    omega

/-! ### Concrete scenario inputs -/

/-- The five bytes of the string HELLO from the concrete spec scenario. -/
def helloBytes : Bytes := [72, 69, 76, 76, 79]

/-- A 16-byte payload: with block size 8 and four nodes it fills one
stripe with two data blocks plus parity. -/
def bytes16 : Bytes :=
  [1, 2, 3, 4, 5, 6, 7, 8, 9, 10, 11, 12, 13, 14, 15, 16]

/-- A 33-byte payload: with block size 1 and four nodes it produces
eleven stripes, so the stripe index 10 appears in block identifiers. -/
def bytes33 : Bytes := (List.range 33).map (fun k => k + 1)

/-! ### Claim C3 -/

/-- Claim C3, counterexample: uploading the 5-byte file HELLO with
N = 4 and block size 8 does NOT produce three 8-byte data blocks; the
stripe payload is 5 bytes, `range(0, 5, 8)` runs once, and exactly one
data block (plus parity) is produced and recorded in the metadata. -/
theorem claim_C3_counterexample :
    (store_file 8 4 0 (fun _ => true) "cafebabe" "hello.txt" helloBytes).metadata.blocks.length
      = 1
    ∧ ¬ (store_file 8 4 0 (fun _ => true) "cafebabe" "hello.txt"
          helloBytes).metadata.blocks.length = 3 := by
  decide

/-- Claim C3 (amended): every stripe of a stored file consists of
`ceil(payload / block_size)` data blocks (between 1 and N-1, and exactly
N-1 for every stripe except possibly the last) plus one parity block,
each exactly block-size bytes, the payload being right-zero-padded; in
particular the 5-byte file HELLO with N = 4 and block size 8 yields one
8-byte data block, not three. -/
theorem claim_C3_stripe_shape (bs N : Nat) (content : Bytes) (hbs : 0 < bs)
    (hN : 2 ≤ N) (i : Nat) (hi : i < numStripes bs N content.length)
    (next0 : Nat) (ok : String → Bool) (fid fn : String) :
    StripeShape bs N content i
    ∧ (store_file bs N next0 ok fid fn content).metadata.parity_blocks.length
        = numStripes bs N content.length := by
  refine ⟨stripe_shape bs N content hbs hN i hi, ?_⟩
  rw [store_file_parity_blocks]
  simp

/-- Witness for the amended C3 at the HELLO scenario. -/
theorem claim_C3_stripe_shape_witness :
    (0 < 8 ∧ 2 ≤ 4 ∧ 0 < numStripes 8 4 helloBytes.length)
    ∧ StripeShape 8 4 helloBytes 0
    ∧ (store_file 8 4 0 (fun _ => true) "cafebabe" "hello.txt"
        helloBytes).metadata.parity_blocks.length = numStripes 8 4 helloBytes.length :=
  ⟨⟨by decide, by decide, by decide⟩,
    claim_C3_stripe_shape 8 4 helloBytes (by decide) (by decide) 0 (by decide)
      0 (fun _ => true) "cafebabe" "hello.txt"⟩

/-! ### Claim C2 -/

/-- Claim C2, counterexample: with node disk_2 failing every write, the
upload of HELLO loses its only data block (the write list holds just the
parity write), yet `store_file` still returns the file id, commits
metadata pointing the lost block at disk_2, and the file is visible
afterwards. -/
theorem claim_C2_counterexample :
    (∀ w ∈ (store_file 8 4 0 (fun d => d != "disk_2") "cafebabe" "hello.txt"
        helloBytes).writes, w.disk_id ≠ "disk_2")
    ∧ (store_file 8 4 0 (fun d => d != "disk_2") "cafebabe" "hello.txt"
        helloBytes).writes.length = 1
    ∧ (store_file 8 4 0 (fun d => d != "disk_2") "cafebabe" "hello.txt"
        helloBytes).metadata.blocks = [("cafebabe_block_0_0", "disk_2")]
    ∧ (store_file 8 4 0 (fun d => d != "disk_2") "cafebabe" "hello.txt"
        helloBytes).file_id = "cafebabe"
    ∧ assocGet "cafebabe"
        (applyOp 8 4 ⟨[], 0, [], []⟩
          (Op.upload (fun d => d != "disk_2") "cafebabe" "hello.txt" helloBytes)).files
      = some (store_file 8 4 0 (fun d => d != "disk_2") "cafebabe" "hello.txt"
          helloBytes).metadata := by
  decide

/-- Claim C2 (amended): an upload never fails as a whole.  Whatever the
outcome of the block writes (`ok` arbitrary), `store_file` returns the
file id, the metadata commit happens, and the file is visible
afterwards; failed writes are only logged and skipped. -/
theorem claim_C2_upload_always_commits (bs N c0 : Nat) (ok : String → Bool)
    (fid fn : String) (content : Bytes) (files : List (String × FileMetadata))
    (disk : DiskStore) (log : List (Nat × StoreResult)) :
    (store_file bs N c0 ok fid fn content).file_id = fid
    ∧ (applyOp bs N ⟨files, c0, disk, log⟩ (Op.upload ok fid fn content)).files
        = assocUpsert files fid (store_file bs N c0 ok fid fn content).metadata
    ∧ assocGet fid
        (applyOp bs N ⟨files, c0, disk, log⟩ (Op.upload ok fid fn content)).files
      = some (store_file bs N c0 ok fid fn content).metadata :=
  ⟨rfl, rfl, assocGet_upsert_self files fid _⟩

/-! ### Claim C5 -/

/-- Claim C5: with two blocks of the same stripe missing, the read does
fail and the caller does see a 500 response — but not through the
intended `HTTPException(500, ...)`: raid5.py never imports
`HTTPException`, so evaluating the raise statement throws a `NameError`,
which the blanket handler of main.py converts into its generic 500.
This theorem records the actual behaviour at a concrete input: a
committed 16-byte file whose stripe has data blocks on disk_2 and
disk_3, with both of those nodes offline. -/
theorem claim_C5_unrecoverable_read :
    retrieve_file
      [("feedbeef", (store_file 8 4 0 (fun _ => true) "feedbeef" "data.bin"
          bytes16).metadata)]
      "feedbeef"
      (fun bid did =>
        if did = "disk_2" ∨ did = "disk_3" then none
        else diskFetch (applyWrites []
          (store_file 8 4 0 (fun _ => true) "feedbeef" "data.bin" bytes16).writes)
          bid did)
      = Except.error (PyError.nameErrorHTTPException
          ("No se pudo reconstruir el archivo: "
            ++ "Fallo de disco multiple irrecuperable en la franja"))
    ∧ download_endpoint
        [("feedbeef", (store_file 8 4 0 (fun _ => true) "feedbeef" "data.bin"
            bytes16).metadata)]
        "feedbeef"
        (fun bid did =>
          if did = "disk_2" ∨ did = "disk_3" then none
          else diskFetch (applyWrites []
            (store_file 8 4 0 (fun _ => true) "feedbeef" "data.bin" bytes16).writes)
            bid did)
      = 500 := by
  decide

/-! ### Claim C8 -/

/-- Claim C8: actual status codes of the API for invalid input.  The
handlers of main.py raise `HTTPException(404)` (and 400 for a missing
filename) inside a `try` block whose own `except Exception` catches the
just-raised exception and re-raises it as a 500.  So an unknown file id
on download or delete and a missing upload filename all surface as 500,
not 404/400; the no-state-change part of the claim does hold. -/
theorem claim_C8_invalid_input_statuses :
    download_endpoint [] "deadbeef" (fun _ _ => none) = 500
    ∧ download_endpoint
        [("g1", (store_file 8 4 0 (fun _ => true) "g1" "y.txt" helloBytes).metadata)]
        "deadbeef" (fun _ _ => none) = 500
    ∧ (delete_endpoint
        [("g1", (store_file 8 4 0 (fun _ => true) "g1" "y.txt" helloBytes).metadata)]
        "deadbeef").1 = 500
    ∧ (delete_endpoint
        [("g1", (store_file 8 4 0 (fun _ => true) "g1" "y.txt" helloBytes).metadata)]
        "deadbeef").2
      = [("g1", (store_file 8 4 0 (fun _ => true) "g1" "y.txt" helloBytes).metadata)]
    ∧ upload_endpoint_status "" = 500
    ∧ ¬ (500 : Nat) = 404 ∧ ¬ (500 : Nat) = 400 := by
  decide

/-! ### Claim C9 -/

/-- Claim C9, counterexample: when the metadata document exists but
fails to parse, the coordinator does NOT refuse to start — the
exception handler of `_load_metadata` only prints the error, and the
manager finishes construction with an empty store and counter 0. -/
theorem claim_C9_counterexample :
    (initManager (some (Except.error "Expecting value: line 1 column 1"))).started = true
    ∧ (initManager (some (Except.error "Expecting value: line 1 column 1"))).file_metadata
        = []
    ∧ (initManager (some (Except.error "Expecting value: line 1 column 1"))).next_stripe_number
        = 0 := by
  decide

/-- Claim C9 (amended): if the metadata document fails to parse at
start-up, the error is only logged; the coordinator starts anyway with
an empty store and stripe counter 0, silently ignoring the corrupt
document. -/
theorem claim_C9_corrupt_metadata_ignored (e : String) :
    initManager (some (Except.error e)) = ⟨[], 0, true⟩ := rfl

/-! ### Claim C10 -/

/-- Claim C10: uploading an empty file succeeds with zero stripes and
zero blocks — the metadata record has size 0 and empty block maps, the
file id is returned, the counter does not move — and a subsequent
retrieve returns the filename with empty content, for every
configuration and fetch environment. -/
theorem claim_C10_empty_file (bs N next0 : Nat) (ok : String → Bool)
    (fid fn : String) (fetch : String → String → Option Bytes) :
    store_file bs N next0 ok fid fn [] = ⟨fid, ⟨fid, fn, 0, [], []⟩, [], next0⟩
    ∧ retrieve_file [(fid, ⟨fid, fn, 0, [], []⟩)] fid fetch
        = Except.ok (some (fn, [])) := by
  constructor
  · simp [store_file, numStripes, chunkCount_zero]
  · simp [retrieve_file, assocGet, dictUpdate, pySorted, List.insertionSort]

/-! ### Claim C6: placement and parity rotation -/

def stripeCountOf (r : StoreResult) : Nat := r.metadata.parity_blocks.length

def logStripes (log : List (Nat × StoreResult)) : Nat :=
  (log.map (fun e => stripeCountOf e.2)).sum

def logParityDisks (log : List (Nat × StoreResult)) : List String :=
  (log.map (fun e => e.2.metadata.parity_blocks.map Prod.snd)).flatten

theorem store_file_stripeCount (bs N next0 : Nat) (ok : String → Bool)
    (fid fn : String) (content : Bytes) :
    stripeCountOf (store_file bs N next0 ok fid fn content)
      = numStripes bs N content.length := by
  unfold stripeCountOf
  rw [store_file_parity_blocks]
  simp

/-- A content stand-in of the recorded size; only its length matters
for the block-count formula of the placement invariant. -/
def contentLenOf (r : StoreResult) : Bytes := List.replicate r.metadata.size 0

/-- The rotation invariant over a whole run: the counter equals its
starting value plus the total number of stripes ever written, the global
sequence of parity disk names is exactly the image of the counter window
under `S mod N`, and each upload in the log carries parity and data
placements driven by the counter value it started from. -/
def LogOK (bs N base : Nat) (st : SysState) : Prop :=
  st.counter = base + logStripes st.uploadLog
  ∧ logParityDisks st.uploadLog
      = (List.range' base (logStripes st.uploadLog)).map (fun S => diskName (S % N))
  ∧ (∀ p ∈ st.uploadLog,
      p.2.metadata.parity_blocks
        = (List.range (stripeCountOf p.2)).map (fun i =>
            (mkParityId p.2.file_id i, diskName ((p.1 + i) % N))))
  ∧ (∀ p ∈ st.uploadLog,
      p.2.metadata.blocks
        = ((List.range (stripeCountOf p.2)).map (fun i =>
            (List.range (chunkCount bs
                (stripeData bs N (contentLenOf p.2) i).length)).map (fun j =>
              (mkDataId p.2.file_id i j,
               diskName ((dataDisks N ((p.1 + i) % N)).getD j 0))))).flatten)

theorem logStripes_append_single (l : List (Nat × StoreResult)) (e : Nat × StoreResult) :
    logStripes (l ++ [e]) = logStripes l + stripeCountOf e.2 := by
  simp [logStripes, List.map_append, List.sum_append]

theorem logParityDisks_append_single (l : List (Nat × StoreResult))
    (e : Nat × StoreResult) :
    logParityDisks (l ++ [e])
      = logParityDisks l ++ e.2.metadata.parity_blocks.map Prod.snd := by
  simp [logParityDisks, List.map_append]

theorem stripeData_length_of_len (bs N L : Nat) (content : Bytes) (i : Nat)
    (h : content.length = L) :
    (stripeData bs N content i).length
      = (stripeData bs N (List.replicate L (0 : Nat)) i).length := by
  rw [length_stripeData, length_stripeData, h, List.length_replicate]

theorem LogOK_congr (bs N base : Nat) (st st' : SysState)
    (hc : st'.counter = st.counter) (hl : st'.uploadLog = st.uploadLog)
    (h : LogOK bs N base st) : LogOK bs N base st' := by
  obtain ⟨h1, h2, h3, h4⟩ := h
  refine ⟨?_, ?_, ?_, ?_⟩
  · rw [hc, hl]; exact h1
  · rw [hl]; exact h2
  · rw [hl]; exact h3
  · rw [hl]; exact h4

theorem applyOp_LogOK (bs N base : Nat) (st : SysState) (op : Op)
    (h : LogOK bs N base st) : LogOK bs N base (applyOp bs N st op) := by
  obtain ⟨h1, h2, h3, h4⟩ := h
  cases op with
  | download fid => exact ⟨h1, h2, h3, h4⟩
  | restart => exact ⟨h1, h2, h3, h4⟩
  | delete fid =>
    refine LogOK_congr bs N base st _ ?_ ?_ ⟨h1, h2, h3, h4⟩
    · show (applyOp bs N st (Op.delete fid)).counter = st.counter
      simp only [applyOp]
      cases assocGet fid st.files <;> rfl
    · show (applyOp bs N st (Op.delete fid)).uploadLog = st.uploadLog
      simp only [applyOp]
      cases assocGet fid st.files <;> rfl
  | upload ok fid fn content =>
    have hm : stripeCountOf (store_file bs N st.counter ok fid fn content)
        = numStripes bs N content.length :=
      store_file_stripeCount bs N st.counter ok fid fn content
    have hlog : (applyOp bs N st (Op.upload ok fid fn content)).uploadLog
        = st.uploadLog ++ [(st.counter, store_file bs N st.counter ok fid fn content)] :=
      rfl
    have hctr : (applyOp bs N st (Op.upload ok fid fn content)).counter
        = st.counter + numStripes bs N content.length := rfl
    refine ⟨?_, ?_, ?_, ?_⟩
    · rw [hctr, hlog, logStripes_append_single, hm, h1]
      omega
    · rw [hlog, logParityDisks_append_single, logStripes_append_single, h2, hm]
      have hr : (store_file bs N st.counter ok fid fn content).metadata.parity_blocks.map
            Prod.snd
          = (List.range (numStripes bs N content.length)).map
              (fun i => diskName ((st.counter + i) % N)) := by
        rw [store_file_parity_blocks, List.map_map]
        rfl
      rw [hr]
      have hsplit : List.range' base (logStripes st.uploadLog
            + numStripes bs N content.length)
          = List.range' base (logStripes st.uploadLog)
            ++ List.range' (base + logStripes st.uploadLog)
                (numStripes bs N content.length) := by
        have happ := List.range'_append base (logStripes st.uploadLog)
          (numStripes bs N content.length) 1
        simp only [Nat.one_mul, Nat.mul_one] at happ
        rw [Nat.add_comm (logStripes st.uploadLog) (numStripes bs N content.length)]
        exact happ.symm
      rw [hsplit, List.map_append]
      congr 1
      rw [List.range'_eq_map_range, List.map_map, ← h1]
      rfl
    · intro p hp
      rcases List.mem_append.1 (hlog ▸ hp) with hold | hnew
      · exact h3 p hold
      · rw [List.mem_singleton.1 hnew]
        rw [store_file_parity_blocks, hm]
        rfl
    · intro p hp
      rcases List.mem_append.1 (hlog ▸ hp) with hold | hnew
      · exact h4 p hold
      · rw [List.mem_singleton.1 hnew]
        show (store_file bs N st.counter ok fid fn content).metadata.blocks = _
        rw [store_file_blocks, hm]
        congr 1
        refine List.map_congr_left ?_
        intro i _
        have hlen : (stripeData bs N content i).length
            = (stripeData bs N
                (contentLenOf (st.counter, store_file bs N st.counter ok fid fn content).2)
                i).length := by
          unfold contentLenOf
          rw [store_file_size]
          exact stripeData_length_of_len bs N content.length content i rfl
        rw [hlen]
        rfl

theorem runOps_LogOK (bs N base : Nat) :
    ∀ (ops : List Op) (st : SysState), LogOK bs N base st →
      LogOK bs N base (runOps bs N st ops)
  | [], _, h => h
  | op :: rest, st, h =>
    runOps_LogOK bs N base rest (applyOp bs N st op) (applyOp_LogOK bs N base st op h)

theorem dataDisks_sorted (N p : Nat) : List.Sorted (· < ·) (dataDisks N p) :=
  List.Pairwise.sublist (List.filter_sublist _) (List.pairwise_lt_range N)

theorem mem_dataDisks (N p j : Nat) : j ∈ dataDisks N p ↔ (j < N ∧ j ≠ p) := by
  simp [dataDisks, List.mem_filter, List.mem_range]

/-- Claim C6: over any sequence of operations (uploads with arbitrary
write outcomes, deletes, downloads, restarts) starting from a counter
value `c0`, the parity of the stripe written with global counter value S
lands on node index `S mod N`, the data blocks of a stripe land in order
on `[0..N-1]` with the parity index removed in ascending order, the
counter is persisted with the metadata and restored by a restart, and
the concatenated parity disk sequence over the whole run is exactly
`map (S mod N)` over the counter window `[c0, c0 + total_stripes)`. -/
theorem claim_C6_parity_rotation (bs N c0 : Nat)
    (files0 : List (String × FileMetadata)) (disk0 : DiskStore) (ops : List Op) :
    LogOK bs N c0 (runOps bs N ⟨files0, c0, disk0, []⟩ ops)
    ∧ (∀ (fls : List (String × FileMetadata)) (c : Nat),
        initManager (some (Except.ok (save_metadata fls c))) = ⟨fls, c, true⟩)
    ∧ (∀ S, get_parity_disk N S = S % N)
    ∧ (∀ p, List.Sorted (· < ·) (dataDisks N p))
    ∧ (∀ p j, j ∈ dataDisks N p ↔ (j < N ∧ j ≠ p)) := by
  refine ⟨?_, fun _ _ => rfl, fun _ => rfl, dataDisks_sorted N, mem_dataDisks N⟩
  refine runOps_LogOK bs N c0 ops _ ⟨by simp [logStripes], ?_, ?_, ?_⟩
  · simp [logParityDisks, logStripes]
  · intro p hp; cases hp
  · intro p hp; cases hp

/-! ### Claim C7: the parity invariant on stored blocks -/

/-- What `_retrieve_block_from_disk` would read back from a healthy
node: the bytes stored under (disk id, block id). -/
def diskGet (d : DiskStore) (did bid : String) : Option Bytes :=
  assocGet (did, bid) d

/-- The data blocks of stripe `i` of a committed file that are actually
present on the nodes, in metadata order: the formalization of "that
stripe's stored data blocks" (the stripe membership of a block is read
off its identifier exactly as `_reconstruct_data` parses it). -/
def storedStripeData (d : DiskStore) (md : FileMetadata) (i : Nat) : List Bytes :=
  md.blocks.filterMap (fun e =>
    if parseStripeIndex e.1 = some i then diskGet d e.2 e.1 else none)

/-- The parity invariant for one committed file: every parity block is
present on its recorded node and equals the XOR
(`calculate_parity`) of the stored data blocks of its stripe. -/
def ParityHolds (d : DiskStore) (md : FileMetadata) : Prop :=
  ∀ e ∈ md.parity_blocks, ∀ i, parseStripeIndex e.1 = some i →
    diskGet d e.2 e.1 = some (calculate_parity (storedStripeData d md i))

/-- The parity invariant over the whole system: it holds for every
committed (visible) file. -/
def parityInv (st : SysState) : Prop :=
  ∀ fid md, assocGet fid st.files = some md → ParityHolds st.disk md

/-- Claim C7, counterexample: because uploads commit even when block
writes fail (claim C2), a committed file can violate the parity
invariant.  Uploading HELLO while disk_2 rejects writes commits a file
whose only data block was never stored; its stored parity block (the
HELLO block) is not the XOR of the stored data blocks of the stripe
(an empty list, whose XOR is the empty byte string). -/
theorem claim_C7_counterexample :
    assocGet "cafebabe"
      (applyOp 8 4 ⟨[], 0, [], []⟩
        (Op.upload (fun d => d != "disk_2") "cafebabe" "hello.txt" helloBytes)).files
      = some (store_file 8 4 0 (fun d => d != "disk_2") "cafebabe" "hello.txt"
          helloBytes).metadata
    ∧ ¬ ParityHolds
        (applyOp 8 4 ⟨[], 0, [], []⟩
          (Op.upload (fun d => d != "disk_2") "cafebabe" "hello.txt" helloBytes)).disk
        (store_file 8 4 0 (fun d => d != "disk_2") "cafebabe" "hello.txt"
          helloBytes).metadata := by
  refine ⟨by decide, ?_⟩
  intro hP
  have hx := hP ("cafebabe_block_parity_0", "disk_1") (by decide) 0 (by decide)
  revert hx
  decide

/-! ### Distinctness of the block identifiers of stored files -/

theorem nodup_flatten_range {β : Type} (m : Nat) (F : Nat → List β)
    (hn : ∀ i < m, (F i).Nodup)
    (hdisj : ∀ i i', i < m → i' < m → i ≠ i' → ∀ x ∈ F i, x ∉ F i') :
    ((List.range m).map F).flatten.Nodup := by
  rw [List.nodup_flatten]
  constructor
  · intro l hl
    obtain ⟨i, hi, rfl⟩ := List.mem_map.1 hl
    exact hn i (List.mem_range.1 hi)
  · rw [List.pairwise_map]
    refine List.Pairwise.imp_of_mem ?_ (List.pairwise_lt_range m)
    intro a b ha hb hab
    intro x hxa hxb
    exact hdisj a b (List.mem_range.1 ha) (List.mem_range.1 hb) (by omega) x hxa hxb

/-- All block identifiers (data and parity) generated for one file, in
write order. -/
def fileBlockIds (fid : String) (m : Nat) (c : Nat → Nat) : List String :=
  ((List.range m).map (fun i =>
    (List.range (c i)).map (fun j => mkDataId fid i j) ++ [mkParityId fid i])).flatten

theorem fileBlockIds_nodup (fid : String) (hfid : '_' ∉ fid.data)
    (m : Nat) (c : Nat → Nat) : (fileBlockIds fid m c).Nodup := by
  refine nodup_flatten_range m _ ?_ ?_
  · intro i _
    rw [List.nodup_append]
    refine ⟨?_, by simp, ?_⟩
    · refine List.Nodup.map_on ?_ (List.nodup_range _)
      intro x _ y _ hxy
      exact (mkDataId_inj fid fid i x i y hfid hfid hxy).2.2
    · intro x hx hx'
      obtain ⟨j, _, rfl⟩ := List.mem_map.1 hx
      exact mkParityId_ne_dataId fid fid i i j hfid hfid (List.mem_singleton.1 hx').symm
  · intro i i' hi hi' hne x hx hx'
    rcases List.mem_append.1 hx with hd | hp
    · obtain ⟨j, _, rfl⟩ := List.mem_map.1 hd
      rcases List.mem_append.1 hx' with hd' | hp'
      · obtain ⟨j', _, he⟩ := List.mem_map.1 hd'
        exact hne ((mkDataId_inj fid fid i' j' i j hfid hfid he).2.1).symm
      · exact mkParityId_ne_dataId fid fid i' i j hfid hfid (List.mem_singleton.1 hp').symm
    · rw [List.mem_singleton.1 hp] at hx'
      rcases List.mem_append.1 hx' with hd' | hp'
      · obtain ⟨j', _, he⟩ := List.mem_map.1 hd'
        exact mkParityId_ne_dataId fid fid i i' j' hfid hfid he.symm
      · exact hne (mkParityId_inj fid fid i i' hfid hfid (List.mem_singleton.1 hp')).2

theorem store_file_writes_block_ids (bs N next0 : Nat) (ok : String → Bool)
    (fid fn : String) (content : Bytes) (hok : ∀ d, ok d = true) :
    (store_file bs N next0 ok fid fn content).writes.map (fun w => w.block_id)
      = fileBlockIds fid (numStripes bs N content.length)
          (fun i => chunkCount bs (stripeData bs N content i).length) := by
  rw [store_file_writes bs N next0 ok fid fn content hok, List.map_flatten]
  unfold fileBlockIds
  simp only [List.map_map]
  congr 1
  refine List.map_congr_left ?_
  intro i _
  simp only [Function.comp_apply, List.map_append, List.map_map]
  rfl

theorem store_file_writeKeys_nodup (bs N next0 : Nat) (ok : String → Bool)
    (fid fn : String) (content : Bytes) (hok : ∀ d, ok d = true)
    (hfid : '_' ∉ fid.data) :
    (writeKeys (store_file bs N next0 ok fid fn content).writes).Nodup := by
  have hids : ((writeKeys (store_file bs N next0 ok fid fn content).writes).map
      Prod.snd).Nodup := by
    have hmm : (writeKeys (store_file bs N next0 ok fid fn content).writes).map Prod.snd
        = (store_file bs N next0 ok fid fn content).writes.map (fun w => w.block_id) := by
      unfold writeKeys
      rw [List.map_map]
      rfl
    rw [hmm, store_file_writes_block_ids bs N next0 ok fid fn content hok]
    exact fileBlockIds_nodup fid hfid _ _
  exact List.Nodup.of_map Prod.snd hids

theorem store_file_writes_shape (bs N next0 : Nat) (ok : String → Bool)
    (fid fn : String) (content : Bytes) (hok : ∀ d, ok d = true) :
    ∀ w ∈ (store_file bs N next0 ok fid fn content).writes,
      (∃ i j, w.block_id = mkDataId fid i j) ∨ (∃ i, w.block_id = mkParityId fid i) := by
  intro w hw
  rw [store_file_writes bs N next0 ok fid fn content hok] at hw
  obtain ⟨l, hl, hwl⟩ := List.mem_flatten.1 hw
  obtain ⟨i, _, rfl⟩ := List.mem_map.1 hl
  rcases List.mem_append.1 hwl with hd | hp
  · obtain ⟨j, _, rfl⟩ := List.mem_map.1 hd
    exact Or.inl ⟨i, j, rfl⟩
  · rw [List.mem_singleton.1 hp]
    exact Or.inr ⟨i, rfl⟩

theorem block_id_fid_eq (fid fid' : String) (hfid : '_' ∉ fid.data)
    (hfid' : '_' ∉ fid'.data) (x : String)
    (hx : (∃ i j, x = mkDataId fid i j) ∨ (∃ i, x = mkParityId fid i))
    (hx' : (∃ i j, x = mkDataId fid' i j) ∨ (∃ i, x = mkParityId fid' i)) :
    fid = fid' := by
  rcases hx with ⟨i, j, rfl⟩ | ⟨i, rfl⟩
  · rcases hx' with ⟨i', j', he⟩ | ⟨i', he⟩
    · exact (mkDataId_inj fid fid' i j i' j' hfid hfid' he).1
    · exact absurd he.symm (mkParityId_ne_dataId fid' fid i' i j hfid' hfid)
  · rcases hx' with ⟨i', j', he⟩ | ⟨i', he⟩
    · exact absurd he (mkParityId_ne_dataId fid fid' i i' j' hfid hfid')
    · exact (mkParityId_inj fid fid' i i' hfid hfid' he).1

/-! ### Further association-list lemmas -/

section Assoc2

variable {α β : Type} [DecidableEq α]

theorem assocGet_none_iff (l : List (α × β)) (k : α) :
    assocGet k l = none ↔ k ∉ l.map Prod.fst := by
  constructor
  · intro h hmem
    induction l with
    | nil => cases hmem
    | cons e rest ih =>
      simp only [List.map_cons, List.mem_cons] at hmem
      by_cases he : e.1 = k
      · rw [assocGet, if_pos he] at h
        cases h
      · rw [assocGet, if_neg he] at h
        rcases hmem with h1 | h2
        · exact he h1.symm
        · exact ih h h2
  · exact assocGet_eq_none l k

theorem assocGet_append_some (l l' : List (α × β)) (k : α) (v : β)
    (h : assocGet k l = some v) : assocGet k (l ++ l') = some v := by
  induction l with
  | nil => cases h
  | cons e rest ih =>
    by_cases he : e.1 = k
    · rw [assocGet, if_pos he] at h
      rw [List.cons_append, assocGet, if_pos he]
      exact h
    · rw [assocGet, if_neg he] at h
      rw [List.cons_append, assocGet, if_neg he]
      exact ih h

theorem assocGet_append_single_ne (l : List (α × β)) (k k0 : α) (v : β)
    (h : k ≠ k0) : assocGet k (l ++ [(k0, v)]) = assocGet k l := by
  induction l with
  | nil =>
    have hne : ¬ (k0 = k) := fun hh => h hh.symm
    simp [assocGet, hne]
  | cons e rest ih =>
    by_cases he : e.1 = k
    · rw [List.cons_append, assocGet, if_pos he, assocGet, if_pos he]
    · rw [List.cons_append, assocGet, if_neg he, assocGet, if_neg he]
      exact ih

theorem assocGet_filter_prop (l : List (α × β)) (p : α × β → Bool) (k : α)
    (h : ∀ e ∈ l, e.1 = k → p e = true) :
    assocGet k (l.filter p) = assocGet k l := by
  induction l with
  | nil => rfl
  | cons e rest ih =>
    by_cases he : e.1 = k
    · rw [List.filter_cons, if_pos (h e (List.mem_cons_self _ _) he)]
      rw [assocGet, if_pos he, assocGet, if_pos he]
    · rw [List.filter_cons]
      by_cases hp : p e = true
      · rw [if_pos hp, assocGet, if_neg he, assocGet, if_neg he]
        exact ih (fun x hx => h x (List.mem_cons_of_mem _ hx))
      · rw [if_neg hp, assocGet, if_neg he]
        exact ih (fun x hx => h x (List.mem_cons_of_mem _ hx))

theorem assocGet_filter_self_none (l : List (α × β)) (k : α) :
    assocGet k (l.filter (fun e => e.1 != k)) = none := by
  rw [assocGet_none_iff]
  intro hmem
  obtain ⟨e, he, rfl⟩ := List.mem_map.1 hmem
  have h := List.of_mem_filter he
  simp at h

theorem assocGet_filter_ne (l : List (α × β)) (k k0 : α) (h : k ≠ k0) :
    assocGet k (l.filter (fun e => e.1 != k0)) = assocGet k l := by
  refine assocGet_filter_prop l _ k ?_
  intro e _ hek
  simp [hek, h]

theorem assocGet_filter_none (l : List (α × β)) (p : α × β → Bool) (k : α)
    (h : assocGet k l = none) : assocGet k (l.filter p) = none := by
  rw [assocGet_none_iff] at h ⊢
  intro hmem
  obtain ⟨e, he, rfl⟩ := List.mem_map.1 hmem
  exact h (List.mem_map_of_mem Prod.fst (List.mem_of_mem_filter he))

theorem mem_keys_assocUpsert (l : List (α × β)) (k : α) (v : β) (x : α)
    (h : x ∈ (assocUpsert l k v).map Prod.fst) :
    x = k ∨ x ∈ l.map Prod.fst := by
  induction l with
  | nil =>
    simp only [assocUpsert, List.map_cons, List.map_nil, List.mem_singleton] at h
    exact Or.inl h
  | cons e rest ih =>
    by_cases he : e.1 = k
    · rw [assocUpsert, if_pos he] at h
      simp only [List.map_cons, List.mem_cons] at h
      rcases h with h1 | h2
      · exact Or.inl h1
      · exact Or.inr (by simp [h2])
    · rw [assocUpsert, if_neg he] at h
      simp only [List.map_cons, List.mem_cons] at h
      rcases h with h1 | h2
      · exact Or.inr (by simp [h1])
      · rcases ih h2 with h3 | h4
        · exact Or.inl h3
        · exact Or.inr (by simp [h4])

theorem mem_keys_dictUpdate (b a : List (α × β)) (x : α)
    (h : x ∈ (dictUpdate a b).map Prod.fst) :
    x ∈ a.map Prod.fst ∨ x ∈ b.map Prod.fst := by
  induction b generalizing a with
  | nil => exact Or.inl h
  | cons e rest ih =>
    have hstep : dictUpdate a (e :: rest) = dictUpdate (assocUpsert a e.1 e.2) rest := rfl
    rw [hstep] at h
    rcases ih (assocUpsert a e.1 e.2) h with h1 | h2
    · rcases mem_keys_assocUpsert a e.1 e.2 x h1 with h3 | h4
      · exact Or.inr (by simp [h3])
      · exact Or.inl h4
    · exact Or.inr (by simp [h2])

end Assoc2

theorem filterMap_eq_map_of_some {α β : Type} (l : List α) (f : α → Option β)
    (g : α → β) (h : ∀ a ∈ l, f a = some (g a)) : l.filterMap f = l.map g := by
  induction l with
  | nil => rfl
  | cons a t ih =>
    rw [List.filterMap_cons, h a (List.mem_cons_self _ _), List.map_cons,
      ih (fun x hx => h x (List.mem_cons_of_mem _ hx))]

theorem filterMap_eq_nil_of_none {α β : Type} (l : List α) (f : α → Option β)
    (h : ∀ a ∈ l, f a = none) : l.filterMap f = [] := by
  induction l with
  | nil => rfl
  | cons a t ih =>
    rw [List.filterMap_cons, h a (List.mem_cons_self _ _)]
    exact ih (fun x hx => h x (List.mem_cons_of_mem _ hx))

theorem flatten_single {β : Type} (m i0 : Nat) (hi : i0 < m) (F : Nat → List β)
    (h : ∀ i < m, i ≠ i0 → F i = []) :
    ((List.range m).map F).flatten = F i0 := by
  induction m with
  | zero => omega
  | succ k ih =>
    rw [List.range_succ, List.map_append, List.flatten_append]
    by_cases hk : i0 = k
    · subst hk
      have hzero : ((List.range i0).map F).flatten = [] := by
        rw [List.flatten_eq_nil_iff]
        intro l hl
        obtain ⟨i, hi2, rfl⟩ := List.mem_map.1 hl
        have hilt := List.mem_range.1 hi2
        exact h i (by omega) (by omega)
      simp [hzero]
    · have hik : i0 < k := by omega
      rw [ih hik (fun i h1 h2 => h i (by omega) h2)]
      have hFk : F k = [] := h k (by omega) (by omega)
      simp [hFk]

/-! ### Intact files on disk -/

/-- A committed file together with all its blocks as the write path
produced them: the metadata is exactly a `store_file` result for this
file id, and every block write of that upload is present verbatim in
the disk store. -/
def FileIntact (bs N : Nat) (d : DiskStore) (fid : String) (md : FileMetadata) : Prop :=
  ∃ next0 fn content,
    md = (store_file bs N next0 (fun _ => true) fid fn content).metadata
    ∧ ∀ w ∈ (store_file bs N next0 (fun _ => true) fid fn content).writes,
        diskGet d w.disk_id w.block_id = some w.data

def cleanFid (fid : String) : Prop := '_' ∉ fid.data

instance (fid : String) : Decidable (cleanFid fid) := by
  unfold cleanFid
  infer_instance

/-- Every committed file is clean-named and intact on disk. -/
def AllIntact (bs N : Nat) (st : SysState) : Prop :=
  ∀ fid md, assocGet fid st.files = some md → cleanFid fid ∧ FileIntact bs N st.disk fid md

theorem store_file_parity_write_mem (bs N next0 : Nat) (fid fn : String)
    (content : Bytes) (i : Nat) (hi : i < numStripes bs N content.length) :
    BlockWrite.mk (diskName (get_parity_disk N (next0 + i))) (mkParityId fid i)
      (distribute_blocks bs (stripeData bs N content i)).2
      ∈ (store_file bs N next0 (fun _ => true) fid fn content).writes := by
  rw [store_file_writes bs N next0 _ fid fn content (fun _ => rfl)]
  refine List.mem_flatten.2 ⟨_, List.mem_map.2 ⟨i, List.mem_range.2 hi, rfl⟩, ?_⟩
  exact List.mem_append.2 (Or.inr (List.mem_singleton.2 rfl))

theorem store_file_data_write_mem (bs N next0 : Nat) (fid fn : String)
    (content : Bytes) (i j : Nat) (hi : i < numStripes bs N content.length)
    (hj : j < chunkCount bs (stripeData bs N content i).length) :
    BlockWrite.mk (diskName ((dataDisks N (get_parity_disk N (next0 + i))).getD j 0))
      (mkDataId fid i j) (chunkAt bs (stripeData bs N content i) j)
      ∈ (store_file bs N next0 (fun _ => true) fid fn content).writes := by
  rw [store_file_writes bs N next0 _ fid fn content (fun _ => rfl)]
  refine List.mem_flatten.2 ⟨_, List.mem_map.2 ⟨i, List.mem_range.2 hi, rfl⟩, ?_⟩
  refine List.mem_append.2 (Or.inl ?_)
  exact List.mem_map.2 ⟨j, List.mem_range.2 hj, rfl⟩

theorem store_file_blocks_key_shape (bs N next0 : Nat) (ok : String → Bool)
    (fid fn : String) (content : Bytes) :
    ∀ p ∈ (store_file bs N next0 ok fid fn content).metadata.blocks,
      ∃ i j, p.1 = mkDataId fid i j := by
  intro p hp
  rw [store_file_blocks] at hp
  obtain ⟨l, hl, hpl⟩ := List.mem_flatten.1 hp
  obtain ⟨i, _, rfl⟩ := List.mem_map.1 hl
  obtain ⟨j, _, rfl⟩ := List.mem_map.1 hpl
  exact ⟨i, j, rfl⟩

theorem store_file_parity_key_shape (bs N next0 : Nat) (ok : String → Bool)
    (fid fn : String) (content : Bytes) :
    ∀ p ∈ (store_file bs N next0 ok fid fn content).metadata.parity_blocks,
      ∃ i, p.1 = mkParityId fid i := by
  intro p hp
  rw [store_file_parity_blocks] at hp
  obtain ⟨i, _, rfl⟩ := List.mem_map.1 hp
  exact ⟨i, rfl⟩

/-- An intact file satisfies the parity invariant: each stored parity
block equals the XOR of the stored data blocks of its stripe. -/
theorem parityHolds_of_intact (bs N : Nat) (d : DiskStore) (fid : String)
    (hfid : cleanFid fid) (md : FileMetadata) (hI : FileIntact bs N d fid md) :
    ParityHolds d md := by
  obtain ⟨next0, fn, content, hmd, hw⟩ := hI
  intro e he i hparse
  rw [hmd, store_file_parity_blocks] at he
  obtain ⟨i0, hi0, rfl⟩ := List.mem_map.1 he
  have hi0m : i0 < numStripes bs N content.length := List.mem_range.1 hi0
  rw [parseStripeIndex_parityId fid hfid i0] at hparse
  have hii : i = i0 := (Option.some.inj hparse).symm
  subst hii
  have hpar := hw _ (store_file_parity_write_mem bs N next0 fid fn content i hi0m)
  have hssd : storedStripeData d md i
      = (List.range (chunkCount bs (stripeData bs N content i).length)).map
          (chunkAt bs (stripeData bs N content i)) := by
    unfold storedStripeData
    rw [hmd, store_file_blocks, List.filterMap_flatten, List.map_map]
    have hsingle := flatten_single (numStripes bs N content.length) i hi0m
      (fun i' => List.filterMap
        (fun e => if parseStripeIndex e.1 = some i then diskGet d e.2 e.1 else none)
        ((List.range (chunkCount bs (stripeData bs N content i').length)).map (fun j =>
          (mkDataId fid i' j,
           diskName ((dataDisks N (get_parity_disk N (next0 + i'))).getD j 0)))))
      ?_
    · rw [show (List.map
          ((List.filterMap fun e =>
            if parseStripeIndex e.1 = some i then diskGet d e.2 e.1 else none) ∘
            fun i' => (List.range (chunkCount bs (stripeData bs N content i').length)).map
              (fun j => (mkDataId fid i' j,
                diskName ((dataDisks N (get_parity_disk N (next0 + i'))).getD j 0))))
          (List.range (numStripes bs N content.length)))
        = (List.map (fun i' => List.filterMap
            (fun e => if parseStripeIndex e.1 = some i then diskGet d e.2 e.1 else none)
            ((List.range (chunkCount bs (stripeData bs N content i').length)).map (fun j =>
              (mkDataId fid i' j,
               diskName ((dataDisks N (get_parity_disk N (next0 + i'))).getD j 0)))))
          (List.range (numStripes bs N content.length))) from rfl, hsingle,
        List.filterMap_map]
      refine filterMap_eq_map_of_some _ _ _ ?_
      intro j hj
      have hjm := List.mem_range.1 hj
      simp only [Function.comp_apply]
      rw [parseStripeIndex_dataId fid hfid i j, if_pos rfl]
      exact hw _ (store_file_data_write_mem bs N next0 fid fn content i j hi0m hjm)
    · intro i' hi' hne
      show List.filterMap
          (fun e => if parseStripeIndex e.1 = some i then diskGet d e.2 e.1 else none)
          ((List.range (chunkCount bs (stripeData bs N content i').length)).map (fun j =>
            (mkDataId fid i' j,
             diskName ((dataDisks N (get_parity_disk N (next0 + i'))).getD j 0)))) = []
      rw [List.filterMap_map]
      refine filterMap_eq_nil_of_none _ _ ?_
      intro j hj
      simp only [Function.comp_apply]
      rw [parseStripeIndex_dataId fid hfid i' j]
      rw [if_neg]
      intro hcontra
      exact hne (Option.some.inj hcontra)
  rw [hssd]
  exact hpar

theorem store_file_metadata_ok_irrel (bs N next0 : Nat) (ok : String → Bool)
    (fid fn : String) (content : Bytes) :
    (store_file bs N next0 ok fid fn content).metadata
      = (store_file bs N next0 (fun _ => true) fid fn content).metadata := rfl

theorem store_file_writes_ok_irrel (bs N next0 : Nat) (ok : String → Bool)
    (fid fn : String) (content : Bytes) (hok : ∀ d, ok d = true) :
    (store_file bs N next0 ok fid fn content).writes
      = (store_file bs N next0 (fun _ => true) fid fn content).writes := by
  rw [store_file_writes bs N next0 ok fid fn content hok,
    store_file_writes bs N next0 _ fid fn content (fun _ => rfl)]

theorem upload_intact (bs N : Nat) (st : SysState) (ok : String → Bool)
    (fid fn : String) (content : Bytes) (hok : ∀ d, ok d = true)
    (hfid : cleanFid fid) (hfresh : assocGet fid st.files = none)
    (hAll : AllIntact bs N st) :
    AllIntact bs N (applyOp bs N st (Op.upload ok fid fn content)) := by
  have hnotmem : fid ∉ st.files.map Prod.fst := (assocGet_none_iff _ _).1 hfresh
  have hfiles : (applyOp bs N st (Op.upload ok fid fn content)).files
      = st.files
        ++ [(fid, (store_file bs N st.counter (fun _ => true) fid fn content).metadata)] := by
    show assocUpsert st.files fid
        (store_file bs N st.counter ok fid fn content).metadata = _
    rw [store_file_metadata_ok_irrel]
    exact assocUpsert_of_not_mem st.files fid _ hnotmem
  have hdisk : (applyOp bs N st (Op.upload ok fid fn content)).disk
      = applyWrites st.disk
          (store_file bs N st.counter (fun _ => true) fid fn content).writes := by
    show applyWrites st.disk (store_file bs N st.counter ok fid fn content).writes = _
    rw [store_file_writes_ok_irrel bs N st.counter ok fid fn content hok]
  intro fid' md' hmd'
  rw [hfiles] at hmd'
  by_cases hf : fid' = fid
  · subst hf
    rw [assocGet_append_left st.files _ fid' hnotmem] at hmd'
    simp [assocGet] at hmd'
    subst hmd'
    refine ⟨hfid, st.counter, fn, content, rfl, ?_⟩
    intro w hw
    rw [hdisk]
    unfold diskGet
    exact applyWrites_mem st.disk _ w
      (store_file_writeKeys_nodup bs N st.counter _ fid' fn content (fun _ => rfl) hfid) hw
  · rw [assocGet_append_single_ne st.files fid' fid _ hf] at hmd'
    obtain ⟨hclean', hint⟩ := hAll fid' md' hmd'
    refine ⟨hclean', ?_⟩
    obtain ⟨n0, fn0, ct0, hmdeq, hws⟩ := hint
    refine ⟨n0, fn0, ct0, hmdeq, ?_⟩
    intro w hw
    rw [hdisk]
    unfold diskGet
    rw [applyWrites_not_mem]
    · exact hws w hw
    · intro hkmem
      unfold writeKeys at hkmem
      obtain ⟨w', hw', hkeq⟩ := List.mem_map.1 hkmem
      have hbid : w'.block_id = w.block_id := congrArg Prod.snd hkeq
      have hsh' := store_file_writes_shape bs N st.counter _ fid fn content
        (fun _ => rfl) w' hw'
      have hsh := store_file_writes_shape bs N n0 _ fid' fn0 ct0
        (fun _ => rfl) w hw
      rw [hbid] at hsh'
      exact hf (block_id_fid_eq fid' fid hclean' hfid w.block_id hsh hsh')

theorem delete_intact (bs N : Nat) (st : SysState) (fid : String)
    (hAll : AllIntact bs N st) :
    AllIntact bs N (applyOp bs N st (Op.delete fid)) := by
  cases hdel : assocGet fid st.files with
  | none =>
    have hst : applyOp bs N st (Op.delete fid) = st := by
      simp only [applyOp, hdel]
    rw [hst]
    exact hAll
  | some mdd =>
    have hfiles : (applyOp bs N st (Op.delete fid)).files
        = st.files.filter (fun e => e.1 != fid) := by
      simp only [applyOp, hdel]
    have hdisk : (applyOp bs N st (Op.delete fid)).disk
        = st.disk.filter (fun e =>
            !((dictUpdate mdd.blocks mdd.parity_blocks).any
              (fun v => v.1 == e.1.2 && v.2 == e.1.1))) := by
      simp only [applyOp, hdel]
    obtain ⟨hcleand, hintd⟩ := hAll fid mdd hdel
    obtain ⟨nd, fnd, ctd, hmdd, _⟩ := hintd
    intro fid' md' hmd'
    rw [hfiles] at hmd'
    have hf : fid' ≠ fid := by
      intro he
      subst he
      rw [assocGet_filter_self_none] at hmd'
      cases hmd'
    rw [assocGet_filter_ne st.files fid' fid hf] at hmd'
    obtain ⟨hclean', hint⟩ := hAll fid' md' hmd'
    refine ⟨hclean', ?_⟩
    obtain ⟨n0, fn0, ct0, hmdeq, hws⟩ := hint
    refine ⟨n0, fn0, ct0, hmdeq, ?_⟩
    intro w hw
    rw [hdisk]
    unfold diskGet
    rw [assocGet_filter_prop]
    · exact hws w hw
    · intro e _ hek
      have hany : ((dictUpdate mdd.blocks mdd.parity_blocks).any
          (fun v => v.1 == e.1.2 && v.2 == e.1.1)) = false := by
        rw [List.any_eq_false]
        intro v hv
        have hkey : v.1 ∈ mdd.blocks.map Prod.fst ∨ v.1 ∈ mdd.parity_blocks.map Prod.fst :=
          mem_keys_dictUpdate mdd.parity_blocks mdd.blocks v.1
            (List.mem_map_of_mem Prod.fst hv)
        have hshape : (∃ i j, v.1 = mkDataId fid i j) ∨ (∃ i, v.1 = mkParityId fid i) := by
          rcases hkey with h1 | h2
          · obtain ⟨p, hp, hpe⟩ := List.mem_map.1 h1
            rw [hmdd] at hp
            obtain ⟨i, j, hij⟩ := store_file_blocks_key_shape bs N nd (fun _ => true)
              fid fnd ctd p hp
            exact Or.inl ⟨i, j, hpe ▸ hij⟩
          · obtain ⟨p, hp, hpe⟩ := List.mem_map.1 h2
            rw [hmdd] at hp
            obtain ⟨i, hij⟩ := store_file_parity_key_shape bs N nd (fun _ => true)
              fid fnd ctd p hp
            exact Or.inr ⟨i, hpe ▸ hij⟩
        have hwshape := store_file_writes_shape bs N n0 _ fid' fn0 ct0 (fun _ => rfl) w hw
        have hne : v.1 ≠ e.1.2 := by
          rw [hek]
          intro hveq
          have hveq2 : v.1 = w.block_id := hveq
          rw [hveq2] at hshape
          exact hf (block_id_fid_eq fid' fid hclean' hcleand w.block_id hwshape hshape)
        simp [hne]
      simp [hany]

def uploadFids : List Op → List String
  | [] => []
  | Op.upload _ fid _ _ :: rest => fid :: uploadFids rest
  | Op.delete _ :: rest => uploadFids rest
  | Op.download _ :: rest => uploadFids rest
  | Op.restart :: rest => uploadFids rest

def HealthyOps : List Op → Prop
  | [] => True
  | Op.upload ok _ _ _ :: rest => (∀ d, ok d = true) ∧ HealthyOps rest
  | Op.delete _ :: rest => HealthyOps rest
  | Op.download _ :: rest => HealthyOps rest
  | Op.restart :: rest => HealthyOps rest

theorem delete_files_fresh (bs N : Nat) (st : SysState) (fid f : String)
    (h : assocGet f st.files = none) :
    assocGet f (applyOp bs N st (Op.delete fid)).files = none := by
  cases hdel : assocGet fid st.files with
  | none =>
    have hst : applyOp bs N st (Op.delete fid) = st := by
      simp only [applyOp, hdel]
    rw [hst]
    exact h
  | some mdd =>
    have hfiles : (applyOp bs N st (Op.delete fid)).files
        = st.files.filter (fun e => e.1 != fid) := by
      simp only [applyOp, hdel]
    rw [hfiles]
    exact assocGet_filter_none st.files _ f h

theorem runOps_intact (bs N : Nat) :
    ∀ (ops : List Op) (st : SysState),
      AllIntact bs N st → HealthyOps ops → (uploadFids ops).Nodup →
      (∀ f ∈ uploadFids ops, assocGet f st.files = none) →
      (∀ f ∈ uploadFids ops, cleanFid f) →
      AllIntact bs N (runOps bs N st ops)
  | [], _, hA, _, _, _, _ => hA
  | Op.upload ok fid fn content :: rest, st, hA, hH, hnd, hfr, hcl => by
    obtain ⟨hok, hH'⟩ := hH
    have hmem0 : fid ∈ uploadFids (Op.upload ok fid fn content :: rest) := by
      rw [uploadFids]
      exact List.mem_cons_self _ _
    have hnd' : (uploadFids rest).Nodup ∧ fid ∉ uploadFids rest := by
      rw [uploadFids] at hnd
      rw [List.nodup_cons] at hnd
      exact ⟨hnd.2, hnd.1⟩
    show AllIntact bs N (runOps bs N (applyOp bs N st (Op.upload ok fid fn content)) rest)
    refine runOps_intact bs N rest _
      (upload_intact bs N st ok fid fn content hok (hcl fid hmem0) (hfr fid hmem0) hA)
      hH' hnd'.1 ?_ ?_
    · intro f hf
      have hfne : f ≠ fid := by
        intro he
        exact hnd'.2 (he ▸ hf)
      have hfin : f ∈ uploadFids (Op.upload ok fid fn content :: rest) := by
        rw [uploadFids]
        exact List.mem_cons_of_mem _ hf
      show assocGet f (assocUpsert st.files fid
        (store_file bs N st.counter ok fid fn content).metadata) = none
      rw [assocGet_upsert_ne st.files fid f _ hfne]
      exact hfr f hfin
    · intro f hf
      refine hcl f ?_
      rw [uploadFids]
      exact List.mem_cons_of_mem _ hf
  | Op.delete fid :: rest, st, hA, hH, hnd, hfr, hcl => by
    show AllIntact bs N (runOps bs N (applyOp bs N st (Op.delete fid)) rest)
    refine runOps_intact bs N rest _ (delete_intact bs N st fid hA) hH hnd ?_ hcl
    intro f hf
    exact delete_files_fresh bs N st fid f (hfr f hf)
  | Op.download fid :: rest, st, hA, hH, hnd, hfr, hcl =>
    runOps_intact bs N rest st hA hH hnd hfr hcl
  | Op.restart :: rest, st, hA, hH, hnd, hfr, hcl =>
    runOps_intact bs N rest st hA hH hnd hfr hcl

/-- Claim C7 (amended): in any run from an empty system in which every
block write succeeds (healthy nodes) and upload file ids are fresh
UUID-style names (distinct, no underscore), the parity invariant holds
for every committed file after every sequence of uploads, deletes,
downloads and restarts: each stored parity block equals the XOR of the
stored data blocks of its stripe. -/
theorem claim_C7_parity_invariant (bs N c0 : Nat) (ops : List Op)
    (hH : HealthyOps ops) (hnd : (uploadFids ops).Nodup)
    (hclean : ∀ f ∈ uploadFids ops, cleanFid f) :
    parityInv (runOps bs N ⟨[], c0, [], []⟩ ops) := by
  have hA : AllIntact bs N (runOps bs N ⟨[], c0, [], []⟩ ops) := by
    refine runOps_intact bs N ops _ ?_ hH hnd (fun f _ => rfl) hclean
    intro fid md hmd
    simp [assocGet] at hmd
  intro fid md hmd
  obtain ⟨hc, hi⟩ := hA fid md hmd
  exact parityHolds_of_intact bs N _ fid hc md hi

/-- Witness for the amended C7: a concrete healthy run with one upload,
a delete of an unknown id and a download, after which the parity
invariant holds. -/
theorem claim_C7_parity_invariant_witness :
    HealthyOps [Op.upload (fun _ => true) "cafebabe" "hello.txt" helloBytes,
      Op.delete "nope", Op.download "cafebabe"]
    ∧ (uploadFids [Op.upload (fun _ => true) "cafebabe" "hello.txt" helloBytes,
        Op.delete "nope", Op.download "cafebabe"]).Nodup
    ∧ (∀ f ∈ uploadFids [Op.upload (fun _ => true) "cafebabe" "hello.txt" helloBytes,
        Op.delete "nope", Op.download "cafebabe"], cleanFid f)
    ∧ parityInv (runOps 8 4 ⟨[], 0, [], []⟩
        [Op.upload (fun _ => true) "cafebabe" "hello.txt" helloBytes,
          Op.delete "nope", Op.download "cafebabe"]) :=
  ⟨⟨fun _ => rfl, trivial⟩, by decide, by decide,
    claim_C7_parity_invariant 8 4 0
      [Op.upload (fun _ => true) "cafebabe" "hello.txt" helloBytes,
        Op.delete "nope", Op.download "cafebabe"]
      ⟨fun _ => rfl, trivial⟩ (by decide) (by decide)⟩

/-! ### Round-trip of store and retrieve (claim C1) -/

/-- The association of each data-block identifier of a file with the
block bytes the write path stores under it. -/
def fileBlockData (bs N : Nat) (fid : String) (content : Bytes) : List (String × Bytes) :=
  ((List.range (numStripes bs N content.length)).map (fun i =>
    (List.range (chunkCount bs (stripeData bs N content i).length)).map (fun j =>
      (mkDataId fid i j, chunkAt bs (stripeData bs N content i) j)))).flatten

/-- The bytes stored under a given data-block identifier of a file. -/
def fileChunk (bs N : Nat) (fid : String) (content : Bytes) (bid : String) : Bytes :=
  (assocGet bid (fileBlockData bs N fid content)).getD []

theorem flatten_flatten_map {β : Type} (L : List (List (List β))) :
    L.flatten.flatten = (L.map List.flatten).flatten := by
  induction L with
  | nil => rfl
  | cons a t ih => simp [ih]

theorem charListLe_of_lex {a b : List Char} (h : List.Lex (· < ·) a b) :
    charListLe a b = true := by
  induction h with
  | nil => rfl
  | rel h1 => simp [charListLe, ne_of_lt h1, h1]
  | cons h1 ih => simp [charListLe, ih]

theorem strLeB_of_lt (a b : String) (h : a < b) : strLeB a b = true := by
  unfold strLeB
  refine charListLe_of_lex ?_
  exact String.lt_iff_toList_lt.mp h

theorem dataIds_nodup (fid : String) (hfid : cleanFid fid) (m : Nat) (c : Nat → Nat) :
    (((List.range m).map (fun i =>
      (List.range (c i)).map (fun j => mkDataId fid i j))).flatten).Nodup := by
  refine nodup_flatten_range m _ ?_ ?_
  · intro i _
    refine List.Nodup.map_on ?_ (List.nodup_range _)
    intro x _ y _ hxy
    exact (mkDataId_inj fid fid i x i y hfid hfid hxy).2.2
  · intro i i' _ _ hne x hx hx'
    obtain ⟨j, _, rfl⟩ := List.mem_map.1 hx
    obtain ⟨j', _, he⟩ := List.mem_map.1 hx'
    exact hne ((mkDataId_inj fid fid i' j' i j hfid hfid he).2.1).symm

theorem dataIds_pairwise (fid : String) (m : Nat) (c : Nat → Nat)
    (hm : m ≤ 10) (hc : ∀ i < m, c i ≤ 10) :
    List.Pairwise (fun a b => strLeB a b = true)
      (((List.range m).map (fun i =>
        (List.range (c i)).map (fun j => mkDataId fid i j))).flatten) := by
  rw [List.pairwise_flatten]
  constructor
  · intro l hl
    obtain ⟨i, hi, rfl⟩ := List.mem_map.1 hl
    have him := List.mem_range.1 hi
    rw [List.pairwise_map]
    refine List.Pairwise.imp_of_mem ?_ (List.pairwise_lt_range (c i))
    intro j j' hj hj' hjj
    have hjm := List.mem_range.1 hj
    have hjm' := List.mem_range.1 hj'
    have hci := hc i him
    exact strLeB_of_lt _ _ (mkDataId_lt fid i j i j' (by omega) (by omega) (by omega)
      (by omega) (Or.inr ⟨rfl, hjj⟩))
  · rw [List.pairwise_map]
    refine List.Pairwise.imp_of_mem ?_ (List.pairwise_lt_range m)
    intro i i' hi hi' hii x hx y hy
    obtain ⟨j, hj, rfl⟩ := List.mem_map.1 hx
    obtain ⟨j', hj', rfl⟩ := List.mem_map.1 hy
    have him := List.mem_range.1 hi
    have him' := List.mem_range.1 hi'
    have hjm := List.mem_range.1 hj
    have hjm' := List.mem_range.1 hj'
    have hci := hc i him
    have hci' := hc i' him'
    exact strLeB_of_lt _ _ (mkDataId_lt fid i j i' j' (by omega) (by omega) (by omega)
      (by omega) (Or.inl hii))

theorem fileBlockData_keys (bs N : Nat) (fid : String) (content : Bytes) :
    (fileBlockData bs N fid content).map Prod.fst
      = ((List.range (numStripes bs N content.length)).map (fun i =>
          (List.range (chunkCount bs (stripeData bs N content i).length)).map
            (fun j => mkDataId fid i j))).flatten := by
  unfold fileBlockData
  rw [List.map_flatten, List.map_map]
  congr 1
  refine List.map_congr_left ?_
  intro i _
  simp only [Function.comp_apply, List.map_map]
  rfl

theorem store_file_block_keys (bs N next0 : Nat) (ok : String → Bool) (fid fn : String)
    (content : Bytes) :
    (store_file bs N next0 ok fid fn content).metadata.blocks.map (fun e => e.1)
      = ((List.range (numStripes bs N content.length)).map (fun i =>
          (List.range (chunkCount bs (stripeData bs N content i).length)).map
            (fun j => mkDataId fid i j))).flatten := by
  rw [store_file_blocks, List.map_flatten, List.map_map]
  congr 1
  refine List.map_congr_left ?_
  intro i _
  simp only [Function.comp_apply, List.map_map]
  rfl

theorem fileBlockData_get (bs N : Nat) (fid : String) (content : Bytes)
    (hfid : cleanFid fid) (i j : Nat)
    (hi : i < numStripes bs N content.length)
    (hj : j < chunkCount bs (stripeData bs N content i).length) :
    fileChunk bs N fid content (mkDataId fid i j)
      = chunkAt bs (stripeData bs N content i) j := by
  have hn : ((fileBlockData bs N fid content).map Prod.fst).Nodup := by
    rw [fileBlockData_keys]
    exact dataIds_nodup fid hfid _ _
  have hm : (mkDataId fid i j, chunkAt bs (stripeData bs N content i) j)
      ∈ fileBlockData bs N fid content := by
    unfold fileBlockData
    refine List.mem_flatten.2 ⟨_, List.mem_map.2 ⟨i, List.mem_range.2 hi, rfl⟩, ?_⟩
    exact List.mem_map.2 ⟨j, List.mem_range.2 hj, rfl⟩
  unfold fileChunk
  rw [assocGet_eq_some_of_mem _ _ _ hn hm]
  rfl

theorem stored_data_block_fetch (bs N next0 : Nat) (fid fn : String) (content : Bytes)
    (hfid : cleanFid fid) (d0 : DiskStore) (i j : Nat)
    (hi : i < numStripes bs N content.length)
    (hj : j < chunkCount bs (stripeData bs N content i).length) :
    diskFetch (applyWrites d0 (store_file bs N next0 (fun _ => true) fid fn content).writes)
      (mkDataId fid i j)
      (diskName ((dataDisks N (get_parity_disk N (next0 + i))).getD j 0))
    = some (chunkAt bs (stripeData bs N content i) j) := by
  unfold diskFetch
  exact applyWrites_mem d0 _ _
    (store_file_writeKeys_nodup bs N next0 _ fid fn content (fun _ => rfl) hfid)
    (store_file_data_write_mem bs N next0 fid fn content i j hi hj)

theorem store_file_blocks_fetch_all (bs N next0 : Nat) (fid fn : String)
    (content : Bytes) (hfid : cleanFid fid) (d0 : DiskStore) :
    ∀ e ∈ (store_file bs N next0 (fun _ => true) fid fn content).metadata.blocks,
      diskFetch (applyWrites d0 (store_file bs N next0 (fun _ => true) fid fn content).writes)
          e.1 e.2
        = some (fileChunk bs N fid content e.1) := by
  intro e he
  rw [store_file_blocks] at he
  obtain ⟨l, hl, hel⟩ := List.mem_flatten.1 he
  obtain ⟨i, hi, rfl⟩ := List.mem_map.1 hl
  obtain ⟨j, hj, rfl⟩ := List.mem_map.1 hel
  have him := List.mem_range.1 hi
  have hjm := List.mem_range.1 hj
  show diskFetch _ (mkDataId fid i j)
      (diskName ((dataDisks N (get_parity_disk N (next0 + i))).getD j 0)) = _
  rw [stored_data_block_fetch bs N next0 fid fn content hfid d0 i j him hjm,
    fileBlockData_get bs N fid content hfid i j him hjm]

theorem results_split (blocks : List (String × String))
    (fetch : String → String → Option Bytes) (dta : String → Bytes)
    (h : ∀ e ∈ blocks, fetch e.1 e.2 = some (dta e.1)) :
    (blocks.map (fun e => (e.1, e.2, fetch e.1 e.2))).filterMap
        (fun e => e.2.2.map (fun d => (e.1, d)))
      = blocks.map (fun e => (e.1, dta e.1))
    ∧ (blocks.map (fun e => (e.1, e.2, fetch e.1 e.2))).filterMap
        (fun e => if e.2.2.isNone then some (e.1, e.2.1) else none)
      = [] := by
  induction blocks with
  | nil => exact ⟨rfl, rfl⟩
  | cons a t ih =>
    have ha := h a (List.mem_cons_self _ _)
    obtain ⟨h1, h2⟩ := ih (fun x hx => h x (List.mem_cons_of_mem _ hx))
    constructor
    · simp only [List.map_cons, List.filterMap_cons, ha]
      rw [h1]
      rfl
    · simp only [List.map_cons, List.filterMap_cons, ha]
      rw [h2]
      rfl

/-- When the file id is known and every data-block fetch succeeds with
the bytes `dta`, `retrieve_file` sorts the identifiers, concatenates the
fetched blocks in that order and truncates to the recorded size. -/
theorem retrieve_file_all_ok (files : List (String × FileMetadata)) (fid : String)
    (fetch : String → String → Option Bytes) (md : FileMetadata) (dta : String → Bytes)
    (hmd : assocGet fid files = some md)
    (hall : ∀ e ∈ md.blocks, fetch e.1 e.2 = some (dta e.1)) :
    retrieve_file files fid fetch
      = Except.ok (some (md.filename,
          (((pySorted (md.blocks.map (fun e => e.1))).map
            (fun bid =>
              (assocGet bid (md.blocks.map (fun e => (e.1, dta e.1)))).getD [])).flatten).take
            md.size)) := by
  obtain ⟨h1, h2⟩ := results_split md.blocks fetch dta hall
  simp only [retrieve_file, hmd, h2, h1, List.isEmpty_nil, eq_self_iff_true, if_true,
    dictUpdate_nil_right, List.length_map, lt_self_iff_false, if_false]

theorem map_chunk_eq (bs N : Nat) (fid : String) (content : Bytes)
    (hfid : cleanFid fid) (next0 : Nat) :
    (((List.range (numStripes bs N content.length)).map (fun i =>
        (List.range (chunkCount bs (stripeData bs N content i).length)).map (fun j =>
          (mkDataId fid i j,
           diskName ((dataDisks N (get_parity_disk N (next0 + i))).getD j 0))))).flatten).map
      (fun e => fileChunk bs N fid content e.1)
    = ((List.range (numStripes bs N content.length)).map (fun i =>
        (List.range (chunkCount bs (stripeData bs N content i).length)).map
          (chunkAt bs (stripeData bs N content i)))).flatten := by
  rw [List.map_flatten, List.map_map]
  congr 1
  refine List.map_congr_left ?_
  intro i hi
  have him := List.mem_range.1 hi
  simp only [Function.comp_apply, List.map_map]
  refine List.map_congr_left ?_
  intro j hj
  have hjm := List.mem_range.1 hj
  simp only [Function.comp_apply]
  exact fileBlockData_get bs N fid content hfid i j him hjm

/-- The concatenation of all zero-padded data blocks of a file, in
(stripe, position) order, is the file content followed by the zero
padding of the final stripe. -/
theorem chunks_assembly (bs N : Nat) (content : Bytes) (hbs : 0 < bs) (hN : 2 ≤ N) :
    ∃ pad : Bytes,
      (((List.range (numStripes bs N content.length)).map (fun i =>
        (List.range (chunkCount bs (stripeData bs N content i).length)).map
          (chunkAt bs (stripeData bs N content i)))).flatten).flatten
      = content ++ pad := by
  rw [flatten_flatten_map, List.map_map]
  have hinner : (List.range (numStripes bs N content.length)).map
      (List.flatten ∘ fun i =>
        (List.range (chunkCount bs (stripeData bs N content i).length)).map
          (chunkAt bs (stripeData bs N content i)))
      = (List.range (numStripes bs N content.length)).map (fun i =>
          stripeData bs N content i
            ++ List.replicate (chunkCount bs (stripeData bs N content i).length * bs
                - (stripeData bs N content i).length) 0) := by
    refine List.map_congr_left ?_
    intro i _
    simp only [Function.comp_apply]
    exact chunks_flatten bs hbs (stripeData bs N content i)
  rw [hinner]
  cases hm : numStripes bs N content.length with
  | zero =>
    have hlen : content.length = 0 := by
      by_contra h0
      have hpos : 0 < chunkCount (stripeSize bs N) content.length :=
        (lt_chunkCount_iff (stripeSize_pos bs N hbs hN)).2 (by omega)
      have hm' : chunkCount (stripeSize bs N) content.length = 0 := hm
      omega
    have hnil : content = [] := List.eq_nil_of_length_eq_zero hlen
    exact ⟨[], by simp [hnil]⟩
  | succ k =>
    refine ⟨List.replicate (chunkCount bs (stripeData bs N content k).length * bs
      - (stripeData bs N content k).length) 0, ?_⟩
    rw [List.range_succ, List.map_append, List.flatten_append]
    have hpre : (List.range k).map (fun i =>
        stripeData bs N content i
          ++ List.replicate (chunkCount bs (stripeData bs N content i).length * bs
              - (stripeData bs N content i).length) 0)
        = (List.range k).map (fun i => stripeData bs N content i) := by
      refine List.map_congr_left ?_
      intro i hi
      have him := List.mem_range.1 hi
      have hfull : (stripeData bs N content i).length = stripeSize bs N :=
        stripeData_len_full bs N content i hbs hN (by omega)
      have hcfull : chunkCount bs (stripeData bs N content i).length = N - 1 := by
        rw [hfull]
        show chunkCount bs (bs * (N - 1)) = N - 1
        rw [Nat.mul_comm]
        exact chunkCount_mul bs (N - 1) hbs
      rw [hcfull, hfull]
      have hcomm := Nat.mul_comm (N - 1) bs
      have hz : (N - 1) * bs - stripeSize bs N = 0 := by
        unfold stripeSize
        omega
      rw [hz]
      simp
    rw [hpre]
    have hslices := slices_flatten (stripeSize bs N) (stripeSize_pos bs N hbs hN) content
    have hm' : chunkCount (stripeSize bs N) content.length = k + 1 := hm
    rw [hm', List.range_succ, List.map_append, List.flatten_append] at hslices
    simp only [List.map_cons, List.map_nil, List.flatten_cons, List.flatten_nil,
      List.append_nil] at hslices ⊢
    have hsd : (List.range k).map (fun i =>
        (content.drop (i * stripeSize bs N)).take (stripeSize bs N))
        = (List.range k).map (fun i => stripeData bs N content i) := rfl
    rw [hsd] at hslices
    rw [← List.append_assoc]
    have hsdk : (content.drop (k * stripeSize bs N)).take (stripeSize bs N)
        = stripeData bs N content k := rfl
    rw [hsdk] at hslices
    rw [hslices]

/-- Final assembly of a healthy read: sorting the data-block identifiers,
looking each one up among the fetched blocks, concatenating and
truncating to the original size recovers the file content exactly,
provided every stripe and position index is a single decimal digit. -/
theorem retrieve_assembly (bs N next0 : Nat) (fid fn : String) (content : Bytes)
    (hbs : 0 < bs) (hN : 2 ≤ N) (hN11 : N ≤ 11)
    (hm10 : numStripes bs N content.length ≤ 10) (hfid : cleanFid fid) :
    (((pySorted ((store_file bs N next0 (fun _ => true) fid fn content).metadata.blocks.map
        (fun e => e.1))).map
      (fun bid =>
        (assocGet bid ((store_file bs N next0 (fun _ => true) fid fn content).metadata.blocks.map
          (fun e => (e.1, fileChunk bs N fid content e.1)))).getD [])).flatten).take
      content.length
    = content := by
  have hc10 : ∀ i < numStripes bs N content.length,
      chunkCount bs (stripeData bs N content i).length ≤ 10 := by
    intro i _
    have hle : chunkCount bs (stripeData bs N content i).length ≤ N - 1 := by
      apply chunkCount_le_of_le hbs
      have h1 := length_stripeData bs N content i
      have h2 : (stripeData bs N content i).length ≤ stripeSize bs N := by omega
      calc (stripeData bs N content i).length ≤ stripeSize bs N := h2
        _ = (N - 1) * bs := by
            unfold stripeSize
            ring
    omega
  have hkeys := store_file_block_keys bs N next0 (fun _ => true) fid fn content
  have hsorted : pySorted ((store_file bs N next0 (fun _ => true) fid fn
      content).metadata.blocks.map (fun e => e.1))
      = ((List.range (numStripes bs N content.length)).map (fun i =>
          (List.range (chunkCount bs (stripeData bs N content i).length)).map
            (fun j => mkDataId fid i j))).flatten := by
    rw [hkeys]
    exact List.Sorted.insertionSort_eq (dataIds_pairwise fid _ _ hm10 hc10)
  have hrkeys : ((store_file bs N next0 (fun _ => true) fid fn content).metadata.blocks.map
      (fun e => (e.1, fileChunk bs N fid content e.1))).map Prod.fst
      = ((List.range (numStripes bs N content.length)).map (fun i =>
          (List.range (chunkCount bs (stripeData bs N content i).length)).map
            (fun j => mkDataId fid i j))).flatten := by
    rw [List.map_map]
    have hcomp : (Prod.fst ∘ fun e : String × String =>
        (e.1, fileChunk bs N fid content e.1)) = fun e : String × String => e.1 := rfl
    rw [hcomp]
    exact hkeys
  have hrnodup : (((store_file bs N next0 (fun _ => true) fid fn
      content).metadata.blocks.map
      (fun e => (e.1, fileChunk bs N fid content e.1))).map Prod.fst).Nodup := by
    rw [hrkeys]
    exact dataIds_nodup fid hfid _ _
  rw [hsorted, ← hrkeys,
    keys_map_assocGet _ ([] : Bytes) hrnodup, List.map_map]
  have hcomp2 : (Prod.snd ∘ fun e : String × String =>
      (e.1, fileChunk bs N fid content e.1))
      = fun e : String × String => fileChunk bs N fid content e.1 := rfl
  rw [hcomp2, store_file_blocks, map_chunk_eq bs N fid content hfid next0]
  obtain ⟨pad, hpad⟩ := chunks_assembly bs N content hbs hN
  rw [hpad, List.take_left]

/-- Claim C1 counterexample (closed): a 33-byte file with block size 1
and four nodes occupies eleven stripes; the read path sorts the block
identifiers as strings, which places stripe 10 between stripe 0 and
stripe 1 and returns the bytes out of order, so download of an upload is
not the identity. -/
theorem claim_C1_counterexample :
    retrieve_file
      [("cafebabe", (store_file 1 4 0 (fun _ => true) "cafebabe" "f.bin" bytes33).metadata)]
      "cafebabe"
      (diskFetch (applyWrites []
        (store_file 1 4 0 (fun _ => true) "cafebabe" "f.bin" bytes33).writes))
      ≠ Except.ok (some ("f.bin", bytes33)) := by
  decide

/-- Claim C1 (amended): store followed by retrieve is the identity for
every file that occupies at most ten stripes (and N at most 11, so every
stripe and position index is a single decimal digit and the string sort
of the block identifiers coincides with the numeric order): the read
path concatenates the data blocks in (stripe index, position) order and
truncates to the recorded original size, returning exactly the uploaded
bytes.  Beyond ten stripes the lexicographic sort breaks the order (see
the counterexample). -/
theorem claim_C1_roundtrip (bs N next0 : Nat) (fid fn : String) (content : Bytes)
    (d0 : DiskStore) (hbs : 0 < bs) (hN : 2 ≤ N) (hN11 : N ≤ 11)
    (hm10 : numStripes bs N content.length ≤ 10) (hfid : cleanFid fid) :
    retrieve_file
      [(fid, (store_file bs N next0 (fun _ => true) fid fn content).metadata)]
      fid
      (diskFetch (applyWrites d0 (store_file bs N next0 (fun _ => true) fid fn content).writes))
    = Except.ok (some (fn, content)) := by
  rw [retrieve_file_all_ok
    [(fid, (store_file bs N next0 (fun _ => true) fid fn content).metadata)] fid _
    (store_file bs N next0 (fun _ => true) fid fn content).metadata
    (fileChunk bs N fid content)
    (by simp [assocGet])
    (store_file_blocks_fetch_all bs N next0 fid fn content hfid d0),
    store_file_filename, store_file_size,
    retrieve_assembly bs N next0 fid fn content hbs hN hN11 hm10 hfid]

/-- Witness for the amended C1: the 5-byte HELLO payload with block size
8 and four nodes satisfies every hypothesis, and its download returns
exactly HELLO. -/
theorem claim_C1_roundtrip_witness :
    0 < 8 ∧ 2 ≤ 4 ∧ (4 : Nat) ≤ 11 ∧ numStripes 8 4 helloBytes.length ≤ 10
    ∧ cleanFid "cafebabe"
    ∧ retrieve_file
        [("cafebabe",
          (store_file 8 4 0 (fun _ => true) "cafebabe" "hello.txt" helloBytes).metadata)]
        "cafebabe"
        (diskFetch (applyWrites []
          (store_file 8 4 0 (fun _ => true) "cafebabe" "hello.txt" helloBytes).writes))
      = Except.ok (some ("hello.txt", helloBytes)) :=
  ⟨by decide, by decide, by decide, by decide, by decide,
   claim_C1_roundtrip 8 4 0 "cafebabe" "hello.txt" helloBytes [] (by decide) (by decide)
     (by decide) (by decide) (by decide)⟩

/-! ### Degraded reads (claim C4): basic facts -/

theorem diskName_inj (a b : Nat) (h : diskName a = diskName b) : a = b := by
  have hd := congrArg String.data h
  show a = b
  have hda : (diskName a).data = "disk_".data ++ natDigits (a + 1) := by
    show ("disk_" ++ toString (a + 1)).data = _
    rw [String.data_append, toString_nat_data]
  have hdb : (diskName b).data = "disk_".data ++ natDigits (b + 1) := by
    show ("disk_" ++ toString (b + 1)).data = _
    rw [String.data_append, toString_nat_data]
  rw [hda, hdb] at hd
  have := natDigits_inj (List.append_cancel_left hd)
  omega

theorem dataDisks_nodup (N p : Nat) : (dataDisks N p).Nodup :=
  (List.nodup_range N).filter _

theorem length_dataDisks : ∀ (N : Nat) (p : Nat), p < N → (dataDisks N p).length = N - 1
  | 0, p, hp => by omega
  | k + 1, p, hp => by
    unfold dataDisks
    rw [List.range_succ, List.filter_append]
    by_cases hpk : p = k
    · subst hpk
      have h1 : (List.range p).filter (fun j => j != p) = List.range p := by
        refine List.filter_eq_self.mpr ?_
        intro j hj
        exact bne_iff_ne.mpr (by have := List.mem_range.1 hj; omega)
      have h2 : ([p].filter (fun j => j != p)) = [] := by simp
      rw [h1, h2]
      simp
    · have hpk2 : p < k := by omega
      have h2 : ([k].filter (fun j => j != p)) = [k] := by
        simp only [List.filter_cons, List.filter_nil]
        rw [if_pos (bne_iff_ne.mpr (by omega))]
      rw [h2]
      have h1 := length_dataDisks k p hpk2
      unfold dataDisks at h1
      simp only [List.length_append, h1, List.length_cons, List.length_nil]
      omega

theorem dataDisks_getD_inj (N p j j' : Nat) (hj : j < (dataDisks N p).length)
    (hj' : j' < (dataDisks N p).length)
    (h : (dataDisks N p).getD j 0 = (dataDisks N p).getD j' 0) : j = j' := by
  rw [List.getD_eq_getElem _ _ hj, List.getD_eq_getElem _ _ hj'] at h
  exact (dataDisks_nodup N p).getElem_inj_iff.mp h

theorem dataDisks_getD_mem (N p j : Nat) (hj : j < (dataDisks N p).length) :
    (dataDisks N p).getD j 0 ∈ dataDisks N p := by
  rw [List.getD_eq_getElem _ _ hj]
  exact List.getElem_mem hj

theorem map_eraseIdx {α β : Type} (f : α → β) :
    ∀ (l : List α) (k : Nat), (l.eraseIdx k).map f = (l.map f).eraseIdx k
  | [], _ => by simp
  | _ :: _, 0 => rfl
  | x :: t, k + 1 => by
    simp only [List.eraseIdx_cons_succ, List.map_cons]
    rw [map_eraseIdx f t k]

theorem filter_ne_range' :
    ∀ (len s t : Nat), t < len →
      (List.range' s len).filter (fun j => j != s + t) = (List.range' s len).eraseIdx t
  | 0, _, _, h => by omega
  | len + 1, s, 0, _ => by
    rw [List.range'_succ s len 1, List.filter_cons]
    have hc : (s != s + 0) = false := by simp
    rw [hc]
    simp only [Bool.false_eq_true, if_false, List.eraseIdx_cons_zero]
    refine List.filter_eq_self.mpr ?_
    intro j hj
    have hjm := List.mem_range'_1.1 hj
    exact bne_iff_ne.mpr (by omega)
  | len + 1, s, t + 1, h => by
    rw [List.range'_succ s len 1, List.filter_cons, List.eraseIdx_cons_succ]
    have hc : (s != s + (t + 1)) = true := bne_iff_ne.mpr (by omega)
    rw [hc]
    simp only [if_true]
    congr 1
    have harr : s + (t + 1) = (s + 1) + t := by omega
    rw [harr]
    exact filter_ne_range' len (s + 1) t (by omega)

theorem filter_ne_range (n j0 : Nat) (h : j0 < n) :
    (List.range n).filter (fun j => j != j0) = (List.range n).eraseIdx j0 := by
  rw [List.range_eq_range' n]
  have h0 : j0 = 0 + j0 := by omega
  rw [show (fun j => j != j0) = (fun j => j != 0 + j0) from by rw [← h0]]
  exact filter_ne_range' n 0 j0 h

theorem filterMap_ite_partition_length {α β γ : Type} (l : List α) (p : α → Prop)
    [DecidablePred p] (f : α → β) (g : α → γ) :
    (l.filterMap (fun a => if p a then none else some (f a))).length
      + (l.filterMap (fun a => if p a then some (g a) else none)).length
      = l.length := by
  induction l with
  | nil => rfl
  | cons a t ih =>
    by_cases hp : p a
    · simp only [List.filterMap_cons, if_pos hp, List.length_cons]
      omega
    · simp only [List.filterMap_cons, if_neg hp, List.length_cons]
      omega

theorem filterMap_ite_sublist {α β : Type} (l : List α) (p : α → Prop) [DecidablePred p]
    (f : α → β) :
    List.Sublist (l.filterMap (fun a => if p a then some (f a) else none)) (l.map f) := by
  induction l with
  | nil => simp
  | cons a t ih =>
    by_cases hp : p a
    · simp only [List.filterMap_cons, if_pos hp, List.map_cons]
      exact List.Sublist.cons₂ _ ih
    · simp only [List.filterMap_cons, if_neg hp, List.map_cons]
      exact List.Sublist.cons _ ih

theorem filterMap_ite_sublist_none {α β : Type} (l : List α) (p : α → Prop) [DecidablePred p]
    (f : α → β) :
    List.Sublist (l.filterMap (fun a => if p a then none else some (f a))) (l.map f) := by
  induction l with
  | nil => simp
  | cons a t ih =>
    by_cases hp : p a
    · simp only [List.filterMap_cons, if_pos hp, List.map_cons]
      exact List.Sublist.cons _ ih
    · simp only [List.filterMap_cons, if_neg hp, List.map_cons]
      exact List.Sublist.cons₂ _ ih

theorem flatten_range_sublist {β : Type} (m : Nat) (F G : Nat → List β)
    (h : ∀ i < m, List.Sublist (F i) (G i)) :
    List.Sublist (((List.range m).map F).flatten) (((List.range m).map G).flatten) := by
  induction m with
  | zero => simp
  | succ k ih =>
    rw [List.range_succ, List.map_append, List.map_append, List.flatten_append,
      List.flatten_append]
    refine List.Sublist.append (ih (fun i hi => h i (by omega))) ?_
    simp only [List.map_cons, List.map_nil, List.flatten_cons, List.flatten_nil,
      List.append_nil]
    exact h k (by omega)

theorem sum_map_add_nat {α : Type} (l : List α) (f g : α → Nat) :
    (l.map f).sum + (l.map g).sum = (l.map (fun x => f x + g x)).sum := by
  induction l with
  | nil => rfl
  | cons a t ih =>
    simp only [List.map_cons, List.sum_cons]
    omega

theorem filterMap_congr_mem {α β : Type} (l : List α) (f g : α → Option β)
    (h : ∀ a ∈ l, f a = g a) : l.filterMap f = l.filterMap g := by
  induction l with
  | nil => rfl
  | cons a t ih =>
    rw [List.filterMap_cons, List.filterMap_cons, h a (List.mem_cons_self _ _),
      ih (fun x hx => h x (List.mem_cons_of_mem _ hx))]

theorem assocGet_range_pairs {β : Type} (m : Nat) (F : Nat → β) (i : Nat) (hi : i < m) :
    assocGet i ((List.range m).map (fun k => (k, F k))) = some (F i) := by
  refine assocGet_eq_some_of_mem _ _ _ ?_ ?_
  · rw [List.map_map]
    have hcomp : (Prod.fst ∘ fun k : Nat => (k, F k)) = id := rfl
    rw [hcomp, List.map_id]
    exact List.nodup_range m
  · exact List.mem_map.2 ⟨i, List.mem_range.2 hi, rfl⟩

/-! ### The grouping loop of the reconstruction path -/

/-- One step of the grouping loop of `_reconstruct_data`. -/
def groupStep (gs : List (Nat × List (String × String))) (e : String × String) :
    List (Nat × List (String × String)) :=
  match parseStripeIndex e.1 with
  | some i => addToGroup gs i e
  | none => gs

theorem buildStripes_eq_foldl (entries : List (String × String)) :
    buildStripes entries = entries.foldl groupStep [] := rfl

theorem groupStep_parse (gs : List (Nat × List (String × String)))
    (e : String × String) (i : Nat) (hp : parseStripeIndex e.1 = some i) :
    groupStep gs e = addToGroup gs i e := by
  unfold groupStep
  rw [hp]

theorem except_bind_ok {ε α β : Type} (x : α) (f : α → Except ε β) :
    (Except.ok x >>= f) = f x := rfl

theorem addToGroup_fresh :
    ∀ (gs : List (Nat × List (String × String))) (i : Nat) (e : String × String),
      (∀ x ∈ gs, x.1 ≠ i) → addToGroup gs i e = gs ++ [(i, [e])]
  | [], _, _, _ => rfl
  | g :: rest, i, e, h => by
    have hg : ¬ g.1 = i := h g (List.mem_cons_self _ _)
    show (if g.1 = i then (g.1, assocUpsert g.2 e.1 e.2) :: rest
          else g :: addToGroup rest i e) = _
    rw [if_neg hg, addToGroup_fresh rest i e (fun x hx => h x (List.mem_cons_of_mem _ hx))]
    rfl

theorem addToGroup_found :
    ∀ (pre : List (Nat × List (String × String))) (i : Nat)
      (g : List (String × String)) (post : List (Nat × List (String × String)))
      (e : String × String), (∀ x ∈ pre, x.1 ≠ i) →
      addToGroup (pre ++ (i, g) :: post) i e
        = pre ++ (i, assocUpsert g e.1 e.2) :: post
  | [], i, g, post, e, _ => by
    show (if i = i then (i, assocUpsert g e.1 e.2) :: post
          else (i, g) :: addToGroup post i e) = _
    rw [if_pos rfl]
    rfl
  | a :: t, i, g, post, e, h => by
    have ha : ¬ a.1 = i := h a (List.mem_cons_self _ _)
    show (if a.1 = i then (a.1, assocUpsert a.2 e.1 e.2) :: (t ++ (i, g) :: post)
          else a :: addToGroup (t ++ (i, g) :: post) i e) = _
    rw [if_neg ha,
      addToGroup_found t i g post e (fun x hx => h x (List.mem_cons_of_mem _ hx))]
    rfl

theorem foldl_upsert_fresh :
    ∀ (entries g : List (String × String)),
      (∀ e ∈ entries, e.1 ∉ g.map Prod.fst) → (entries.map Prod.fst).Nodup →
      entries.foldl (fun acc e => assocUpsert acc e.1 e.2) g = g ++ entries
  | [], g, _, _ => by simp
  | e :: t, g, h, hnd => by
    rw [List.foldl_cons]
    have he : assocUpsert g e.1 e.2 = g ++ [e] := by
      rw [assocUpsert_of_not_mem g e.1 e.2 (h e (List.mem_cons_self _ _))]
    rw [he]
    simp only [List.map_cons, List.nodup_cons] at hnd
    have h2 : ∀ x ∈ t, x.1 ∉ (g ++ [e]).map Prod.fst := by
      intro x hx
      simp only [List.map_append, List.mem_append, List.map_cons, List.map_nil,
        List.mem_singleton]
      push_neg
      refine ⟨h x (List.mem_cons_of_mem _ hx), ?_⟩
      intro hxe
      exact hnd.1 (hxe ▸ List.mem_map_of_mem Prod.fst hx)
    rw [foldl_upsert_fresh t (g ++ [e]) h2 hnd.2]
    simp

theorem fold_group_same (i : Nat) :
    ∀ (es : List (String × String)) (pre post : List (Nat × List (String × String)))
      (g : List (String × String)),
      (∀ e ∈ es, parseStripeIndex e.1 = some i) →
      (∀ x ∈ pre, x.1 ≠ i) →
      es.foldl groupStep (pre ++ (i, g) :: post)
        = pre ++ (i, es.foldl (fun acc e => assocUpsert acc e.1 e.2) g) :: post
  | [], _, _, _, _, _ => by simp
  | e :: t, pre, post, g, hp, hpre => by
    rw [List.foldl_cons, groupStep_parse _ e i (hp e (List.mem_cons_self _ _)),
      addToGroup_found pre i g post e hpre,
      fold_group_same i t pre post (assocUpsert g e.1 e.2)
        (fun x hx => hp x (List.mem_cons_of_mem _ hx)) hpre,
      List.foldl_cons]

theorem fold_stripe_entries (i : Nat) (es : List (String × String))
    (hp : ∀ e ∈ es, parseStripeIndex e.1 = some i)
    (hnd : (es.map Prod.fst).Nodup) (hne : es ≠ [])
    (a : List (Nat × List (String × String))) (ha : ∀ x ∈ a, x.1 ≠ i) :
    es.foldl groupStep a = a ++ [(i, es)] := by
  cases es with
  | nil => exact absurd rfl hne
  | cons e t =>
    rw [List.foldl_cons, groupStep_parse _ e i (hp e (List.mem_cons_self _ _)),
      addToGroup_fresh a i e ha,
      fold_group_same i t a [] [e] (fun x hx => hp x (List.mem_cons_of_mem _ hx)) ha]
    simp only [List.map_cons, List.nodup_cons] at hnd
    have h2 : ∀ x ∈ t, x.1 ∉ ([e].map Prod.fst) := by
      intro x hx
      simp only [List.map_cons, List.map_nil, List.mem_singleton]
      intro hxe
      exact hnd.1 (hxe ▸ List.mem_map_of_mem Prod.fst hx)
    rw [foldl_upsert_fresh t [e] h2 hnd.2]
    rfl

theorem fold_data_aux (fid : String) (hfid : cleanFid fid) (c : Nat → Nat)
    (dnf : Nat → Nat → String) :
    ∀ (len s : Nat) (a : List (Nat × List (String × String))),
      (∀ x ∈ a, ∀ k, s ≤ k → k < s + len → x.1 ≠ k) →
      (∀ k, s ≤ k → k < s + len → 0 < c k) →
      (((List.range' s len).map (fun i =>
        (List.range (c i)).map (fun j => (mkDataId fid i j, dnf i j)))).flatten).foldl
          groupStep a
        = a ++ (List.range' s len).map (fun i =>
            (i, (List.range (c i)).map (fun j => (mkDataId fid i j, dnf i j))))
  | 0, s, a, _, _ => by simp
  | len + 1, s, a, ha, hc => by
    rw [List.range'_succ s len 1, List.map_cons, List.flatten_cons, List.foldl_append]
    have hstripe : ((List.range (c s)).map
        (fun j => (mkDataId fid s j, dnf s j))).foldl groupStep a
        = a ++ [(s, (List.range (c s)).map (fun j => (mkDataId fid s j, dnf s j)))] := by
      refine fold_stripe_entries s _ ?_ ?_ ?_ a
        (fun x hx => ha x hx s (by omega) (by omega))
      · intro e he
        obtain ⟨j, _, rfl⟩ := List.mem_map.1 he
        exact parseStripeIndex_dataId fid hfid s j
      · rw [List.map_map]
        refine List.Nodup.map_on ?_ (List.nodup_range _)
        intro x _ y _ hxy
        simp only [Function.comp_apply] at hxy
        exact (mkDataId_inj fid fid s x s y hfid hfid hxy).2.2
      · apply List.ne_nil_of_length_pos
        rw [List.length_map, List.length_range]
        exact hc s (by omega) (by omega)
    rw [hstripe,
      fold_data_aux fid hfid c dnf len (s + 1) (a ++ [(s, (List.range (c s)).map
        (fun j => (mkDataId fid s j, dnf s j)))]) ?ha2 ?hc2]
    · simp [List.append_assoc]
    case ha2 =>
      intro x hx k hk1 hk2
      rcases List.mem_append.1 hx with h1 | h2
      · exact ha x h1 k (by omega) (by omega)
      · rw [List.mem_singleton.1 h2]
        show s ≠ k
        omega
    case hc2 =>
      intro k h1 h2
      exact hc k (by omega) (by omega)

theorem fold_parity_aux (fid : String) (hfid : cleanFid fid) (pn : Nat → String)
    (G : Nat → List (String × String)) :
    ∀ (len s : Nat) (a : List (Nat × List (String × String))),
      (∀ x ∈ a, ∀ k, s ≤ k → k < s + len → x.1 ≠ k) →
      ((List.range' s len).map (fun i => (mkParityId fid i, pn i))).foldl groupStep
          (a ++ (List.range' s len).map (fun i => (i, G i)))
        = a ++ (List.range' s len).map (fun i =>
            (i, assocUpsert (G i) (mkParityId fid i) (pn i)))
  | 0, _, a, _ => by simp
  | len + 1, s, a, ha => by
    rw [List.range'_succ s len 1]
    simp only [List.map_cons, List.foldl_cons]
    rw [groupStep_parse _ _ s (parseStripeIndex_parityId fid hfid s),
      addToGroup_found a s (G s) ((List.range' (s + 1) len).map (fun i => (i, G i)))
        (mkParityId fid s, pn s) (fun x hx => ha x hx s (by omega) (by omega))]
    have hassoc : a ++ (s, assocUpsert (G s) (mkParityId fid s) (pn s))
        :: (List.range' (s + 1) len).map (fun i => (i, G i))
        = (a ++ [(s, assocUpsert (G s) (mkParityId fid s) (pn s))])
          ++ (List.range' (s + 1) len).map (fun i => (i, G i)) := by
      simp
    rw [hassoc,
      fold_parity_aux fid hfid pn G len (s + 1)
        (a ++ [(s, assocUpsert (G s) (mkParityId fid s) (pn s))]) ?ha2]
    · simp [List.append_assoc]
    case ha2 =>
      intro x hx k hk1 hk2
      rcases List.mem_append.1 hx with h1 | h2
      · exact ha x h1 k (by omega) (by omega)
      · rw [List.mem_singleton.1 h2]
        show s ≠ k
        omega

/-- The grouping loop of `_reconstruct_data` on the block map of one
file: entries group by stripe index, each stripe keeping its data blocks
in position order followed by its parity block. -/
theorem buildStripes_eq (fid : String) (hfid : cleanFid fid) (m : Nat) (c : Nat → Nat)
    (hc : ∀ i < m, 0 < c i) (dnf : Nat → Nat → String) (pn : Nat → String) :
    buildStripes
      ((((List.range m).map (fun i =>
          (List.range (c i)).map (fun j => (mkDataId fid i j, dnf i j)))).flatten)
        ++ (List.range m).map (fun i => (mkParityId fid i, pn i)))
    = (List.range m).map (fun i =>
        (i, (List.range (c i)).map (fun j => (mkDataId fid i j, dnf i j))
            ++ [(mkParityId fid i, pn i)])) := by
  rw [buildStripes_eq_foldl, List.foldl_append, List.range_eq_range' m,
    fold_data_aux fid hfid c dnf m 0 [] (by intro x hx; cases hx)
      (fun k h1 h2 => hc k (by omega)),
    fold_parity_aux fid hfid pn
      (fun i => (List.range (c i)).map (fun j => (mkDataId fid i j, dnf i j))) m 0 []
      (by intro x hx; cases hx),
    List.nil_append]
  refine List.map_congr_left ?_
  intro i _
  have hup : assocUpsert ((List.range (c i)).map (fun j => (mkDataId fid i j, dnf i j)))
      (mkParityId fid i) (pn i)
      = ((List.range (c i)).map (fun j => (mkDataId fid i j, dnf i j)))
        ++ [(mkParityId fid i, pn i)] := by
    apply assocUpsert_of_not_mem
    intro hmem
    rw [List.map_map] at hmem
    obtain ⟨j, _, hj⟩ := List.mem_map.1 hmem
    exact mkParityId_ne_dataId fid fid i i j hfid hfid hj.symm
  rw [hup]

/-! ### The sibling-fetch and reconstruction loops -/

theorem foldSib_ok (retrieved : List (String × Bytes))
    (fetch : String → String → Option Bytes) (bv : String × String → Bytes) :
    ∀ (sibs : List (String × String)) (acc : List Bytes),
      (∀ sb ∈ sibs, (if ((assocGet sb.1 retrieved).getD []) = [] then fetch sb.1 sb.2
          else some ((assocGet sb.1 retrieved).getD [])) = some (bv sb)) →
      List.foldlM (fun acc sib =>
          let cached := (assocGet sib.1 retrieved).getD []
          let bd := if cached = [] then fetch sib.1 sib.2 else some cached
          match bd with
          | none => Except.error "Fallo de disco multiple irrecuperable en la franja"
          | some d => Except.ok (acc ++ [d])) acc sibs
        = Except.ok (acc ++ sibs.map bv)
  | [], acc, _ => by
    simp only [List.map_nil, List.append_nil]
    rfl
  | sb :: t, acc, h => by
    have hsb := h sb (List.mem_cons_self _ _)
    rw [List.foldlM_cons]
    have hstep : (let cached := (assocGet sb.1 retrieved).getD []
        let bd := if cached = [] then fetch sb.1 sb.2 else some cached
        match bd with
        | none => (Except.error "Fallo de disco multiple irrecuperable en la franja"
            : Except String (List Bytes))
        | some d => Except.ok (acc ++ [d])) = Except.ok (acc ++ [bv sb]) := by
      simp only [hsb]
    rw [hstep]
    simp only [except_bind_ok]
    rw [foldSib_ok retrieved fetch bv t (acc ++ [bv sb])
      (fun x hx => h x (List.mem_cons_of_mem _ hx))]
    simp

theorem fetchSiblings_ok (retrieved : List (String × Bytes))
    (fetch : String → String → Option Bytes) (bv : String × String → Bytes)
    (sibs : List (String × String))
    (h : ∀ sb ∈ sibs, (if ((assocGet sb.1 retrieved).getD []) = [] then fetch sb.1 sb.2
        else some ((assocGet sb.1 retrieved).getD [])) = some (bv sb)) :
    fetchSiblings retrieved fetch sibs = Except.ok (sibs.map bv) := by
  unfold fetchSiblings
  have haux := foldSib_ok retrieved fetch bv sibs [] h
  simpa using haux

theorem foldRecon_ok (md : FileMetadata) (retrieved : List (String × Bytes))
    (fetch : String → String → Option Bytes) (v : String × String → String × Bytes) :
    ∀ (failed : List (String × String)) (acc : List (String × Bytes)),
      (∀ fb ∈ failed, ∃ si bx,
        parseStripeIndex fb.1 = some si
        ∧ fetchSiblings retrieved fetch
            ((((assocGet si (buildStripes (dictUpdate md.blocks md.parity_blocks))).getD
              []).filter (fun s => s.1 != fb.1))) = Except.ok bx
        ∧ v fb = (fb.1, calculate_parity bx)) →
      List.foldlM (fun acc fb =>
          match parseStripeIndex fb.1 with
          | none => Except.error "ValueError"
          | some si =>
            let stripe := (assocGet si
              (buildStripes (dictUpdate md.blocks md.parity_blocks))).getD []
            let sibs := stripe.filter (fun s => s.1 != fb.1)
            match fetchSiblings retrieved fetch sibs with
            | Except.error e => Except.error e
            | Except.ok bx => Except.ok (acc ++ [(fb.1, calculate_parity bx)])) acc failed
        = Except.ok (acc ++ failed.map v)
  | [], acc, _ => by
    simp only [List.map_nil, List.append_nil]
    rfl
  | fb :: t, acc, h => by
    obtain ⟨si, bx, hp, hf, hv⟩ := h fb (List.mem_cons_self _ _)
    rw [List.foldlM_cons]
    have hstep : (match parseStripeIndex fb.1 with
        | none => (Except.error "ValueError" : Except String (List (String × Bytes)))
        | some si =>
          let stripe := (assocGet si
            (buildStripes (dictUpdate md.blocks md.parity_blocks))).getD []
          let sibs := stripe.filter (fun s => s.1 != fb.1)
          match fetchSiblings retrieved fetch sibs with
          | Except.error e => Except.error e
          | Except.ok bx => Except.ok (acc ++ [(fb.1, calculate_parity bx)]))
        = Except.ok (acc ++ [v fb]) := by
      simp only [hp, hf, hv]
    rw [hstep]
    simp only [except_bind_ok]
    rw [foldRecon_ok md retrieved fetch v t (acc ++ [v fb])
      (fun x hx => h x (List.mem_cons_of_mem _ hx))]
    simp

theorem reconstruct_data_ok (md : FileMetadata) (retrieved : List (String × Bytes))
    (fetch : String → String → Option Bytes) (v : String × String → String × Bytes)
    (failed : List (String × String))
    (h : ∀ fb ∈ failed, ∃ si bx,
      parseStripeIndex fb.1 = some si
      ∧ fetchSiblings retrieved fetch
          ((((assocGet si (buildStripes (dictUpdate md.blocks md.parity_blocks))).getD
            []).filter (fun s => s.1 != fb.1))) = Except.ok bx
      ∧ v fb = (fb.1, calculate_parity bx)) :
    reconstruct_data md failed retrieved fetch = Except.ok (failed.map v) := by
  have hrw : reconstruct_data md failed retrieved fetch
      = List.foldlM (fun acc fb =>
          match parseStripeIndex fb.1 with
          | none => Except.error "ValueError"
          | some si =>
            let stripe := (assocGet si
              (buildStripes (dictUpdate md.blocks md.parity_blocks))).getD []
            let sibs := stripe.filter (fun s => s.1 != fb.1)
            match fetchSiblings retrieved fetch sibs with
            | Except.error e => Except.error e
            | Except.ok bx => Except.ok (acc ++ [(fb.1, calculate_parity bx)])) [] failed :=
    rfl
  rw [hrw]
  have haux := foldRecon_ok md retrieved fetch v failed [] h
  simpa using haux

/-! ### Reads with one node offline -/

/-- The blocks successfully fetched by `retrieve_file` when node `n` is
offline: every data block of the file stored on another node, with its
bytes. -/
def offRetrieved (bs N next0 : Nat) (fid : String) (content : Bytes) (n : Nat) :
    List (String × Bytes) :=
  ((List.range (numStripes bs N content.length)).map (fun i =>
    (List.range (chunkCount bs (stripeData bs N content i).length)).filterMap (fun j =>
      if (dataDisks N (get_parity_disk N (next0 + i))).getD j 0 = n then none
      else some (mkDataId fid i j, chunkAt bs (stripeData bs N content i) j)))).flatten

/-- The failed blocks of such a read: every data block of the file whose
recorded disk is the offline node, with that disk name. -/
def offFailed (bs N next0 : Nat) (fid : String) (content : Bytes) (n : Nat) :
    List (String × String) :=
  ((List.range (numStripes bs N content.length)).map (fun i =>
    (List.range (chunkCount bs (stripeData bs N content i).length)).filterMap (fun j =>
      if (dataDisks N (get_parity_disk N (next0 + i))).getD j 0 = n then
        some (mkDataId fid i j,
          diskName ((dataDisks N (get_parity_disk N (next0 + i))).getD j 0))
      else none))).flatten

theorem offline_fetch_block (bs N next0 : Nat) (fid fn : String) (content : Bytes)
    (hfid : cleanFid fid) (d0 : DiskStore) (n : Nat) (i j : Nat)
    (hi : i < numStripes bs N content.length)
    (hj : j < chunkCount bs (stripeData bs N content i).length) :
    offlineFetch (applyWrites d0 (store_file bs N next0 (fun _ => true) fid fn content).writes)
      n (mkDataId fid i j)
      (diskName ((dataDisks N (get_parity_disk N (next0 + i))).getD j 0))
    = if (dataDisks N (get_parity_disk N (next0 + i))).getD j 0 = n then none
      else some (chunkAt bs (stripeData bs N content i) j) := by
  unfold offlineFetch
  by_cases hcase : (dataDisks N (get_parity_disk N (next0 + i))).getD j 0 = n
  · rw [if_pos (by rw [hcase]), if_pos hcase]
  · rw [if_neg (fun hdn => hcase (diskName_inj _ _ hdn)), if_neg hcase]
    exact stored_data_block_fetch bs N next0 fid fn content hfid d0 i j hi hj

theorem off_results_split (bs N next0 : Nat) (fid fn : String) (content : Bytes)
    (hfid : cleanFid fid) (d0 : DiskStore) (n : Nat) :
    ((store_file bs N next0 (fun _ => true) fid fn content).metadata.blocks.map
        (fun e => (e.1, e.2, offlineFetch (applyWrites d0
          (store_file bs N next0 (fun _ => true) fid fn content).writes) n e.1 e.2))).filterMap
        (fun e => e.2.2.map (fun d => (e.1, d)))
      = offRetrieved bs N next0 fid content n
    ∧ ((store_file bs N next0 (fun _ => true) fid fn content).metadata.blocks.map
        (fun e => (e.1, e.2, offlineFetch (applyWrites d0
          (store_file bs N next0 (fun _ => true) fid fn content).writes) n e.1 e.2))).filterMap
        (fun e => if e.2.2.isNone then some (e.1, e.2.1) else none)
      = offFailed bs N next0 fid content n := by
  constructor
  · rw [store_file_blocks, List.map_flatten, List.filterMap_flatten, List.map_map,
      List.map_map]
    unfold offRetrieved
    congr 1
    refine List.map_congr_left ?_
    intro i hi
    have him := List.mem_range.1 hi
    simp only [Function.comp_apply, List.map_map, List.filterMap_map]
    refine filterMap_congr_mem _ _ _ ?_
    intro j hj
    have hjm := List.mem_range.1 hj
    simp only [Function.comp_apply]
    rw [offline_fetch_block bs N next0 fid fn content hfid d0 n i j him hjm]
    by_cases hcase : (dataDisks N (get_parity_disk N (next0 + i))).getD j 0 = n
    · rw [if_pos hcase, if_pos hcase]
      rfl
    · rw [if_neg hcase, if_neg hcase]
      rfl
  · rw [store_file_blocks, List.map_flatten, List.filterMap_flatten, List.map_map,
      List.map_map]
    unfold offFailed
    congr 1
    refine List.map_congr_left ?_
    intro i hi
    have him := List.mem_range.1 hi
    simp only [Function.comp_apply, List.map_map, List.filterMap_map]
    refine filterMap_congr_mem _ _ _ ?_
    intro j hj
    have hjm := List.mem_range.1 hj
    simp only [Function.comp_apply]
    rw [offline_fetch_block bs N next0 fid fn content hfid d0 n i j him hjm]
    by_cases hcase : (dataDisks N (get_parity_disk N (next0 + i))).getD j 0 = n
    · rw [if_pos hcase, if_pos hcase]
      rfl
    · rw [if_neg hcase, if_neg hcase]
      rfl

theorem offRetrieved_key_shape (bs N next0 : Nat) (fid : String) (content : Bytes)
    (n : Nat) :
    ∀ k ∈ (offRetrieved bs N next0 fid content n).map Prod.fst,
      ∃ i j, i < numStripes bs N content.length
        ∧ j < chunkCount bs (stripeData bs N content i).length
        ∧ (dataDisks N (get_parity_disk N (next0 + i))).getD j 0 ≠ n
        ∧ k = mkDataId fid i j := by
  intro k hk
  obtain ⟨e, he, rfl⟩ := List.mem_map.1 hk
  unfold offRetrieved at he
  obtain ⟨l, hl, hel⟩ := List.mem_flatten.1 he
  obtain ⟨i, hi, rfl⟩ := List.mem_map.1 hl
  obtain ⟨j, hj, hje⟩ := List.mem_filterMap.1 hel
  by_cases hcase : (dataDisks N (get_parity_disk N (next0 + i))).getD j 0 = n
  · rw [if_pos hcase] at hje
    cases hje
  · rw [if_neg hcase] at hje
    have he2 := Option.some.inj hje
    exact ⟨i, j, List.mem_range.1 hi, List.mem_range.1 hj, hcase, by rw [← he2]⟩

theorem offFailed_shape (bs N next0 : Nat) (fid : String) (content : Bytes) (n : Nat) :
    ∀ fb ∈ offFailed bs N next0 fid content n,
      ∃ i j, i < numStripes bs N content.length
        ∧ j < chunkCount bs (stripeData bs N content i).length
        ∧ (dataDisks N (get_parity_disk N (next0 + i))).getD j 0 = n
        ∧ fb = (mkDataId fid i j,
            diskName ((dataDisks N (get_parity_disk N (next0 + i))).getD j 0)) := by
  intro fb hfb
  unfold offFailed at hfb
  obtain ⟨l, hl, hel⟩ := List.mem_flatten.1 hfb
  obtain ⟨i, hi, rfl⟩ := List.mem_map.1 hl
  obtain ⟨j, hj, hje⟩ := List.mem_filterMap.1 hel
  by_cases hcase : (dataDisks N (get_parity_disk N (next0 + i))).getD j 0 = n
  · rw [if_pos hcase] at hje
    have he2 := Option.some.inj hje
    exact ⟨i, j, List.mem_range.1 hi, List.mem_range.1 hj, hcase, he2.symm⟩
  · rw [if_neg hcase] at hje
    cases hje

theorem offRetrieved_keys_nodup (bs N next0 : Nat) (fid : String) (content : Bytes)
    (n : Nat) (hfid : cleanFid fid) :
    ((offRetrieved bs N next0 fid content n).map Prod.fst).Nodup := by
  unfold offRetrieved
  rw [List.map_flatten, List.map_map]
  refine List.Nodup.sublist ?_ (dataIds_nodup fid hfid (numStripes bs N content.length)
    (fun i => chunkCount bs (stripeData bs N content i).length))
  refine flatten_range_sublist _ _ _ ?_
  intro i _
  simp only [Function.comp_apply]
  have hmapfm : ((List.range (chunkCount bs (stripeData bs N content i).length)).filterMap
      (fun j => if (dataDisks N (get_parity_disk N (next0 + i))).getD j 0 = n then none
        else some (mkDataId fid i j, chunkAt bs (stripeData bs N content i) j))).map
        Prod.fst
      = (List.range (chunkCount bs (stripeData bs N content i).length)).filterMap
        (fun j => if (dataDisks N (get_parity_disk N (next0 + i))).getD j 0 = n then none
          else some (mkDataId fid i j)) := by
    rw [List.map_filterMap]
    refine filterMap_congr_mem _ _ _ ?_
    intro j _
    by_cases hcase : (dataDisks N (get_parity_disk N (next0 + i))).getD j 0 = n
    · rw [if_pos hcase, if_pos hcase]
      rfl
    · rw [if_neg hcase, if_neg hcase]
      rfl
  rw [hmapfm]
  exact filterMap_ite_sublist_none _ _ _

theorem offFailed_keys_nodup (bs N next0 : Nat) (fid : String) (content : Bytes)
    (n : Nat) (hfid : cleanFid fid) :
    ((offFailed bs N next0 fid content n).map Prod.fst).Nodup := by
  unfold offFailed
  rw [List.map_flatten, List.map_map]
  refine List.Nodup.sublist ?_ (dataIds_nodup fid hfid (numStripes bs N content.length)
    (fun i => chunkCount bs (stripeData bs N content i).length))
  refine flatten_range_sublist _ _ _ ?_
  intro i _
  simp only [Function.comp_apply]
  have hmapfm : ((List.range (chunkCount bs (stripeData bs N content i).length)).filterMap
      (fun j => if (dataDisks N (get_parity_disk N (next0 + i))).getD j 0 = n then
        some (mkDataId fid i j,
          diskName ((dataDisks N (get_parity_disk N (next0 + i))).getD j 0))
        else none)).map Prod.fst
      = (List.range (chunkCount bs (stripeData bs N content i).length)).filterMap
        (fun j => if (dataDisks N (get_parity_disk N (next0 + i))).getD j 0 = n then
          some (mkDataId fid i j) else none) := by
    rw [List.map_filterMap]
    refine filterMap_congr_mem _ _ _ ?_
    intro j _
    by_cases hcase : (dataDisks N (get_parity_disk N (next0 + i))).getD j 0 = n
    · rw [if_pos hcase, if_pos hcase]
      rfl
    · rw [if_neg hcase, if_neg hcase]
      rfl
  rw [hmapfm]
  exact filterMap_ite_sublist _ _ _

theorem offRetrieved_get (bs N next0 : Nat) (fid : String) (content : Bytes) (n : Nat)
    (hfid : cleanFid fid) (i j : Nat) (hi : i < numStripes bs N content.length)
    (hj : j < chunkCount bs (stripeData bs N content i).length)
    (hne : (dataDisks N (get_parity_disk N (next0 + i))).getD j 0 ≠ n) :
    assocGet (mkDataId fid i j) (offRetrieved bs N next0 fid content n)
      = some (chunkAt bs (stripeData bs N content i) j) := by
  refine assocGet_eq_some_of_mem _ _ _ (offRetrieved_keys_nodup bs N next0 fid content n hfid) ?_
  unfold offRetrieved
  refine List.mem_flatten.2 ⟨_, List.mem_map.2 ⟨i, List.mem_range.2 hi, rfl⟩, ?_⟩
  refine List.mem_filterMap.2 ⟨j, List.mem_range.2 hj, ?_⟩
  rw [if_neg hne]

theorem offRetrieved_get_parity_none (bs N next0 : Nat) (fid : String) (content : Bytes)
    (n : Nat) (hfid : cleanFid fid) (i : Nat) :
    assocGet (mkParityId fid i) (offRetrieved bs N next0 fid content n) = none := by
  rw [assocGet_none_iff]
  intro hmem
  obtain ⟨i', j', _, _, _, hk⟩ :=
    offRetrieved_key_shape bs N next0 fid content n _ hmem
  exact mkParityId_ne_dataId fid fid i i' j' hfid hfid hk

theorem offRetrieved_get_failed_none (bs N next0 : Nat) (fid : String) (content : Bytes)
    (n : Nat) (hfid : cleanFid fid) (i j0 : Nat)
    (heq : (dataDisks N (get_parity_disk N (next0 + i))).getD j0 0 = n) :
    assocGet (mkDataId fid i j0) (offRetrieved bs N next0 fid content n) = none := by
  rw [assocGet_none_iff]
  intro hmem
  obtain ⟨i', j', _, _, hne, hk⟩ :=
    offRetrieved_key_shape bs N next0 fid content n _ hmem
  obtain ⟨_, hii, hjj⟩ := mkDataId_inj fid fid i j0 i' j' hfid hfid hk
  rw [← hii, ← hjj] at hne
  exact hne heq

theorem chunkCount_stripe_pos (bs N : Nat) (content : Bytes) (hbs : 0 < bs) (hN : 2 ≤ N)
    (i : Nat) (hi : i < numStripes bs N content.length) :
    0 < chunkCount bs (stripeData bs N content i).length := by
  refine (lt_chunkCount_iff hbs).2 ?_
  have := stripeData_len_pos bs N content i hbs hN hi
  omega

theorem chunkCount_stripe_le (bs N : Nat) (content : Bytes) (hbs : 0 < bs) (i : Nat) :
    chunkCount bs (stripeData bs N content i).length ≤ N - 1 := by
  apply chunkCount_le_of_le hbs
  have h1 := length_stripeData bs N content i
  have h2 : (stripeData bs N content i).length ≤ stripeSize bs N := by omega
  calc (stripeData bs N content i).length ≤ stripeSize bs N := h2
    _ = (N - 1) * bs := by
        unfold stripeSize
        ring

/-- The stripe grouping built by the read path for one committed file. -/
theorem off_buildStripes (bs N next0 : Nat) (fid fn : String) (content : Bytes)
    (hfid : cleanFid fid) (hbs : 0 < bs) (hN : 2 ≤ N) :
    buildStripes (dictUpdate
      (store_file bs N next0 (fun _ => true) fid fn content).metadata.blocks
      (store_file bs N next0 (fun _ => true) fid fn content).metadata.parity_blocks)
    = (List.range (numStripes bs N content.length)).map (fun i =>
        (i, (List.range (chunkCount bs (stripeData bs N content i).length)).map (fun j =>
            (mkDataId fid i j,
             diskName ((dataDisks N (get_parity_disk N (next0 + i))).getD j 0)))
          ++ [(mkParityId fid i, diskName (get_parity_disk N (next0 + i)))])) := by
  have hdict : dictUpdate
      (store_file bs N next0 (fun _ => true) fid fn content).metadata.blocks
      (store_file bs N next0 (fun _ => true) fid fn content).metadata.parity_blocks
      = (store_file bs N next0 (fun _ => true) fid fn content).metadata.blocks
        ++ (store_file bs N next0 (fun _ => true) fid fn content).metadata.parity_blocks := by
    refine dictUpdate_of_disjoint _ _ ?_ ?_
    · rw [store_file_parity_blocks, List.map_map]
      refine List.Nodup.map_on ?_ (List.nodup_range _)
      intro x _ y _ hxy
      simp only [Function.comp_apply] at hxy
      exact (mkParityId_inj fid fid x y hfid hfid hxy).2
    · intro k hk hk2
      rw [store_file_parity_blocks, List.map_map] at hk
      obtain ⟨i, _, rfl⟩ := List.mem_map.1 hk
      obtain ⟨pp, hpp, hppk⟩ := List.mem_map.1 hk2
      obtain ⟨i', j', hshape⟩ :=
        store_file_blocks_key_shape bs N next0 (fun _ => true) fid fn content pp hpp
      rw [hshape] at hppk
      exact mkParityId_ne_dataId fid fid i i' j' hfid hfid hppk.symm
  rw [hdict, store_file_blocks, store_file_parity_blocks]
  exact buildStripes_eq fid hfid (numStripes bs N content.length)
    (fun i => chunkCount bs (stripeData bs N content i).length)
    (fun i hi => chunkCount_stripe_pos bs N content hbs hN i hi)
    (fun i j => diskName ((dataDisks N (get_parity_disk N (next0 + i))).getD j 0))
    (fun i => diskName (get_parity_disk N (next0 + i)))

theorem off_sibs (bs N next0 : Nat) (fid : String) (content : Bytes)
    (hfid : cleanFid fid) (i j0 : Nat) :
    ((List.range (chunkCount bs (stripeData bs N content i).length)).map (fun j =>
        (mkDataId fid i j,
         diskName ((dataDisks N (get_parity_disk N (next0 + i))).getD j 0)))
      ++ [(mkParityId fid i, diskName (get_parity_disk N (next0 + i)))]).filter
        (fun s => s.1 != mkDataId fid i j0)
    = (((List.range (chunkCount bs (stripeData bs N content i).length)).filter
        (fun j => j != j0)).map (fun j =>
          (mkDataId fid i j,
           diskName ((dataDisks N (get_parity_disk N (next0 + i))).getD j 0))))
      ++ [(mkParityId fid i, diskName (get_parity_disk N (next0 + i)))] := by
  rw [List.filter_append]
  congr 1
  · rw [List.filter_map]
    congr 1
    refine List.filter_congr ?_
    intro j _
    simp only [Function.comp_apply]
    by_cases hcase : j = j0
    · subst hcase
      simp
    · have h1 : (mkDataId fid i j != mkDataId fid i j0) = true :=
        bne_iff_ne.mpr (fun he => hcase (mkDataId_inj fid fid i j i j0 hfid hfid he).2.2)
      have h2 : (j != j0) = true := bne_iff_ne.mpr hcase
      rw [h1, h2]
  · simp only [List.filter_cons, List.filter_nil]
    rw [if_pos (bne_iff_ne.mpr (mkParityId_ne_dataId fid fid i i j0 hfid hfid))]

theorem off_lengths (bs N next0 : Nat) (fid fn : String) (content : Bytes) (n : Nat) :
    (offRetrieved bs N next0 fid content n).length
      + (offFailed bs N next0 fid content n).length
      = (store_file bs N next0 (fun _ => true) fid fn content).metadata.blocks.length := by
  rw [store_file_blocks]
  unfold offRetrieved offFailed
  simp only [List.length_flatten, List.map_map]
  rw [sum_map_add_nat]
  congr 1
  refine List.map_congr_left ?_
  intro i _
  simp only [Function.comp_apply, List.length_map]
  exact filterMap_ite_partition_length
    (List.range (chunkCount bs (stripeData bs N content i).length))
    (fun j => (dataDisks N (get_parity_disk N (next0 + i))).getD j 0 = n)
    (fun j => (mkDataId fid i j, chunkAt bs (stripeData bs N content i) j))
    (fun j => (mkDataId fid i j,
      diskName ((dataDisks N (get_parity_disk N (next0 + i))).getD j 0)))

theorem off_retrieved2_get (bs N next0 : Nat) (fid : String) (content : Bytes) (n : Nat)
    (hfid : cleanFid fid) (i j : Nat) (hi : i < numStripes bs N content.length)
    (hj : j < chunkCount bs (stripeData bs N content i).length) :
    assocGet (mkDataId fid i j)
      (offRetrieved bs N next0 fid content n
        ++ (offFailed bs N next0 fid content n).map
          (fun fb => (fb.1, fileChunk bs N fid content fb.1)))
      = some (chunkAt bs (stripeData bs N content i) j) := by
  by_cases hcase : (dataDisks N (get_parity_disk N (next0 + i))).getD j 0 = n
  · rw [assocGet_append_left _ _ _
      ((assocGet_none_iff _ _).1
        (offRetrieved_get_failed_none bs N next0 fid content n hfid i j hcase))]
    have hmem : (mkDataId fid i j, fileChunk bs N fid content (mkDataId fid i j))
        ∈ (offFailed bs N next0 fid content n).map
          (fun fb => (fb.1, fileChunk bs N fid content fb.1)) := by
      refine List.mem_map.2 ⟨(mkDataId fid i j,
        diskName ((dataDisks N (get_parity_disk N (next0 + i))).getD j 0)), ?_, rfl⟩
      unfold offFailed
      refine List.mem_flatten.2 ⟨_, List.mem_map.2 ⟨i, List.mem_range.2 hi, rfl⟩, ?_⟩
      refine List.mem_filterMap.2 ⟨j, List.mem_range.2 hj, ?_⟩
      rw [if_pos hcase]
    have hnd : (((offFailed bs N next0 fid content n).map
        (fun fb => (fb.1, fileChunk bs N fid content fb.1))).map Prod.fst).Nodup := by
      rw [List.map_map]
      have hcomp : (Prod.fst ∘ fun fb : String × String =>
          (fb.1, fileChunk bs N fid content fb.1)) = Prod.fst := rfl
      rw [hcomp]
      exact offFailed_keys_nodup bs N next0 fid content n hfid
    rw [assocGet_eq_some_of_mem _ _ _ hnd hmem,
      fileBlockData_get bs N fid content hfid i j hi hj]
  · exact assocGet_append_some _ _ _ _
      (offRetrieved_get bs N next0 fid content n hfid i j hi hj hcase)

/-- Final assembly of any read whose per-identifier lookups all return
the stored chunk: sorting, concatenating and truncating recovers the
content, for any association list with the right lookups. -/
theorem retrieve_assembly_gen (bs N next0 : Nat) (fid fn : String) (content : Bytes)
    (hbs : 0 < bs) (hN : 2 ≤ N) (hN11 : N ≤ 11)
    (hm10 : numStripes bs N content.length ≤ 10) (hfid : cleanFid fid)
    (A : List (String × Bytes))
    (hA : ∀ i j, i < numStripes bs N content.length →
      j < chunkCount bs (stripeData bs N content i).length →
      assocGet (mkDataId fid i j) A = some (chunkAt bs (stripeData bs N content i) j)) :
    (((pySorted ((store_file bs N next0 (fun _ => true) fid fn content).metadata.blocks.map
        (fun e => e.1))).map (fun bid => (assocGet bid A).getD [])).flatten).take
      content.length = content := by
  have hc10 : ∀ i < numStripes bs N content.length,
      chunkCount bs (stripeData bs N content i).length ≤ 10 := by
    intro i _
    have := chunkCount_stripe_le bs N content hbs i
    omega
  have hkeys := store_file_block_keys bs N next0 (fun _ => true) fid fn content
  have hsorted : pySorted ((store_file bs N next0 (fun _ => true) fid fn
      content).metadata.blocks.map (fun e => e.1))
      = ((List.range (numStripes bs N content.length)).map (fun i =>
          (List.range (chunkCount bs (stripeData bs N content i).length)).map
            (fun j => mkDataId fid i j))).flatten := by
    rw [hkeys]
    exact List.Sorted.insertionSort_eq (dataIds_pairwise fid _ _ hm10 hc10)
  rw [hsorted, List.map_flatten, List.map_map]
  have hch : (List.range (numStripes bs N content.length)).map
      ((List.map (fun bid => (assocGet bid A).getD [])) ∘ (fun i =>
        (List.range (chunkCount bs (stripeData bs N content i).length)).map
          (fun j => mkDataId fid i j)))
      = (List.range (numStripes bs N content.length)).map (fun i =>
          (List.range (chunkCount bs (stripeData bs N content i).length)).map
            (chunkAt bs (stripeData bs N content i))) := by
    refine List.map_congr_left ?_
    intro i hi
    have him := List.mem_range.1 hi
    simp only [Function.comp_apply, List.map_map]
    refine List.map_congr_left ?_
    intro j hj
    have hjm := List.mem_range.1 hj
    simp only [Function.comp_apply]
    rw [hA i j him hjm]
    rfl
  rw [hch]
  obtain ⟨pad, hpad⟩ := chunks_assembly bs N content hbs hN
  rw [hpad, List.take_left]

/-- Each failed block of a degraded read reconstructs to exactly the
bytes the write path stored for it: its stripe's surviving data blocks
are served from the already-retrieved cache, the parity block is fetched
from its (online) disk, and the XOR of those N-1 blocks is the missing
block. -/
theorem off_failed_recon (bs N next0 : Nat) (fid fn : String) (content : Bytes)
    (hbs : 0 < bs) (hN : 2 ≤ N) (hfid : cleanFid fid) (d0 : DiskStore) (n : Nat) :
    ∀ fb ∈ offFailed bs N next0 fid content n, ∃ si bx,
      parseStripeIndex fb.1 = some si
      ∧ fetchSiblings (offRetrieved bs N next0 fid content n)
          (offlineFetch (applyWrites d0
            (store_file bs N next0 (fun _ => true) fid fn content).writes) n)
          ((((assocGet si (buildStripes (dictUpdate
              (store_file bs N next0 (fun _ => true) fid fn content).metadata.blocks
              (store_file bs N next0 (fun _ => true) fid fn
                content).metadata.parity_blocks))).getD []).filter
            (fun s => s.1 != fb.1))) = Except.ok bx
      ∧ (fb.1, fileChunk bs N fid content fb.1) = (fb.1, calculate_parity bx) := by
  intro fb hfb
  obtain ⟨i, j0, hi, hj0, heq, hfbeq⟩ := offFailed_shape bs N next0 fid content n fb hfb
  subst hfbeq
  have hpn : get_parity_disk N (next0 + i) < N := Nat.mod_lt _ (by omega)
  have hdlen : (dataDisks N (get_parity_disk N (next0 + i))).length = N - 1 :=
    length_dataDisks N _ hpn
  have hcle : chunkCount bs (stripeData bs N content i).length ≤ N - 1 :=
    chunkCount_stripe_le bs N content hbs i
  have hj0len : j0 < (dataDisks N (get_parity_disk N (next0 + i))).length := by omega
  show ∃ si bx,
    parseStripeIndex (mkDataId fid i j0) = some si
    ∧ fetchSiblings (offRetrieved bs N next0 fid content n)
        (offlineFetch (applyWrites d0
          (store_file bs N next0 (fun _ => true) fid fn content).writes) n)
        ((((assocGet si (buildStripes (dictUpdate
            (store_file bs N next0 (fun _ => true) fid fn content).metadata.blocks
            (store_file bs N next0 (fun _ => true) fid fn
              content).metadata.parity_blocks))).getD []).filter
          (fun s => s.1 != mkDataId fid i j0))) = Except.ok bx
    ∧ (mkDataId fid i j0, fileChunk bs N fid content (mkDataId fid i j0))
        = (mkDataId fid i j0, calculate_parity bx)
  have hfs : fetchSiblings (offRetrieved bs N next0 fid content n)
      (offlineFetch (applyWrites d0
        (store_file bs N next0 (fun _ => true) fid fn content).writes) n)
      ((((List.range (chunkCount bs (stripeData bs N content i).length)).filter
        (fun j => j != j0)).map (fun j =>
          (mkDataId fid i j,
           diskName ((dataDisks N (get_parity_disk N (next0 + i))).getD j 0))))
        ++ [(mkParityId fid i, diskName (get_parity_disk N (next0 + i)))])
      = Except.ok (((((List.range (chunkCount bs (stripeData bs N content i).length)).filter
        (fun j => j != j0)).map (fun j =>
          (mkDataId fid i j,
           diskName ((dataDisks N (get_parity_disk N (next0 + i))).getD j 0))))
        ++ [(mkParityId fid i, diskName (get_parity_disk N (next0 + i)))]).map
        (fun sb => if sb.1 = mkParityId fid i
          then (distribute_blocks bs (stripeData bs N content i)).2
          else fileChunk bs N fid content sb.1)) := by
    refine fetchSiblings_ok _ _
      (fun sb => if sb.1 = mkParityId fid i
        then (distribute_blocks bs (stripeData bs N content i)).2
        else fileChunk bs N fid content sb.1) _ ?_
    intro sb hsb
    rcases List.mem_append.1 hsb with hdata | hpar
    · obtain ⟨j, hjf, rfl⟩ := List.mem_map.1 hdata
      obtain ⟨hjr, hjne0⟩ := List.mem_filter.1 hjf
      have hjm := List.mem_range.1 hjr
      have hjne : j ≠ j0 := bne_iff_ne.mp hjne0
      have hdne : (dataDisks N (get_parity_disk N (next0 + i))).getD j 0 ≠ n := by
        intro hd
        exact hjne (dataDisks_getD_inj N _ j j0 (by omega) hj0len (hd.trans heq.symm))
      show (if ((assocGet (mkDataId fid i j)
          (offRetrieved bs N next0 fid content n)).getD []) = []
        then offlineFetch (applyWrites d0
          (store_file bs N next0 (fun _ => true) fid fn content).writes) n
          (mkDataId fid i j)
          (diskName ((dataDisks N (get_parity_disk N (next0 + i))).getD j 0))
        else some ((assocGet (mkDataId fid i j)
          (offRetrieved bs N next0 fid content n)).getD [])) = _
      rw [offRetrieved_get bs N next0 fid content n hfid i j hi hjm hdne,
        Option.getD_some,
        if_neg (List.ne_nil_of_length_pos (by rw [length_chunkAt]; omega))]
      have hne2 : ¬ (mkDataId fid i j = mkParityId fid i) :=
        fun he => mkParityId_ne_dataId fid fid i i j hfid hfid he.symm
      show some (chunkAt bs (stripeData bs N content i) j)
        = some (if mkDataId fid i j = mkParityId fid i
            then (distribute_blocks bs (stripeData bs N content i)).2
            else fileChunk bs N fid content (mkDataId fid i j))
      rw [if_neg hne2, fileBlockData_get bs N fid content hfid i j hi hjm]
    · rw [List.mem_singleton.1 hpar]
      show (if ((assocGet (mkParityId fid i)
          (offRetrieved bs N next0 fid content n)).getD []) = []
        then offlineFetch (applyWrites d0
          (store_file bs N next0 (fun _ => true) fid fn content).writes) n
          (mkParityId fid i) (diskName (get_parity_disk N (next0 + i)))
        else some ((assocGet (mkParityId fid i)
          (offRetrieved bs N next0 fid content n)).getD [])) = _
      rw [offRetrieved_get_parity_none bs N next0 fid content n hfid i]
      have hgd : ((none : Option Bytes).getD []) = ([] : Bytes) := rfl
      rw [if_pos hgd]
      have hnmem : n ∈ dataDisks N (get_parity_disk N (next0 + i)) := by
        have := dataDisks_getD_mem N (get_parity_disk N (next0 + i)) j0 hj0len
        rw [heq] at this
        exact this
      have hnp : n ≠ get_parity_disk N (next0 + i) :=
        ((mem_dataDisks N _ n).1 hnmem).2
      have hdn : ¬ (diskName (get_parity_disk N (next0 + i)) = diskName n) :=
        fun he => hnp (diskName_inj _ _ he).symm
      show offlineFetch (applyWrites d0
          (store_file bs N next0 (fun _ => true) fid fn content).writes) n
          (mkParityId fid i) (diskName (get_parity_disk N (next0 + i)))
        = some (if mkParityId fid i = mkParityId fid i
            then (distribute_blocks bs (stripeData bs N content i)).2
            else fileChunk bs N fid content (mkParityId fid i))
      unfold offlineFetch
      rw [if_neg hdn, if_pos rfl]
      unfold diskFetch
      exact applyWrites_mem d0 _
        (BlockWrite.mk (diskName (get_parity_disk N (next0 + i))) (mkParityId fid i)
          (distribute_blocks bs (stripeData bs N content i)).2)
        (store_file_writeKeys_nodup bs N next0 _ fid fn content (fun _ => rfl) hfid)
        (store_file_parity_write_mem bs N next0 fid fn content i hi)
  have hmap : ((((List.range (chunkCount bs (stripeData bs N content i).length)).filter
        (fun j => j != j0)).map (fun j =>
          (mkDataId fid i j,
           diskName ((dataDisks N (get_parity_disk N (next0 + i))).getD j 0))))
        ++ [(mkParityId fid i, diskName (get_parity_disk N (next0 + i)))]).map
        (fun sb => if sb.1 = mkParityId fid i
          then (distribute_blocks bs (stripeData bs N content i)).2
          else fileChunk bs N fid content sb.1)
        = (((List.range (chunkCount bs (stripeData bs N content i).length)).map
            (chunkAt bs (stripeData bs N content i))).eraseIdx j0)
          ++ [calculate_parity ((List.range
              (chunkCount bs (stripeData bs N content i).length)).map
              (chunkAt bs (stripeData bs N content i)))] := by
    rw [List.map_append]
    congr 1
    · rw [List.map_map]
      have hcong : ((List.range (chunkCount bs (stripeData bs N content i).length)).filter
          (fun j => j != j0)).map ((fun sb : String × String =>
            if sb.1 = mkParityId fid i
            then (distribute_blocks bs (stripeData bs N content i)).2
            else fileChunk bs N fid content sb.1) ∘ (fun j =>
              (mkDataId fid i j,
               diskName ((dataDisks N (get_parity_disk N (next0 + i))).getD j 0))))
          = ((List.range (chunkCount bs (stripeData bs N content i).length)).filter
            (fun j => j != j0)).map (chunkAt bs (stripeData bs N content i)) := by
        refine List.map_congr_left ?_
        intro j hj
        obtain ⟨hjr, _⟩ := List.mem_filter.1 hj
        have hjm := List.mem_range.1 hjr
        simp only [Function.comp_apply]
        have hne2 : ¬ (mkDataId fid i j = mkParityId fid i) :=
          fun he => mkParityId_ne_dataId fid fid i i j hfid hfid he.symm
        rw [if_neg hne2, fileBlockData_get bs N fid content hfid i j hi hjm]
      rw [hcong, filter_ne_range _ j0 hj0, map_eraseIdx]
    · simp only [List.map_cons, List.map_nil, if_true]
      rfl
  have hrec := reconstruction_xor bs
    ((List.range (chunkCount bs (stripeData bs N content i).length)).map
      (chunkAt bs (stripeData bs N content i))) j0
    (by rw [List.length_map, List.length_range]; exact hj0) hbs
    (by
      intro x hx
      obtain ⟨j, _, rfl⟩ := List.mem_map.1 hx
      exact length_chunkAt bs _ j)
  refine ⟨i, (((List.range (chunkCount bs (stripeData bs N content i).length)).map
      (chunkAt bs (stripeData bs N content i))).eraseIdx j0)
    ++ [calculate_parity ((List.range
        (chunkCount bs (stripeData bs N content i).length)).map
        (chunkAt bs (stripeData bs N content i)))],
    parseStripeIndex_dataId fid hfid i j0, ?_, ?_⟩
  · rw [off_buildStripes bs N next0 fid fn content hfid hbs hN,
      assocGet_range_pairs (numStripes bs N content.length) _ i hi,
      Option.getD_some, off_sibs bs N next0 fid content hfid i j0, hfs, hmap]
  · rw [hrec]
    congr 1
    rw [fileBlockData_get bs N fid content hfid i j0 hi hj0]
    rw [List.getElem_map, List.getElem_range]

/-- Claim C4 counterexample (closed): the same 33-byte, eleven-stripe
file as in the round-trip counterexample, read while node index 0 is
offline: every missing block is reconstructed, but the string sort of
the block identifiers still permutes the stripes, so the download does
not return the file bytes. -/
theorem claim_C4_counterexample :
    retrieve_file
      [("cafebabe", (store_file 1 4 0 (fun _ => true) "cafebabe" "f.bin" bytes33).metadata)]
      "cafebabe"
      (offlineFetch (applyWrites []
        (store_file 1 4 0 (fun _ => true) "cafebabe" "f.bin" bytes33).writes) 0)
      ≠ Except.ok (some ("f.bin", bytes33)) := by
  decide

/-- Claim C4 (amended): degraded-read correctness holds for every
committed file of at most ten stripes (2 ≤ N ≤ 11 nodes, positive block
size): with any single node offline, the download still returns exactly
the file bytes, each missing block being reconstructed as the XOR of
the N-1 available blocks of its stripe (the stripe's other data blocks
from the already-retrieved set, plus its parity block fetched from an
online node).  Beyond ten stripes the identifier sort defect of the
read path breaks the result exactly as in the healthy case. -/
theorem claim_C4_degraded_read (bs N next0 : Nat) (fid fn : String) (content : Bytes)
    (d0 : DiskStore) (n : Nat) (hbs : 0 < bs) (hN : 2 ≤ N) (hN11 : N ≤ 11)
    (hn : n < N) (hm10 : numStripes bs N content.length ≤ 10) (hfid : cleanFid fid) :
    retrieve_file
      [(fid, (store_file bs N next0 (fun _ => true) fid fn content).metadata)]
      fid
      (offlineFetch (applyWrites d0
        (store_file bs N next0 (fun _ => true) fid fn content).writes) n)
    = Except.ok (some (fn, content)) := by
  by_cases hfail : offFailed bs N next0 fid content n = []
  · have hall : ∀ e ∈ (store_file bs N next0 (fun _ => true) fid fn content).metadata.blocks,
        offlineFetch (applyWrites d0
          (store_file bs N next0 (fun _ => true) fid fn content).writes) n e.1 e.2
          = some (fileChunk bs N fid content e.1) := by
      intro e he
      rw [store_file_blocks] at he
      obtain ⟨l, hl, hel⟩ := List.mem_flatten.1 he
      obtain ⟨i, hi, rfl⟩ := List.mem_map.1 hl
      obtain ⟨j, hj, rfl⟩ := List.mem_map.1 hel
      have him := List.mem_range.1 hi
      have hjm := List.mem_range.1 hj
      have hne : (dataDisks N (get_parity_disk N (next0 + i))).getD j 0 ≠ n := by
        intro hcase
        have hmem : (mkDataId fid i j,
            diskName ((dataDisks N (get_parity_disk N (next0 + i))).getD j 0))
            ∈ offFailed bs N next0 fid content n := by
          unfold offFailed
          refine List.mem_flatten.2 ⟨_, List.mem_map.2 ⟨i, List.mem_range.2 him, rfl⟩, ?_⟩
          refine List.mem_filterMap.2 ⟨j, List.mem_range.2 hjm, ?_⟩
          rw [if_pos hcase]
        rw [hfail] at hmem
        cases hmem
      show offlineFetch (applyWrites d0
          (store_file bs N next0 (fun _ => true) fid fn content).writes) n
          (mkDataId fid i j)
          (diskName ((dataDisks N (get_parity_disk N (next0 + i))).getD j 0)) = _
      rw [offline_fetch_block bs N next0 fid fn content hfid d0 n i j him hjm,
        if_neg hne, fileBlockData_get bs N fid content hfid i j him hjm]
    rw [retrieve_file_all_ok
      [(fid, (store_file bs N next0 (fun _ => true) fid fn content).metadata)] fid _
      (store_file bs N next0 (fun _ => true) fid fn content).metadata
      (fileChunk bs N fid content) (by simp [assocGet]) hall,
      store_file_filename, store_file_size,
      retrieve_assembly bs N next0 fid fn content hbs hN hN11 hm10 hfid]
  · obtain ⟨hres1, hres2⟩ := off_results_split bs N next0 fid fn content hfid d0 n
    have hrecon := reconstruct_data_ok
      (store_file bs N next0 (fun _ => true) fid fn content).metadata
      (offRetrieved bs N next0 fid content n)
      (offlineFetch (applyWrites d0
        (store_file bs N next0 (fun _ => true) fid fn content).writes) n)
      (fun fb => (fb.1, fileChunk bs N fid content fb.1))
      (offFailed bs N next0 fid content n)
      (off_failed_recon bs N next0 fid fn content hbs hN hfid d0 n)
    have hie : (offFailed bs N next0 fid content n).isEmpty = false := by
      cases hcase2 : offFailed bs N next0 fid content n with
      | nil => exact absurd hcase2 hfail
      | cons a t => rfl
    have hdict : dictUpdate (offRetrieved bs N next0 fid content n)
        ((offFailed bs N next0 fid content n).map
          (fun fb => (fb.1, fileChunk bs N fid content fb.1)))
        = offRetrieved bs N next0 fid content n
          ++ (offFailed bs N next0 fid content n).map
            (fun fb => (fb.1, fileChunk bs N fid content fb.1)) := by
      refine dictUpdate_of_disjoint _ _ ?_ ?_
      · rw [List.map_map]
        have hcomp : (Prod.fst ∘ fun fb : String × String =>
            (fb.1, fileChunk bs N fid content fb.1)) = Prod.fst := rfl
        rw [hcomp]
        exact offFailed_keys_nodup bs N next0 fid content n hfid
      · intro k hk hk2
        rw [List.map_map] at hk
        have hcomp : (Prod.fst ∘ fun fb : String × String =>
            (fb.1, fileChunk bs N fid content fb.1)) = Prod.fst := rfl
        rw [hcomp] at hk
        obtain ⟨fb, hfb, rfl⟩ := List.mem_map.1 hk
        obtain ⟨i, j0, _, _, heq, rfl⟩ := offFailed_shape bs N next0 fid content n fb hfb
        obtain ⟨i', j', _, _, hne, hkk⟩ :=
          offRetrieved_key_shape bs N next0 fid content n _ hk2
        obtain ⟨_, hii, hjj⟩ := mkDataId_inj fid fid i j0 i' j' hfid hfid hkk
        rw [← hii, ← hjj] at hne
        exact hne heq
    have hlen := off_lengths bs N next0 fid fn content n
    have hnotlt : ¬ (offRetrieved bs N next0 fid content n
        ++ (offFailed bs N next0 fid content n).map
          (fun fb => (fb.1, fileChunk bs N fid content fb.1))).length
        < (store_file bs N next0 (fun _ => true) fid fn content).metadata.blocks.length := by
      rw [List.length_append, List.length_map]
      omega
    simp only [retrieve_file, show assocGet fid
        [(fid, (store_file bs N next0 (fun _ => true) fid fn content).metadata)]
        = some (store_file bs N next0 (fun _ => true) fid fn content).metadata
      from by simp [assocGet],
      hres2, hres1, hie, Bool.false_eq_true, if_false, hrecon]
    rw [hdict, if_neg hnotlt, store_file_filename, store_file_size,
      retrieve_assembly_gen bs N next0 fid fn content hbs hN hN11 hm10 hfid _
        (fun i j hi hj => off_retrieved2_get bs N next0 fid content n hfid i j hi hj)]

/-- Witness for the amended C4: a 16-byte file on four nodes with block
size 8 (one stripe: two data blocks and parity), read with node index 1
offline so its data block is reconstructed from the other data block and
the parity. -/
theorem claim_C4_degraded_read_witness :
    0 < 8 ∧ 2 ≤ 4 ∧ (4 : Nat) ≤ 11 ∧ 1 < 4 ∧ numStripes 8 4 bytes16.length ≤ 10
    ∧ cleanFid "cafebabe"
    ∧ retrieve_file
        [("cafebabe",
          (store_file 8 4 0 (fun _ => true) "cafebabe" "data.bin" bytes16).metadata)]
        "cafebabe"
        (offlineFetch (applyWrites []
          (store_file 8 4 0 (fun _ => true) "cafebabe" "data.bin" bytes16).writes) 1)
      = Except.ok (some ("data.bin", bytes16)) :=
  ⟨by decide, by decide, by decide, by decide, by decide, by decide,
   claim_C4_degraded_read 8 4 0 "cafebabe" "data.bin" bytes16 [] 1 (by decide) (by decide)
     (by decide) (by decide) (by decide) (by decide)⟩

end Tecmfs
